import Mathlib

/-!
# Proxino relay proxy: address validation, request dispatch and HTML rewriting

A shallow embedding of `backend/internal/handlers/handlers.go`.

Go strings are modelled as lists of runes (`Str`), that is, as valid UTF-8 text.
The functions of the Go standard library the handlers call (`net.ParseIP`,
`net.ParseCIDR`, `net.SplitHostPort`, `strconv.Atoi`, `strings.*`, `regexp`, `url.Parse`,
the string encoding of `encoding/json`) are modelled next to the code that uses them,
following the library's algorithms. The stored settings are byte strings.
-/

namespace Proxino

/-- Go strings, as lists of runes. -/
abbrev Str := List Char

/-! ## Library: `net/netip` and `net` address parsing -/

/-- The loop of `netip.parseIPv4Fields`: `prev` is the byte before the current one
(`none` at index 0), `val` and `digLen` the value and digit count of the current
octet, `fields` the octets stored so far (`pos = fields.length`). -/
def parseIPv4Loop : Str → Option Char → Nat → Nat → List Nat → Option (List Nat)
  | [], _, val, _, fields => if fields.length < 3 then none else some (fields ++ [val])
  | c :: cs, prev, val, digLen, fields =>
    if c.isDigit then
      if digLen = 1 ∧ val = 0 then none
      else if val * 10 + (c.toNat - 48) > 255 then none
      else parseIPv4Loop cs (some c) (val * 10 + (c.toNat - 48)) (digLen + 1) fields
    else if c = '.' then
      if prev = none ∨ cs = [] ∨ prev = some '.' then none
      else if fields.length = 3 then none
      else parseIPv4Loop cs (some c) 0 0 (fields ++ [val])
    else none

/-- Go `netip.parseIPv4Fields` on a whole string: the four octets, or `none` on error. -/
def parseIPv4Fields (s : Str) : Option (List Nat) := parseIPv4Loop s none 0 0 []

/-- Value of a hexadecimal digit, `none` for any other rune. -/
def hexVal (c : Char) : Option Nat :=
  if 48 ≤ c.toNat ∧ c.toNat ≤ 57 then some (c.toNat - 48)
  else if 97 ≤ c.toNat ∧ c.toNat ≤ 102 then some (c.toNat - 97 + 10)
  else if 65 ≤ c.toNat ∧ c.toNat ≤ 70 then some (c.toNat - 65 + 10)
  else none

/-- The inner loop of `netip.parseIPv6` reading one hex group: returns the number of
digits read, their value and the text left, `none` when a fifth digit is met. -/
def hexGroup : Str → Nat → Nat → Option (Nat × Nat × Str)
  | [], off, acc => some (off, acc, [])
  | c :: cs, off, acc =>
    match hexVal c with
    | none => some (off, acc, c :: cs)
    | some v =>
      if off > 3 then none
      else if acc * 16 + v > 65535 then none
      else hexGroup cs (off + 1) (acc * 16 + v)

/-- The main loop of `netip.parseIPv6` (`for i < 16`), with `i = ip.length`. The first
argument counts the two-byte slots still free, `(16 - i) / 2`: every round that does not
leave the loop stores two bytes. Returns the bytes, the ellipsis position and the text
left over. -/
def parseIPv6Loop : Nat → Str → List Nat → Option Nat → Option (List Nat × Option Nat × Str)
  | 0, s, ip, ell => some (ip, ell, s)
  | n + 1, s, ip, ell =>
    match hexGroup s 0 0 with
    | none => none
    | some (off, acc, rest) =>
      if off = 0 then none
      else
        match rest with
        | [] => some (ip ++ [acc / 256, acc % 256], ell, [])
        | c :: rest1 =>
          if c = '.' then
            if ell = none ∧ ip.length ≠ 12 then none
            else if ip.length + 4 > 16 then none
            else
              match parseIPv4Fields s with
              | none => none
              | some b => some (ip ++ b, ell, [])
          else if c ≠ ':' then none
          else
            match rest1 with
            | [] => none
            | d :: rest2 =>
              if d = ':' then
                if ell.isSome then none
                else if rest2 = [] then
                  some (ip ++ [acc / 256, acc % 256], some (ip.length + 2), [])
                else parseIPv6Loop n rest2 (ip ++ [acc / 256, acc % 256]) (some (ip.length + 2))
              else parseIPv6Loop n (d :: rest2) (ip ++ [acc / 256, acc % 256]) ell

/-- The end of `netip.parseIPv6`: the main loop must use the whole text; a short address
is filled with zeros at the ellipsis, a full one must have none. -/
def parseIPv6Tail (s1 : Str) (ell0 : Option Nat) : Option (List Nat) :=
  match parseIPv6Loop 8 s1 [] ell0 with
  | none => none
  | some (ip, ell, rest) =>
    if rest ≠ [] then none
    else if ip.length < 16 then
      match ell with
      | none => none
      | some e => some (ip.take e ++ List.replicate (16 - ip.length) 0 ++ ip.drop e)
    else if ell.isSome then none
    else some ip

/-- Go `netip.parseIPv6` for a text without zone: a leading `::` is an ellipsis at
position 0, and `::` alone is the unspecified address. -/
def parseIPv6NoZone (s : Str) : Option (List Nat) :=
  if [':', ':'].isPrefixOf s then
    if s.drop 2 = [] then some (List.replicate 16 0)
    else parseIPv6Tail (s.drop 2) (some 0)
  else parseIPv6Tail s none

/-- Go `netip.parseIPv6`: splits off the zone after the first `%` (an empty zone is an
error) and parses the rest. Returns the bytes and the zone. -/
def parseIPv6 (s : Str) : Option (List Nat × Str) :=
  if '%' ∈ s then
    let zone := (s.dropWhile (fun c => c != '%')).drop 1
    if zone = [] then none
    else (parseIPv6NoZone (s.takeWhile (fun c => c != '%'))).map (fun ip => (ip, zone))
  else (parseIPv6NoZone s).map (fun ip => (ip, []))

/-- A parsed `netip.Addr`: four bytes for the dotted form, sixteen bytes and a zone for
the colon form. -/
inductive Addr where
  | v4 (b : List Nat)
  | v6 (b : List Nat) (zone : Str)

/-- The scan of `netip.ParseAddr` for the first `.`, `:` or `%` of the text. -/
def parseAddrScan (s : Str) : Str → Option Addr
  | [] => none
  | c :: cs =>
    if c = '.' then (parseIPv4Fields s).map Addr.v4
    else if c = ':' then (parseIPv6 s).map (fun r => Addr.v6 r.1 r.2)
    else if c = '%' then none
    else parseAddrScan s cs

/-- Go `netip.ParseAddr`. -/
def ParseAddr (s : Str) : Option Addr := parseAddrScan s s

/-- The prefix `::ffff:0:0/96` of the IPv4-mapped addresses (`net.v4InV6Prefix`). -/
def v4InV6Prefix : List Nat := [0, 0, 0, 0, 0, 0, 0, 0, 0, 0, 255, 255]

/-- Go `netip.Addr.As16`. -/
def Addr.As16 : Addr → List Nat
  | .v4 b => v4InV6Prefix ++ b
  | .v6 b _ => b

/-- Go `netip.Addr.Zone`. -/
def Addr.Zone : Addr → Str
  | .v4 _ => []
  | .v6 _ z => z

/-- Go `netip.Addr.BitLen`. -/
def Addr.BitLen : Addr → Nat
  | .v4 _ => 32
  | .v6 _ _ => 128

/-- Go `net.ParseIP`: the sixteen-byte form of a literal address without zone, `none`
(Go `nil`) for any other text. -/
def ParseIP (s : Str) : Option (List Nat) :=
  match ParseAddr s with
  | some a => if a.Zone ≠ [] then none else some a.As16
  | none => none

/-- Go `net.IP.To4`: the four-byte form of an IPv4 or IPv4-mapped address. -/
def To4 (ip : List Nat) : Option (List Nat) :=
  if ip.length = 4 then some ip
  else if ip.length = 16 ∧ ip.take 12 = v4InV6Prefix then some (ip.drop 12)
  else none

/-- Go `net.CIDRMask ones bits` as a list of `bits / 8` bytes. -/
def CIDRMask (ones bits : Nat) : List Nat :=
  (List.range (bits / 8)).map (fun i =>
    if 8 * (i + 1) ≤ ones then 255
    else if ones ≤ 8 * i then 0
    else 255 - (255 >>> (ones - 8 * i)))

/-- Go `net.IPNet`: network number and mask. -/
structure IPNet where
  IP : List Nat
  Mask : List Nat

/-- Go `net.dtoi`: leading decimal digits of a text, as `(value, digits read)`;
`none` when there is no digit or the value reaches `0xFFFFFF`. -/
def dtoiLoop : Str → Nat → Nat → Option (Nat × Nat)
  | [], n, i => if i = 0 then none else some (n, i)
  | c :: cs, n, i =>
    if c.isDigit then
      if n * 10 + (c.toNat - 48) ≥ 16777215 then none
      else dtoiLoop cs (n * 10 + (c.toNat - 48)) (i + 1)
    else if i = 0 then none else some (n, i)

/-- Go `net.IP.Mask` for an address in sixteen-byte form. -/
def maskIP (ip mask : List Nat) : List Nat :=
  let ip1 := if mask.length = 4 ∧ ip.length = 16 ∧ ip.take 12 = v4InV6Prefix then ip.drop 12 else ip
  List.zipWith (fun a m => a &&& m) ip1 mask

/-- Go `net.ParseCIDR`, the network it returns. -/
def ParseCIDR (s : Str) : Option IPNet :=
  if '/' ∈ s then
    let addr := s.takeWhile (fun c => c != '/')
    let mask := (s.dropWhile (fun c => c != '/')).drop 1
    match ParseAddr addr with
    | none => none
    | some a =>
      if a.Zone ≠ [] then none
      else
        match dtoiLoop mask 0 0 with
        | none => none
        | some (n, i) =>
          if i ≠ mask.length ∨ n > a.BitLen then none
          else some ⟨maskIP a.As16 (CIDRMask n a.BitLen), CIDRMask n a.BitLen⟩
  else none

/-- Go `net.networkNumberAndMask`. -/
def networkNumberAndMask (n : IPNet) : Option (List Nat × List Nat) :=
  let ip? : Option (List Nat) :=
    match To4 n.IP with
    | some x => some x
    | none => if n.IP.length ≠ 16 then none else some n.IP
  match ip? with
  | none => none
  | some ip =>
    if n.Mask.length = 4 then
      if ip.length ≠ 4 then none else some (ip, n.Mask)
    else if n.Mask.length = 16 then
      if ip.length = 4 then some (ip, n.Mask.drop 12) else some (ip, n.Mask)
    else none

/-- Go `net.IPNet.Contains`. -/
def IPNet.Contains (n : IPNet) (ip : List Nat) : Bool :=
  match networkNumberAndMask n with
  | none => false
  | some (nn, m) =>
    let x := (To4 ip).getD ip
    if x.length ≠ nn.length then false
    else (List.zipWith (fun a b => decide (a.1 &&& b = a.2 &&& b)) (List.zip nn x) m).all id

/-! ## `isPrivateIP` -/

/-- The list `private` of `isPrivateIP`. -/
def privateCIDRs : List Str :=
  ["127.0.0.0/8".toList, "10.0.0.0/8".toList, "172.16.0.0/12".toList,
   "192.168.0.0/16".toList, "169.254.0.0/16".toList]

/-- Source `isPrivateIP` (handlers.go): the text parses as an IP literal and one of the
five networks contains it. -/
def isPrivateIP (ip : Str) : Bool :=
  match ParseIP ip with
  | none => false
  | some parsedIP =>
    privateCIDRs.any (fun cidr =>
      match ParseCIDR cidr with
      | some subnet => subnet.Contains parsedIP
      | none => false)

/-- Decimal rendering of a number, as `fmt.Sprintf` with `%d` and `strconv.Itoa` give it. -/
def decimal (n : Nat) : Str := Nat.toDigits 10 n

/-- The dotted-quad text `a.b.c.d`. -/
def dottedQuad (a b c d : Nat) : Str :=
  decimal a ++ '.' :: (decimal b ++ '.' :: (decimal c ++ '.' :: decimal d))

/-! ## Library: `strings`, `strconv`, `net.SplitHostPort` -/

/-- Go `strings.HasPrefix`. -/
def HasPrefix (s p : Str) : Bool := p.isPrefixOf s

/-- Go `strings.TrimPrefix`. -/
def TrimPrefix (s p : Str) : Str := if HasPrefix s p then s.drop p.length else s

/-- Go `strings.SplitN s sep 2` for a one-rune separator: the text itself when it does
not hold the separator, else the parts before and after its first occurrence. -/
def SplitN2 (s : Str) (sep : Char) : List Str :=
  if sep ∈ s then [s.takeWhile (fun c => c != sep), (s.dropWhile (fun c => c != sep)).drop 1]
  else [s]

/-- The digit loop of `strconv.Atoi`: the value of a text of decimal digits, `none` when
a rune is not a digit. -/
def atoiDigits : Str → Nat → Option Nat
  | [], n => some n
  | c :: cs, n => if c.isDigit then atoiDigits cs (n * 10 + (c.toNat - 48)) else none

/-- Go `strconv.Atoi` on a 64-bit platform: an optional sign and at least one decimal
digit, the value within the range of `int`; `none` stands for a returned error. -/
def Atoi (s : Str) : Option Int :=
  let body : Str := match s with
    | [] => []
    | c :: cs => if c = '-' ∨ c = '+' then cs else c :: cs
  if body = [] then none
  else
    match atoiDigits body 0 with
    | none => none
    | some n =>
      if s.head? = some '-' then
        if n ≤ 2 ^ 63 then some (-(n : Int)) else none
      else if n < 2 ^ 63 then some (n : Int) else none

/-- Go `%d` of `fmt.Sprintf` for an `int`. -/
def fmtInt (i : Int) : Str :=
  if i < 0 then '-' :: decimal (-i).toNat else decimal i.toNat

/-- Go `bytealg.IndexByteString`: position of the first occurrence. -/
def indexByte : Str → Char → Option Nat
  | [], _ => none
  | x :: xs, c => if x = c then some 0 else (indexByte xs c).map (fun i => i + 1)

/-- Go `bytealg.LastIndexByteString`: position of the last occurrence. -/
def lastIndexByte : Str → Char → Option Nat
  | [], _ => none
  | x :: xs, c =>
    match lastIndexByte xs c with
    | some i => some (i + 1)
    | none => if x = c then some 0 else none

/-- Go `net.SplitHostPort`: host and port of `host:port` or `[host]:port`; `none` stands
for a returned error. -/
def SplitHostPort (hostport : Str) : Option (Str × Str) :=
  match lastIndexByte hostport ':' with
  | none => none
  | some i =>
    if hostport.head? = some '[' then
      match indexByte hostport ']' with
      | none => none
      | some e =>
        if e + 1 = hostport.length then none
        else if e + 1 = i then
          if '[' ∈ hostport.drop 1 then none
          else if ']' ∈ hostport.drop (e + 1) then none
          else some ((hostport.take e).drop 1, hostport.drop (i + 1))
        else none
    else if ':' ∈ hostport.take i then none
    else if '[' ∈ hostport then none
    else if ']' ∈ hostport then none
    else some (hostport.take i, hostport.drop (i + 1))

/-! ## `Handler.ProxyRequest`: parsing and validating the target -/

/-- What `ProxyRequest` hands to the reverse proxy once the target is accepted. -/
structure Forward where
  target : Str
  host : Str
  portStr : Str
  port : Int
  targetPath : Str
  deriving DecidableEq

/-- Outcome of the target parsing of `ProxyRequest`: a JSON error response with its
status, or the forwarding of the request to the target URL. -/
inductive Dispatch where
  | reject (status : Nat) (message : String)
  | forward (f : Forward)
  deriving DecidableEq

/-- The first path segment of `ProxyRequest`, `parts[0]`. -/
def hostPortOf (fullPath : Str) : Str := (SplitN2 (TrimPrefix fullPath ['/']) '/').headD []

/-- Source `Handler.ProxyRequest` (handlers.go) up to the construction of the target URL;
`fullPath` is the route parameter `path` of `/proxy/*path`, the request path after
`/proxy`. -/
def ProxyRequest (fullPath : Str) : Dispatch :=
  if fullPath = [] ∨ HasPrefix fullPath ['/'] = false then
    .reject 400 "Invalid proxy path format. Use: /proxy/HOST:PORT/path"
  else
    let cleanPath := TrimPrefix fullPath ['/']
    let parts := SplitN2 cleanPath '/'
    if parts.length < 1 then
      .reject 400 "Invalid proxy path format. Use: /proxy/HOST:PORT/path"
    else
      let hostPort := parts.headD []
      let targetPath : Str := if parts.length > 1 then '/' :: (parts.drop 1).headD [] else ['/']
      match SplitHostPort hostPort with
      | none => .reject 400 "Invalid host:port format"
      | some (host, portStr) =>
        match Atoi portStr with
        | none => .reject 400 "Invalid port number"
        | some port =>
          if port < 1 ∨ port > 65535 then .reject 400 "Invalid port number"
          else if isPrivateIP host = false then
            .reject 403 "Only private IP addresses are allowed"
          else
            .forward ⟨"http://".toList ++ host ++ ':' :: (fmtInt port ++ targetPath),
              host, portStr, port, targetPath⟩

/-- The proxy prefix `ProxyRequest` hands to `NewHTMLRewriter` for a forwarded request,
`fmt.Sprintf("/proxy/%s:%d", host, port)`. -/
def Forward.proxyPrefix (f : Forward) : Str := "/proxy/".toList ++ f.host ++ ':' :: fmtInt f.port

/-- The proxy prefixes: the texts `/proxy/host:port` that `ProxyRequest` computes for the
requests it forwards. -/
def IsProxyPrefix (P : Str) : Prop :=
  ∃ fullPath f, ProxyRequest fullPath = .forward f ∧ P = f.proxyPrefix

/-- The target URL `ProxyRequest` builds, when it builds one. -/
def Dispatch.target? : Dispatch → Option Str
  | .reject _ _ => none
  | .forward f => some f.target

/-- The status of the error response of `ProxyRequest`, when it rejects the request. -/
def Dispatch.status? : Dispatch → Option Nat
  | .reject st _ => some st
  | .forward _ => none

/-! ## Library: `strings` and `unicode` -/

/-- Go `unicode.IsSpace`: the runes with the Unicode White_Space property. -/
def isSpace (c : Char) : Bool :=
  let n := c.toNat
  (9 ≤ n && n ≤ 13) || n == 32 || n == 0x85 || n == 0xA0 || n == 0x1680 ||
    (0x2000 ≤ n && n ≤ 0x200A) || n == 0x2028 || n == 0x2029 || n == 0x202F ||
    n == 0x205F || n == 0x3000

/-- Go `strings.TrimSpace`: leading and trailing white space removed. -/
def TrimSpace (s : Str) : Str := (s.dropWhile isSpace).rdropWhile isSpace

/-- Go `unicode.ToLower`, as far as the handlers can observe it. The ASCII capitals and the
two other runes whose lower-case form is ASCII (U+0130 to `i`, U+212A to `k`) are mapped
as in Go. Every other rune above U+007F is kept: its lower-case form in Go is again above
U+007F, and the handlers only compare lower-cased text with ASCII patterns. -/
def lowerRune (c : Char) : Char :=
  if 65 ≤ c.toNat ∧ c.toNat ≤ 90 then Char.ofNat (c.toNat + 32)
  else if c.toNat = 0x130 then 'i'
  else if c.toNat = 0x212A then 'k'
  else c

/-- Go `strings.ToLower`. -/
def ToLower (s : Str) : Str := s.map lowerRune

/-- Go `strings.Contains`. -/
def Contains : Str → Str → Bool
  | [], sub => sub.isEmpty
  | c :: cs, sub => sub.isPrefixOf (c :: cs) || Contains cs sub

/-- Go `strings.Replace s old new 1`: the first occurrence of `old` replaced by `new`
(an empty `old` matches at the start of the text). -/
def replaceFirst (old new : Str) : Str → Str
  | [] => if old.isEmpty then new else []
  | c :: cs => if old.isPrefixOf (c :: cs) then new ++ (c :: cs).drop old.length
               else c :: replaceFirst old new cs

/-! ## Library: `regexp`

The patterns of the handlers use literal runes, one-rune classes, greedy and lazy
repetition of a one-rune class, concatenation and one capture group. Go returns the
leftmost match and, among the matches that start there, the one a backtracking engine
finds first; `Regex.run` is that backtracking search. -/

/-- The fragment of the RE2 syntax the handlers use. -/
inductive Regex where
  /-- one rune of a class -/
  | rune (p : Char → Bool)
  /-- `x*` (greedy) or `x*?` (lazy) for a one-rune class `x` -/
  | star (p : Char → Bool) (greedy : Bool)
  /-- concatenation -/
  | seq (a b : Regex)
  /-- the capture group number 1 -/
  | group (a : Regex)
  /-- the empty pattern -/
  | empty

/-- Greedy `x*` followed by the continuation `k`: longer repetitions are tried first. -/
def starGreedy {α : Type} (p : Char → Bool) (k : Str → Option α) : Str → Option α
  | [] => k []
  | c :: cs =>
    if p c then
      match starGreedy p k cs with
      | some r => some r
      | none => k (c :: cs)
    else k (c :: cs)

/-- Lazy `x*?` followed by the continuation `k`: shorter repetitions are tried first. -/
def starLazy {α : Type} (p : Char → Bool) (k : Str → Option α) : Str → Option α
  | [] => k []
  | c :: cs =>
    match k (c :: cs) with
    | some r => some r
    | none => if p c then starLazy p k cs else none

/-- Backtracking match of a pattern at the start of `s`; `cap` is the text of group 1 so
far, `k` receives the text left and the capture, and the first success is returned. -/
def Regex.run {α : Type} : Regex → Str → Option Str → (Str → Option Str → Option α) → Option α
  | .rune p, s, cap, k =>
    match s with
    | [] => none
    | c :: cs => if p c then k cs cap else none
  | .star p true, s, cap, k => starGreedy p (fun t => k t cap) s
  | .star p false, s, cap, k => starLazy p (fun t => k t cap) s
  | .seq a b, s, cap, k => a.run s cap (fun t cap1 => b.run t cap1 k)
  | .group a, s, cap, k => a.run s cap (fun t _ => k t (some (s.take (s.length - t.length))))
  | .empty, s, cap, k => k s cap

/-- The literal text `t` followed by `tail`. -/
def Regex.text (t : Str) (tail : Regex) : Regex :=
  t.foldr (fun c r => .seq (.rune (fun x => x == c)) r) tail

/-- A lower-case ASCII letter under the flag `(?i)`: the runes of its simple case-folding
orbit. -/
def foldRune (l : Char) (x : Char) : Bool :=
  x == l || x == l.toUpper || (l == 'k' && x.toNat == 0x212A) || (l == 's' && x.toNat == 0x17F)

/-- The literal text `t` under the flag `(?i)`, followed by `tail`; `t` is written in
lower case, and runes without case stand for themselves. -/
def Regex.textFold (t : Str) (tail : Regex) : Regex :=
  t.foldr (fun c r => .seq (.rune (foldRune c)) r) tail

/-- A match: the text before it, the matched text, the text of group 1 and the text
after it. -/
structure Match where
  before : Str
  matched : Str
  group1 : Option Str
  after : Str
  deriving DecidableEq

/-- Match of the pattern at the start of `s`: the text left after it and group 1. -/
def Regex.matchAt (re : Regex) (s : Str) : Option (Str × Option Str) :=
  re.run s none (fun t cap => some (t, cap))

/-- The leftmost match of the pattern in `s` (Go `FindStringSubmatchIndex`). -/
def Regex.find (re : Regex) : Str → Option Match
  | [] =>
    match re.matchAt [] with
    | some r => some ⟨[], [], r.2, []⟩
    | none => none
  | c :: cs =>
    match re.matchAt (c :: cs) with
    | some r => some ⟨[], (c :: cs).take ((c :: cs).length - r.1.length), r.2, r.1⟩
    | none =>
      match re.find cs with
      | some m => some ⟨c :: m.before, m.matched, m.group1, m.after⟩
      | none => none

/-- Go `Regexp.MatchString`. -/
def Regex.MatchString (re : Regex) (s : Str) : Bool := (re.find s).isSome

/-- Go `Regexp.replaceAll`: every match, from left to right and without overlap, is
replaced by `repl` of the matched text and of group 1. `skip` counts the runes of the
text that still belong to the previous match; `afterMatch` tells whether a match ended
right here, in which case an empty match at this place is not replaced. -/
def Regex.replaceAllAux (re : Regex) (repl : Str → Option Str → Str) : Str → Nat → Bool → Str
  | [], _, afterMatch =>
    match re.matchAt [] with
    | some r => if afterMatch then [] else repl [] r.2
    | none => []
  | _ :: cs, skip + 1, _ => re.replaceAllAux repl cs skip true
  | c :: cs, 0, afterMatch =>
    match re.matchAt (c :: cs) with
    | some r =>
      if (c :: cs).length - r.1.length = 0 then
        (if afterMatch then [] else repl [] r.2) ++ c :: re.replaceAllAux repl cs 0 false
      else
        repl ((c :: cs).take ((c :: cs).length - r.1.length)) r.2 ++
          re.replaceAllAux repl cs ((c :: cs).length - r.1.length - 1) true
    | none => c :: re.replaceAllAux repl cs 0 false

/-- Go `Regexp.ReplaceAllStringFunc`. -/
def Regex.ReplaceAllStringFunc (re : Regex) (src : Str) (repl : Str → Str) : Str :=
  re.replaceAllAux (fun m _ => repl m) src 0 false

/-- The runes of a name in a replacement template (`regexp.extract`): letters, digits and
the underscore. Only ASCII runes are taken for letters and digits here; the templates of
the handlers hold a `$` only in front of the name `1`. -/
def isNameRune (c : Char) : Bool := c.isAlphanum || c == '_'

/-- What a name of a replacement template stands for, in a pattern with the single
capture group 1 and no named group: `1` for group 1, `0` for the match, any other name
for the empty text. -/
def expandName (matched : Str) (group1 : Option Str) (name : Str) : Str :=
  if name = ['1'] then group1.getD []
  else if name = ['0'] then matched
  else []

/-- Go `Regexp.expand`: `$name` and `$` with the name in braces are replaced by what the
name stands for, `$$` by a dollar sign, and a `$` followed by no name is kept. The first
argument bounds the number of steps by the length of the template. -/
def expandTemplate (matched : Str) (group1 : Option Str) : Nat → Str → Str
  | 0, _ => []
  | _ + 1, [] => []
  | fuel + 1, c :: cs =>
    if c = '$' then
      match cs with
      | [] => ['$']
      | d :: ds =>
        if d = '$' then '$' :: expandTemplate matched group1 fuel ds
        else if d = '{' then
          let name := ds.takeWhile isNameRune
          let rest := ds.dropWhile isNameRune
          if name = [] ∨ rest.head? ≠ some '}' then '$' :: expandTemplate matched group1 fuel (d :: ds)
          else expandName matched group1 name ++ expandTemplate matched group1 fuel (rest.drop 1)
        else
          let name := (d :: ds).takeWhile isNameRune
          let rest := (d :: ds).dropWhile isNameRune
          if name = [] then '$' :: expandTemplate matched group1 fuel (d :: ds)
          else expandName matched group1 name ++ expandTemplate matched group1 fuel rest
    else c :: expandTemplate matched group1 fuel cs

/-- Go `Regexp.ReplaceAllString`. -/
def Regex.ReplaceAllString (re : Regex) (src template : Str) : Str :=
  re.replaceAllAux (fun m g => expandTemplate m g (template.length + 1) template) src 0 false

/-! ## `HTMLRewriter` -/

/-- The class `['"]`. -/
def isQuote (c : Char) : Bool := c.toNat == 39 || c.toNat == 34

/-- The class `\s` of RE2: tab, line feed, form feed, carriage return and space. -/
def isReSpace (c : Char) : Bool :=
  c.toNat == 9 || c.toNat == 10 || c.toNat == 12 || c.toNat == 13 || c.toNat == 32

/-- The group `(\s*[^'"]*?\s*)` of the five patterns. -/
def urlGroup : Regex :=
  .group (.seq (.star isReSpace true) (.seq (.star (fun c => !isQuote c) false)
    (.star isReSpace true)))

/-- The pattern `pre['"](\s*[^'"]*?\s*)['"]post` for literal texts `pre` and `post`. -/
def quotedPattern (pre post : Str) : Regex :=
  Regex.text pre (.seq (.rune isQuote) (.seq urlGroup (.seq (.rune isQuote)
    (Regex.text post .empty))))

/-- The keys of the map `patterns` of `RewriteHTML`. -/
inductive Attr where
  | href | src | action | content | url
  deriving DecidableEq

/-- The text before the opening quote in the pattern of an attribute. -/
def Attr.pre : Attr → Str
  | .href => "href=".toList
  | .src => "src=".toList
  | .action => "action=".toList
  | .content => "content=".toList
  | .url => "url(".toList

/-- The text after the closing quote in the pattern of an attribute. -/
def Attr.post : Attr → Str
  | .url => ")".toList
  | _ => []

/-- The values of the map `patterns` of `RewriteHTML`: `href=['"](\s*[^'"]*?\s*)['"]` and
the like for `src`, `action` and `content`, and `url\(['"](\s*[^'"]*?\s*)['"]\)`. -/
def Attr.pattern (a : Attr) : Regex := quotedPattern a.pre a.post

/-- The pattern `(?i)(<head[^>]*>)` of `injectBaseTag`. -/
def headPattern : Regex :=
  .group (Regex.textFold "<head".toList (.seq (.star (fun c => c != '>') true)
    (.rune (fun c => c == '>'))))

/-- The pattern `(?i)(<html[^>]*>)` of `injectBaseTag`. -/
def htmlPattern : Regex :=
  .group (Regex.textFold "<html".toList (.seq (.star (fun c => c != '>') true)
    (.rune (fun c => c == '>'))))

/-- Source `HTMLRewriter` (handlers.go). -/
structure HTMLRewriter where
  proxyPrefix : Str
  targetHost : Str

/-- The list `skipPrefixes` of `shouldSkipURL`. -/
def skipPrefixes : List Str :=
  ["http://".toList, "https://".toList, "//".toList, "ftp://".toList,
   "data:".toList, "javascript:".toList, "mailto:".toList, "tel:".toList,
   "#".toList, "about:".toList, "chrome://".toList, "file://".toList]

/-- Source `HTMLRewriter.shouldSkipURL`. -/
def HTMLRewriter.shouldSkipURL (_hr : HTMLRewriter) (url : Str) : Bool :=
  let url := ToLower (TrimSpace url)
  if skipPrefixes.any (fun p => HasPrefix url p) then true
  else url == [] || url == ['/'] || url == ['#']

/-- Source `HTMLRewriter.rewriteURL`. -/
def HTMLRewriter.rewriteURL (hr : HTMLRewriter) (originalURL : Str) : Str :=
  if HasPrefix originalURL ['/'] then hr.proxyPrefix ++ originalURL
  else hr.proxyPrefix ++ '/' :: originalURL

/-- Source `HTMLRewriter.rewriteAttribute`: `pattern.FindStringSubmatch` is the leftmost
match of the pattern in the text, `submatches[1]` its group 1. -/
def HTMLRewriter.rewriteAttribute (hr : HTMLRewriter) (mtch : Str) (pattern : Regex) : Str :=
  match pattern.find mtch with
  | none => mtch
  | some sub =>
    let originalURL := TrimSpace (sub.group1.getD [])
    if hr.shouldSkipURL originalURL then mtch
    else replaceFirst originalURL (hr.rewriteURL originalURL) mtch

/-- The text `baseTag` of `injectBaseTag`. -/
def HTMLRewriter.baseTag (hr : HTMLRewriter) : Str :=
  "<base href=\"".toList ++ hr.proxyPrefix ++ "/\">".toList

/-- Source `HTMLRewriter.injectBaseTag`. -/
def HTMLRewriter.injectBaseTag (hr : HTMLRewriter) (html : Str) : Str :=
  if headPattern.MatchString html then
    headPattern.ReplaceAllString html ("$1".toList ++ "\n    ".toList ++ hr.baseTag)
  else if htmlPattern.MatchString html then
    htmlPattern.ReplaceAllString html
      ("$1".toList ++ "\n  <head>\n    ".toList ++ hr.baseTag ++ "\n  </head>".toList)
  else hr.baseTag ++ "\n".toList ++ html

/-- The loop of `RewriteHTML` over the map `patterns`; Go iterates a map in an order of
its own choosing, `order` is the order of one run. -/
def HTMLRewriter.rewritePasses (hr : HTMLRewriter) (order : List Attr) (html : Str) : Str :=
  order.foldl (fun h attr =>
    attr.pattern.ReplaceAllStringFunc h (fun m => hr.rewriteAttribute m attr.pattern)) html

/-- Source `HTMLRewriter.RewriteHTML`. -/
def HTMLRewriter.RewriteHTML (hr : HTMLRewriter) (order : List Attr) (content : Str) : Str :=
  let html := hr.rewritePasses order content
  if Contains (ToLower html) "<base".toList = false then hr.injectBaseTag html else html

/-- An order of the five patterns. -/
def stdOrder : List Attr := [.href, .src, .action, .content, .url]

/-- The rewriter of the examples: proxy prefix `/proxy/10.0.0.5:80`, host `10.0.0.5`. -/
def exampleRewriter : HTMLRewriter := ⟨"/proxy/10.0.0.5:80".toList, "10.0.0.5".toList⟩

/-- The text of an attribute as the patterns match it: the text before the opening
quote, the quoted value `U`, and the text after the closing quote. -/
def attrText (a : Attr) (q1 q2 : Char) (U : Str) : Str := a.pre ++ q1 :: (U ++ q2 :: a.post)

/-! ## Declarative reading of the patterns (used in the proofs) -/

/-- The pattern can consume the text `xs`, taking the capture from `cap` to `cap1`. -/
def Regex.Sem : Regex → Str → Option Str → Option Str → Prop
  | .rune p, xs, cap, cap1 => (∃ c, xs = [c] ∧ p c = true) ∧ cap1 = cap
  | .star p _, xs, cap, cap1 => (∀ c ∈ xs, p c = true) ∧ cap1 = cap
  | .seq a b, xs, cap, cap1 => ∃ ys zs mid, xs = ys ++ zs ∧ a.Sem ys cap mid ∧ b.Sem zs mid cap1
  | .group a, xs, cap, cap1 => (∃ mid, a.Sem xs cap mid) ∧ cap1 = some xs
  | .empty, xs, cap, cap1 => xs = [] ∧ cap1 = cap

/-- The digit branch of `parseIPv4Loop` run over a block of digits: the value and digit
count reached, `none` on a leading zero or a value above 255. -/
def digitScan : Str → Nat → Nat → Option (Nat × Nat)
  | [], v, l => some (v, l)
  | c :: cs, v, l =>
    if l = 1 ∧ v = 0 then none
    else if v * 10 + (c.toNat - 48) > 255 then none
    else digitScan cs (v * 10 + (c.toNat - 48)) (l + 1)

/-! ## `RewriteHTML`: one round of the loop, and counting -/

/-- One round of the loop of `RewriteHTML`: `pattern.ReplaceAllStringFunc` with
`rewriteAttribute` for the pattern of one attribute. -/
def HTMLRewriter.rewritePass (hr : HTMLRewriter) (attr : Attr) (html : Str) : Str :=
  attr.pattern.ReplaceAllStringFunc html (fun m => hr.rewriteAttribute m attr.pattern)

/-- The number of places of `s` at which the text `sub` begins. -/
def occurrences : Str → Str → Nat
  | [], sub => if sub.isEmpty then 1 else 0
  | c :: cs, sub => (if sub.isPrefixOf (c :: cs) then 1 else 0) + occurrences cs sub

/-! ## The response modifier of `ProxyRequest` -/

/-- Go `http.Header` as the handlers use it, through `Get` and `Set` with keys written in
canonical form: the values stored under each key, none for a key that is absent. -/
structure Header where
  values : Str → List Str

/-- Go `http.Header.Get`: the first value under the key, the empty text when there is
none. -/
def Header.Get (h : Header) (key : Str) : Str := (h.values key).headD []

/-- Go `http.Header.Set`: the values under the key are replaced by the one value. -/
def Header.Set (h : Header) (key value : Str) : Header :=
  ⟨fun k => if k = key then [value] else h.values k⟩

/-- What `io.ReadAll(resp.Body)` gives: the content, or an error. -/
inductive Body where
  | content (b : Str)
  | unreadable (err : String)

/-- Go `http.Response`, the fields the response modifier reads or writes. -/
structure Response where
  StatusCode : Int
  Header : Header
  Body : Body
  ContentLength : Int

/-- Source `isHTMLResponse` (handlers.go). -/
def isHTMLResponse (resp : Response) : Bool :=
  Contains (ToLower (resp.Header.Get "Content-Type".toList)) "text/html".toList

/-- Go `len` of a string: the number of bytes of its UTF-8 form. -/
def byteLen (s : Str) : Nat := (s.map Char.utf8Size).sum

/-- Source `NewHTMLRewriter` (handlers.go). -/
def NewHTMLRewriter (proxyPrefix targetHost : Str) : HTMLRewriter := ⟨proxyPrefix, targetHost⟩

/-- Source `ModifyResponse` of the reverse proxy built by `ProxyRequest` (handlers.go) for
the forwarded request `f`; `order` is the order in which this run of `RewriteHTML` walks
the map of patterns. An error is the error of `io.ReadAll`. -/
def ModifyResponse (f : Forward) (order : List Attr) (resp : Response) : Except String Response :=
  if isHTMLResponse resp then
    match resp.Body with
    | .unreadable err => .error err
    | .content body =>
      let rewriter := NewHTMLRewriter f.proxyPrefix f.host
      let modifiedBody := rewriter.RewriteHTML order body
      .ok { resp with
        Body := .content modifiedBody
        ContentLength := (byteLen modifiedBody : Int)
        Header := (resp.Header.Set "Content-Length".toList (fmtInt (byteLen modifiedBody))).Set
          "X-Proxy-Modified".toList "true".toList }
  else .ok resp

/-! ## `Handler.ProxyRequest` with its log record -/

/-- Source `models.LogEntry` (models.go), without the identifier the database assigns.
The time stamp is a number of nanoseconds. -/
structure LogEntry where
  Timestamp : Int
  SourceIP : Str
  Method : Str
  TargetHost : Str
  TargetPort : Str
  Path : Str
  StatusCode : Int
  Duration : Int
  Error : Str
  deriving DecidableEq

/-- What the handlers read from `gin.Context`: the route parameter `path`, the client
address and the request method. -/
structure Context where
  path : Str
  ClientIP : Str
  Method : Str

/-- Go `strings.Cut` for a one-rune separator: the text before its first occurrence and
the text after it (the whole text and the empty text when it does not occur). -/
def Cut (s : Str) (sep : Char) : Str × Str :=
  (s.takeWhile (fun c => c != sep), (s.dropWhile (fun c => c != sep)).drop 1)

/-- Go `url.stringContainsCTLByte`: a byte below the blank, or the byte `0x7f`. -/
def stringContainsCTLByte (s : Str) : Bool := s.any (fun c => c.toNat < 32 || c.toNat == 127)

/-- Go `url.ishex`. -/
def ishex (c : Char) : Bool :=
  (48 ≤ c.toNat && c.toNat ≤ 57) || (97 ≤ c.toNat && c.toNat ≤ 102) ||
    (65 ≤ c.toNat && c.toNat ≤ 70)

/-- The checking loop of Go `url.unescape` in the modes of a path and of a fragment:
`false` (an `EscapeError`) when a `%` is not followed by two hexadecimal digits. -/
def unescapeOk : Str → Bool
  | [] => true
  | c :: cs =>
    if c = '%' then
      match cs with
      | a :: b :: rest => ishex a && ishex b && unescapeOk rest
      | _ => false
    else unescapeOk cs

/-- Go `url.Parse(target)` in the `Director` of `ProxyRequest`, for the target
`http://host:port` followed by the sub-path: `true` when it returns a URL, `false` when it
returns an error and the nil URL. The text after the first `#` is the fragment; the text
before it must hold no control character; its scheme is `http` and its authority, up to
the first slash, is `host:port` with an IP literal and a decimal port, which
`parseAuthority` reads without error; the path is the text from that slash up to the
first `?`. Path and fragment must pass `unescape`. -/
def Forward.urlParseOk (f : Forward) : Bool :=
  let u := (Cut f.target '#').1
  let frag := (Cut f.target '#').2
  if stringContainsCTLByte u then false
  else
    let rest := (Cut (u.drop "http:".length) '?').1
    let path := (rest.drop 2).dropWhile (fun c => c != '/')
    unescapeOk path && unescapeOk frag

/-- How `proxy.ServeHTTP` ended for a target that `url.Parse` reads: it returned, with the
status `c.Writer.Status()` of the response writer after it, or it panicked (as it does
with `http.ErrAbortHandler` when the copy of the response body fails). -/
inductive ServeHTTP where
  | returned (writerStatus : Int)
  | panicked
  deriving DecidableEq

/-- What a run of the handler observes besides the request: how `proxy.ServeHTTP` ended,
the time elapsed since the start of the handler (`time.Since(start)` in nanoseconds, the
difference of two readings of the monotonic clock, which does not run backwards) and the
clock at the time of logging. -/
structure Served where
  serve : ServeHTTP
  elapsed : Nat
  now : Int

/-- Go `time.Duration.Milliseconds`: the nanoseconds divided by a million, rounded
towards zero. -/
def Milliseconds (d : Int) : Int := Int.tdiv d 1000000

/-- Source `Handler.logRequest` (handlers.go): the entry it hands to
`h.db.InsertLogEntry`. -/
def logRequest (c : Context) (now : Int) (host port path : Str) (statusCode : Int)
    (duration : Int) (errorMsg : Str) : LogEntry :=
  { Timestamp := now
    SourceIP := c.ClientIP
    Method := c.Method
    TargetHost := host
    TargetPort := port
    Path := path
    StatusCode := statusCode
    Duration := Milliseconds duration
    Error := errorMsg }

/-- A run of `Handler.ProxyRequest`: how the target parsing ended, whether the handler
panicked after it, and the entries handed to the log store, in order. -/
structure Handled where
  outcome : Dispatch
  panicked : Bool
  logged : List LogEntry

/-- Source `Handler.ProxyRequest` (handlers.go) as a whole: the error responses return
at once. For a forwarded request the `Director` dereferences the result of
`url.Parse(target)`, which is nil when `url.Parse` returns an error: the handler panics
inside `proxy.ServeHTTP`. The line that logs the request is reached when
`proxy.ServeHTTP` returns. -/
def Handler.ProxyRequest (c : Context) (sv : Served) : Handled :=
  match Proxino.ProxyRequest c.path with
  | .reject st msg => ⟨.reject st msg, false, []⟩
  | .forward f =>
    if f.urlParseOk = false then ⟨.forward f, true, []⟩
    else
      match sv.serve with
      | .panicked => ⟨.forward f, true, []⟩
      | .returned writerStatus =>
        let status : Int := if writerStatus = 0 then 200 else writerStatus
        ⟨.forward f, false,
          [logRequest c sv.now f.host f.portStr f.targetPath status sv.elapsed []]⟩

/-! ## `Handler.GetSettings` and `Handler.GetLogs` -/

/-- A Go string as its bytes. -/
abbrev Bytes := List Nat

/-- The bytes of `****`. -/
def stars : Bytes := [42, 42, 42, 42]

/-- Source `models.Settings` (models.go), the two texts. -/
structure Settings where
  NgrokToken : Bytes
  NgrokDomain : Bytes

/-- The value `tokenMasked` of `Handler.GetSettings` (handlers.go). -/
def tokenMasked (token : Bytes) : Bytes :=
  if token.length > 8 then token.take 4 ++ stars ++ token.drop (token.length - 4)
  else if token.length > 0 then stars
  else []

/-- Go `utf8.DecodeRuneInString` at the head of a text that is not empty: the number of
bytes of the UTF-8 sequence that starts there, `none` when there is no valid one (Go
returns `RuneError` with size 1). -/
def decodeRuneSize (s : Bytes) : Option Nat :=
  let cont (b : Nat) : Bool := 128 ≤ b && b ≤ 191
  match s with
  | [] => none
  | b0 :: rest =>
    if b0 < 128 then some 1
    else if 194 ≤ b0 ∧ b0 ≤ 223 then
      match rest with
      | b1 :: _ => if cont b1 then some 2 else none
      | _ => none
    else if 224 ≤ b0 ∧ b0 ≤ 239 then
      match rest with
      | b1 :: b2 :: _ =>
        let lo := if b0 = 224 then 160 else 128
        let hi := if b0 = 237 then 159 else 191
        if lo ≤ b1 ∧ b1 ≤ hi ∧ cont b2 then some 3 else none
      | _ => none
    else if 240 ≤ b0 ∧ b0 ≤ 244 then
      match rest with
      | b1 :: b2 :: b3 :: _ =>
        let lo := if b0 = 240 then 144 else 128
        let hi := if b0 = 244 then 143 else 191
        if lo ≤ b1 ∧ b1 ≤ hi ∧ cont b2 ∧ cont b3 then some 4 else none
      | _ => none
    else none

/-- The loop of `jsonString`: `skip` counts the bytes still to copy of the sequence the
loop is in. -/
def jsonStringAux : Bytes → Nat → Bytes
  | [], _ => []
  | b :: bs, skip + 1 => b :: jsonStringAux bs skip
  | b :: bs, 0 =>
    match decodeRuneSize (b :: bs) with
    | some n => b :: jsonStringAux bs (n - 1)
    | none => 239 :: 191 :: 189 :: jsonStringAux bs 0

/-- The text a client reads from the JSON string that `c.JSON` (Go `encoding/json`) writes
for a Go string: the valid UTF-8 sequences are kept, every other byte is written as
`\ufffd`, which reads as U+FFFD (the bytes `EF BF BD`). -/
def jsonString (s : Bytes) : Bytes := jsonStringAux s 0

/-- The JSON response of `Handler.GetSettings`, with the string values as a client reads
them. -/
inductive SettingsResponse where
  | failed (status : Nat) (message : String)
  | ok (ngrok_token ngrok_domain : Bytes)
  deriving DecidableEq

/-- Source `Handler.GetSettings` (handlers.go); the argument is what `h.db.GetSettings`
returns. -/
def GetSettings (db : Except String Settings) : SettingsResponse :=
  match db with
  | .error _ => .failed 500 "Failed to fetch settings"
  | .ok settings => .ok (jsonString (tokenMasked settings.NgrokToken))
      (jsonString settings.NgrokDomain)

/-- Go `gin.Context.DefaultQuery`: the first value of the query key, the default when the
key is absent. -/
def DefaultQuery (value : Option Str) (defaultValue : Str) : Str := value.getD defaultValue

/-- Source `Handler.GetLogs` (handlers.go) up to the call of the log store: the limit and
the offset it passes to `h.db.GetLogs`, from the query values of `limit` and `offset`. -/
def GetLogs (limitQuery offsetQuery : Option Str) : Int × Int :=
  let limitStr := DefaultQuery limitQuery "50".toList
  let offsetStr := DefaultQuery offsetQuery "0".toList
  let limit0 : Int :=
    match Atoi limitStr with
    | none => 50
    | some limit => if limit ≤ 0 then 50 else limit
  let limit : Int := if limit0 > 1000 then 1000 else limit0
  let offset : Int :=
    match Atoi offsetStr with
    | none => 0
    | some offset => if offset < 0 then 0 else offset
  (limit, offset)

/-- The forwarded request of the examples: `/proxy/10.0.0.5:80/`. -/
def exampleForward : Forward :=
  ⟨"http://10.0.0.5:80/".toList, "10.0.0.5".toList, "80".toList, 80, "/".toList⟩

/-- The response header of the examples: an HTML content type written in mixed case, a
content length and two cookies. -/
def exampleHeader : Header :=
  ⟨fun k => if k = "Content-Type".toList then ["Text/HTML; charset=utf-8".toList]
    else if k = "Content-Length".toList then ["22".toList]
    else if k = "Set-Cookie".toList then ["a=1".toList, "b=2".toList] else []⟩

/-- The origin response of the examples: status 404 and an HTML body of 22 bytes. -/
def exampleResponse : Response :=
  ⟨404, exampleHeader, .content "<head></head><p>é</p>".toList, 22⟩

/-! # Theorems -/

/-! ## Address parsing -/

theorem parseIPv4Loop_digits_dot (ds cs : Str) (hds : ds ≠ []) (hall : ∀ c ∈ ds, c.isDigit = true)
    (hcs : cs ≠ []) (prev : Option Char) (v l : Nat) (fields : List Nat) :
    parseIPv4Loop (ds ++ '.' :: cs) prev v l fields =
      match digitScan ds v l with
      | none => none
      | some r => if fields.length = 3 then none else parseIPv4Loop cs (some '.') 0 0 (fields ++ [r.1]) := by
  induction ds generalizing prev v l with
  | nil => exact absurd rfl hds
  | cons c ds ih =>
    have hc : c.isDigit = true := hall c (List.mem_cons_self _ _)
    have hc2 : c ≠ '.' := by
      intro h; rw [h] at hc; exact absurd hc (by decide)
    by_cases hds2 : ds = []
    · subst hds2
      simp only [List.nil_append, List.singleton_append, parseIPv4Loop, digitScan, hc, if_true]
      split_ifs <;> simp_all
    · have ih2 := ih hds2 (fun x hx => hall x (List.mem_cons_of_mem _ hx))
      simp only [List.cons_append, parseIPv4Loop, digitScan, hc, if_true]
      split_ifs <;> first | rfl | exact ih2 _ _ _ | simp_all

theorem parseIPv4Loop_digits_end (ds : Str) (hall : ∀ c ∈ ds, c.isDigit = true)
    (prev : Option Char) (v l : Nat) (fields : List Nat) :
    parseIPv4Loop ds prev v l fields =
      match digitScan ds v l with
      | none => none
      | some r => if fields.length < 3 then none else some (fields ++ [r.1]) := by
  induction ds generalizing prev v l with
  | nil => simp [parseIPv4Loop, digitScan]
  | cons c ds ih =>
    have hc : c.isDigit = true := hall c (List.mem_cons_self _ _)
    have ih2 := ih (fun x hx => hall x (List.mem_cons_of_mem _ hx))
    simp only [parseIPv4Loop, digitScan, hc, if_true]
    split_ifs <;> first | rfl | exact ih2 _ _ _ | simp_all

set_option maxRecDepth 100000 in
theorem decimal_octet : ∀ a, a < 256 →
    (decimal a ≠ [] ∧ (decimal a).all Char.isDigit = true ∧
      (digitScan (decimal a) 0 0).map Prod.fst = some a) := by
  decide

theorem isDigit_ne_special (c : Char) (hc : c.isDigit = true) :
    c ≠ '.' ∧ c ≠ ':' ∧ c ≠ '%' := by
  refine ⟨?_, ?_, ?_⟩ <;> (intro h; rw [h] at hc; exact absurd hc (by decide))

theorem parseAddrScan_digits (s ds rest : Str) (hall : ∀ c ∈ ds, c.isDigit = true) :
    parseAddrScan s (ds ++ '.' :: rest) = (parseIPv4Fields s).map Addr.v4 := by
  induction ds with
  | nil => simp [parseAddrScan]
  | cons c ds ih =>
    obtain ⟨h1, h2, h3⟩ := isDigit_ne_special c (hall c (List.mem_cons_self _ _))
    simp only [List.cons_append, parseAddrScan, h1, h2, h3, if_false]
    exact ih (fun x hx => hall x (List.mem_cons_of_mem _ hx))

theorem decimal_octet_scan (a : Nat) (ha : a < 256) :
    decimal a ≠ [] ∧ (∀ c ∈ decimal a, c.isDigit = true) ∧
      ∃ l, digitScan (decimal a) 0 0 = some (a, l) := by
  obtain ⟨h1, h2, h3⟩ := decimal_octet a ha
  refine ⟨h1, fun c hc => (List.all_eq_true.mp h2) c hc, ?_⟩
  cases h : digitScan (decimal a) 0 0 with
  | none => rw [h] at h3; exact absurd h3 (by simp)
  | some r =>
    rw [h] at h3
    obtain ⟨v, l⟩ := r
    simp only [Option.map_some', Option.some.injEq] at h3
    exact ⟨l, by rw [h3]⟩

theorem parseIPv4Fields_dottedQuad (a b c d : Nat) (ha : a < 256) (hb : b < 256)
    (hc : c < 256) (hd : d < 256) :
    parseIPv4Fields (dottedQuad a b c d) = some [a, b, c, d] := by
  obtain ⟨na, da, la, sa⟩ := decimal_octet_scan a ha
  obtain ⟨nb, db, lb, sb⟩ := decimal_octet_scan b hb
  obtain ⟨nc, dc, lc, sc⟩ := decimal_octet_scan c hc
  obtain ⟨_, dd, ld, sd⟩ := decimal_octet_scan d hd
  unfold parseIPv4Fields dottedQuad
  rw [parseIPv4Loop_digits_dot _ _ na da (by simp [nb]), sa]
  simp only [List.length_nil, OfNat.zero_ne_ofNat, if_false, List.nil_append]
  rw [parseIPv4Loop_digits_dot _ _ nb db (by simp [nc]), sb]
  simp only [List.length_singleton, OfNat.one_ne_ofNat, if_false, List.singleton_append]
  rw [parseIPv4Loop_digits_dot _ _ nc dc (by simp [‹decimal d ≠ []›]), sc]
  simp only [List.length_cons, List.length_singleton, if_false, List.cons_append,
    List.singleton_append]
  rw [parseIPv4Loop_digits_end _ dd, sd]
  simp

theorem ParseIP_dottedQuad (a b c d : Nat) (ha : a < 256) (hb : b < 256)
    (hc : c < 256) (hd : d < 256) :
    ParseIP (dottedQuad a b c d) = some (v4InV6Prefix ++ [a, b, c, d]) := by
  have hscan : ParseAddr (dottedQuad a b c d) = some (Addr.v4 [a, b, c, d]) := by
    unfold ParseAddr
    have := parseAddrScan_digits (dottedQuad a b c d) (decimal a)
      (decimal b ++ '.' :: (decimal c ++ '.' :: decimal d)) (decimal_octet_scan a ha).2.1
    rw [parseIPv4Fields_dottedQuad a b c d ha hb hc hd] at this
    simpa [dottedQuad] using this
  simp [ParseIP, hscan, Addr.Zone, Addr.As16]

theorem ParseCIDR_private :
    privateCIDRs.map ParseCIDR =
      [some ⟨[127, 0, 0, 0], [255, 0, 0, 0]⟩, some ⟨[10, 0, 0, 0], [255, 0, 0, 0]⟩,
       some ⟨[172, 16, 0, 0], [255, 240, 0, 0]⟩, some ⟨[192, 168, 0, 0], [255, 255, 0, 0]⟩,
       some ⟨[169, 254, 0, 0], [255, 255, 0, 0]⟩] := by
  rfl

theorem Contains_quad (n0 n1 n2 n3 m0 m1 m2 m3 a b c d : Nat) :
    IPNet.Contains ⟨[n0, n1, n2, n3], [m0, m1, m2, m3]⟩ (v4InV6Prefix ++ [a, b, c, d]) =
      decide (n0 &&& m0 = a &&& m0 ∧ n1 &&& m1 = b &&& m1 ∧ n2 &&& m2 = c &&& m2 ∧
        n3 &&& m3 = d &&& m3) := by
  simp [IPNet.Contains, networkNumberAndMask, To4, v4InV6Prefix]

theorem isPrivateIP_of_ParseIP (s : Str) (a b c d : Nat)
    (h : ParseIP s = some (v4InV6Prefix ++ [a, b, c, d])) :
    isPrivateIP s = true ↔
      (127 = a &&& 255 ∨ 10 = a &&& 255 ∨ (172 = a &&& 255 ∧ 16 = b &&& 240) ∨
        (192 = a &&& 255 ∧ 168 = b &&& 255) ∨ (169 = a &&& 255 ∧ 254 = b &&& 255)) := by
  have hc := ParseCIDR_private
  simp only [privateCIDRs, List.map_cons, List.map_nil, List.cons.injEq, and_true] at hc
  obtain ⟨h1, h2, h3, h4, h5⟩ := hc
  simp only [isPrivateIP, h, privateCIDRs, List.any_cons, List.any_nil, h1, h2, h3, h4, h5,
    Contains_quad, Bool.or_false, Bool.or_eq_true, decide_eq_true_eq, Nat.and_zero, and_true]
  exact Iff.rfl

set_option maxRecDepth 100000 in
theorem octet_mask_facts : ∀ x, x < 256 →
    ((127 = x &&& 255 ↔ x = 127) ∧ (10 = x &&& 255 ↔ x = 10) ∧ (172 = x &&& 255 ↔ x = 172) ∧
     (192 = x &&& 255 ↔ x = 192) ∧ (169 = x &&& 255 ↔ x = 169) ∧ (168 = x &&& 255 ↔ x = 168) ∧
     (254 = x &&& 255 ↔ x = 254) ∧ (16 = x &&& 240 ↔ (16 ≤ x ∧ x ≤ 31))) := by
  decide

/-- A text `isPrivateIP` accepts is read by `net.ParseIP`. -/
theorem isPrivateIP_ParseIP (H : Str) (h : isPrivateIP H = true) : ∃ ip, ParseIP H = some ip := by
  cases hp : ParseIP H with
  | none => simp [isPrivateIP, hp] at h
  | some ip => exact ⟨ip, rfl⟩

/-- The two ways `netip.ParseAddr` reads a text. -/
theorem parseAddrScan_cases (s t : Str) (a : Addr) (h : parseAddrScan s t = some a) :
    (∃ b, parseIPv4Fields s = some b ∧ a = Addr.v4 b) ∨
    (∃ r, parseIPv6 s = some r ∧ a = Addr.v6 r.1 r.2) := by
  induction t with
  | nil => simp [parseAddrScan] at h
  | cons c cs ih =>
    unfold parseAddrScan at h
    split_ifs at h
    · left
      cases hb : parseIPv4Fields s with
      | none => rw [hb] at h; simp at h
      | some b => rw [hb] at h; exact ⟨b, rfl, by simpa using h.symm⟩
    · right
      cases hb : parseIPv6 s with
      | none => rw [hb] at h; simp at h
      | some r => rw [hb] at h; exact ⟨r, rfl, by simpa using h.symm⟩
    · exact ih h

/-- The dotted form is read as four octets below 256. -/
theorem parseIPv4Loop_shape (s : Str) (prev : Option Char) (v l : Nat) (fields r : List Nat)
    (h : parseIPv4Loop s prev v l fields = some r) (hl : fields.length ≤ 3) (hv : v < 256)
    (hf : ∀ x ∈ fields, x < 256) : r.length = 4 ∧ ∀ x ∈ r, x < 256 := by
  induction s generalizing prev v l fields with
  | nil =>
    unfold parseIPv4Loop at h
    split_ifs at h with h3
    simp only [Option.some.injEq] at h
    subst h
    refine ⟨by simp; omega, ?_⟩
    intro x hx
    rcases List.mem_append.mp hx with hx | hx
    · exact hf x hx
    · simp only [List.mem_singleton] at hx; omega
  | cons c cs ih =>
    unfold parseIPv4Loop at h
    split_ifs at h with h1 h2 h3 h4 h5 h6
    · exact ih _ _ _ _ h hl (by omega) hf
    · refine ih _ _ _ _ h (by simp; omega) (by omega) ?_
      intro x hx
      rcases List.mem_append.mp hx with hx | hx
      · exact hf x hx
      · simp only [List.mem_singleton] at hx; omega

/-- A hex group has a value of at most 65535. -/
theorem hexGroup_bound (s : Str) (off acc : Nat) (r : Nat × Nat × Str)
    (h : hexGroup s off acc = some r) (ha : acc ≤ 65535) : r.2.1 ≤ 65535 := by
  induction s generalizing off acc with
  | nil =>
    simp only [hexGroup, Option.some.injEq] at h
    rw [← h]; exact ha
  | cons c cs ih =>
    unfold hexGroup at h
    cases hv : hexVal c with
    | none =>
      rw [hv] at h
      simp only [Option.some.injEq] at h
      rw [← h]; exact ha
    | some v =>
      rw [hv] at h
      dsimp only at h
      split_ifs at h with h1 h2
      exact ih _ _ h (by omega)

/-- The two bytes of a hex group are below 256. -/
theorem mem_append_pair (ip : List Nat) (acc : Nat) (hacc : acc ≤ 65535)
    (hf : ∀ x ∈ ip, x < 256) : ∀ x ∈ ip ++ [acc / 256, acc % 256], x < 256 := by
  intro x hx
  rcases List.mem_append.mp hx with hx | hx
  · exact hf x hx
  · simp only [List.mem_cons, List.mem_singleton, List.not_mem_nil, or_false] at hx
    rcases hx with rfl | rfl <;> omega

/-- The main loop of `parseIPv6` stores at most sixteen bytes, each below 256. -/
theorem parseIPv6Loop_shape (n : Nat) (s : Str) (ip : List Nat) (ell : Option Nat)
    (r : List Nat × Option Nat × Str) (h : parseIPv6Loop n s ip ell = some r)
    (hl : ip.length + 2 * n ≤ 16) (hf : ∀ x ∈ ip, x < 256) :
    r.1.length ≤ 16 ∧ ∀ x ∈ r.1, x < 256 := by
  induction n generalizing s ip ell with
  | zero =>
    simp only [parseIPv6Loop, Option.some.injEq] at h
    rw [← h]; exact ⟨by simpa using hl, hf⟩
  | succ n ih =>
    unfold parseIPv6Loop at h
    cases hg : hexGroup s 0 0 with
    | none => rw [hg] at h; simp at h
    | some g =>
      obtain ⟨off, acc, rest⟩ := g
      have hacc : acc ≤ 65535 := hexGroup_bound s 0 0 _ hg (by omega)
      have hpair := mem_append_pair ip acc hacc hf
      have hlen : (ip ++ [acc / 256, acc % 256]).length + 2 * n ≤ 16 := by
        simp only [List.length_append, List.length_cons, List.length_nil]; omega
      rw [hg] at h
      dsimp only at h
      by_cases hoff : off = 0
      · simp [hoff] at h
      · rw [if_neg hoff] at h
        cases rest with
        | nil =>
          simp only [Option.some.injEq] at h
          rw [← h]
          refine ⟨?_, hpair⟩
          show (ip ++ [acc / 256, acc % 256]).length ≤ 16
          omega
        | cons c rest1 =>
          dsimp only at h
          by_cases hdot : c = '.'
          · rw [if_pos hdot] at h
            split_ifs at h with h1 h2
            cases hv4 : parseIPv4Fields s with
            | none => rw [hv4] at h; simp at h
            | some b =>
              rw [hv4] at h
              simp only [Option.some.injEq] at h
              obtain ⟨hb4, hbb⟩ := parseIPv4Loop_shape s none 0 0 [] b hv4 (by simp) (by omega)
                (by simp)
              rw [← h]
              refine ⟨by simp only [List.length_append]; omega, ?_⟩
              intro x hx
              rcases List.mem_append.mp hx with hx | hx
              · exact hf x hx
              · exact hbb x hx
          · rw [if_neg hdot] at h
            by_cases hcol : c = ':'
            · rw [if_neg (by simpa using hcol)] at h
              subst hcol
              cases rest1 with
              | nil => simp at h
              | cons d rest2 =>
                dsimp only at h
                by_cases hd : d = ':'
                · rw [if_pos hd] at h
                  subst hd
                  split_ifs at h with h1 h2
                  · simp only [Option.some.injEq] at h
                    rw [← h]
                    refine ⟨?_, hpair⟩
                    show (ip ++ [acc / 256, acc % 256]).length ≤ 16
                    omega
                  · exact ih _ _ _ h hlen hpair
                · rw [if_neg hd] at h
                  exact ih _ _ _ h hlen hpair
            · rw [if_pos (by simpa using hcol)] at h
              simp at h

/-- The colon form is read as sixteen bytes below 256. -/
theorem parseIPv6Tail_shape (s1 : Str) (e : Option Nat) (ip : List Nat)
    (h : parseIPv6Tail s1 e = some ip) : ip.length = 16 ∧ ∀ x ∈ ip, x < 256 := by
  unfold parseIPv6Tail at h
  cases hl : parseIPv6Loop 8 s1 [] e with
  | none => rw [hl] at h; simp at h
  | some r =>
    rw [hl] at h
    obtain ⟨ip1, e1, rest⟩ := r
    obtain ⟨h16, hb⟩ := parseIPv6Loop_shape 8 s1 [] e _ hl (by simp) (by simp)
    dsimp only at h h16 hb
    split_ifs at h with h1 h2 h3
    · cases e1 with
      | none => simp at h
      | some e2 =>
        simp only [Option.some.injEq] at h
        rw [← h]
        refine ⟨by simp only [List.length_append, List.length_take, List.length_replicate,
          List.length_drop]; omega, ?_⟩
        intro x hx
        rcases List.mem_append.mp hx with hx | hx
        · rcases List.mem_append.mp hx with hx | hx
          · exact hb x (List.mem_of_mem_take hx)
          · rw [List.eq_of_mem_replicate hx]; omega
        · exact hb x (List.mem_of_mem_drop hx)
    · simp only [Option.some.injEq] at h
      rw [← h]
      exact ⟨by omega, hb⟩

/-- The colon form without zone is read as sixteen bytes below 256. -/
theorem parseIPv6NoZone_shape (s : Str) (ip : List Nat) (h : parseIPv6NoZone s = some ip) :
    ip.length = 16 ∧ ∀ x ∈ ip, x < 256 := by
  unfold parseIPv6NoZone at h
  split_ifs at h with h1 h2
  · simp only [Option.some.injEq] at h
    rw [← h]
    refine ⟨by simp, ?_⟩
    intro x hx
    rw [List.eq_of_mem_replicate hx]; omega
  · exact parseIPv6Tail_shape _ _ ip h
  · exact parseIPv6Tail_shape _ _ ip h

/-- The colon form is read as sixteen bytes below 256, whatever the zone. -/
theorem parseIPv6_shape (s : Str) (r : List Nat × Str) (h : parseIPv6 s = some r) :
    r.1.length = 16 ∧ ∀ x ∈ r.1, x < 256 := by
  unfold parseIPv6 at h
  by_cases h1 : '%' ∈ s
  · rw [if_pos h1] at h
    dsimp only at h
    split_ifs at h with h2
    cases hp : parseIPv6NoZone (List.takeWhile (fun c => c != '%') s) with
    | none => rw [hp] at h; simp at h
    | some ip6 =>
      rw [hp] at h
      simp only [Option.map_some', Option.some.injEq] at h
      rw [← h]
      exact parseIPv6NoZone_shape _ ip6 hp
  · rw [if_neg h1] at h
    cases hp : parseIPv6NoZone s with
    | none => rw [hp] at h; simp at h
    | some ip6 =>
      rw [hp] at h
      simp only [Option.map_some', Option.some.injEq] at h
      rw [← h]
      exact parseIPv6NoZone_shape _ ip6 hp

/-- What `net.ParseIP` returns has sixteen bytes. -/
theorem ParseIP_shape (s : Str) (ip : List Nat) (h : ParseIP s = some ip) :
    ip.length = 16 ∧ ∀ x ∈ ip, x < 256 := by
  unfold ParseIP at h
  cases ha : ParseAddr s with
  | none => rw [ha] at h; simp at h
  | some a =>
    rw [ha] at h
    dsimp only at h
    split_ifs at h with hz
    simp only [Option.some.injEq] at h
    rcases parseAddrScan_cases s s a ha with ⟨b, hb, rfl⟩ | ⟨r, hr, rfl⟩
    · obtain ⟨hb4, hbb⟩ := parseIPv4Loop_shape s none 0 0 [] b hb (by simp) (by omega) (by simp)
      rw [← h]
      refine ⟨by simp [Addr.As16, v4InV6Prefix, hb4], ?_⟩
      intro x hx
      rcases List.mem_append.mp hx with hx | hx
      · have : ∀ y ∈ v4InV6Prefix, y < 256 := by decide
        exact this x hx
      · exact hbb x hx
    · rw [← h]
      exact parseIPv6_shape s r hr

/-- An address that is neither IPv4 nor IPv4-mapped lies in none of the five networks. -/
theorem isPrivateIP_of_To4_none (s : Str) (ip : List Nat) (h : ParseIP s = some ip)
    (h4 : To4 ip = none) : isPrivateIP s = false := by
  have hlen : ip.length ≠ 4 := by
    intro e; simp [To4, e] at h4
  have hc := ParseCIDR_private
  simp only [privateCIDRs, List.map_cons, List.map_nil, List.cons.injEq, and_true] at hc
  obtain ⟨h1, h2, h3, h4', h5⟩ := hc
  have hcont : ∀ n0 n1 n2 n3 m0 m1 m2 m3 : Nat,
      IPNet.Contains ⟨[n0, n1, n2, n3], [m0, m1, m2, m3]⟩ ip = false := by
    intro n0 n1 n2 n3 m0 m1 m2 m3
    have hn : networkNumberAndMask ⟨[n0, n1, n2, n3], [m0, m1, m2, m3]⟩ =
        some ([n0, n1, n2, n3], [m0, m1, m2, m3]) := by
      simp [networkNumberAndMask, To4]
    simp only [IPNet.Contains, hn, h4, Option.getD_none]
    simp [hlen]
  simp only [isPrivateIP, h, privateCIDRs, List.any_cons, List.any_nil, h1, h2, h3, h4', h5,
    hcont, Bool.or_false]

/-- The address of a text that `net.ParseIP` reads as IPv4 or IPv4-mapped. -/
theorem To4_of_ParseIP (s : Str) (ip q : List Nat) (h : ParseIP s = some ip)
    (h4 : To4 ip = some q) :
    ∃ x y z w, q = [x, y, z, w] ∧ ip = v4InV6Prefix ++ [x, y, z, w] ∧ x < 256 ∧ y < 256 := by
  obtain ⟨h16, hb⟩ := ParseIP_shape s ip h
  unfold To4 at h4
  rw [if_neg (by omega)] at h4
  split_ifs at h4 with hp
  simp only [Option.some.injEq] at h4
  have hq : q.length = 4 := by rw [← h4, List.length_drop]; omega
  have hip : ip = v4InV6Prefix ++ q := by
    rw [← hp.2, ← h4]; exact (List.take_append_drop 12 ip).symm
  match q, hq with
  | [x, y, z, w], _ =>
    refine ⟨x, y, z, w, rfl, hip, hb x ?_, hb y ?_⟩ <;> rw [hip] <;> simp

/-- `isPrivateIP` on every text: true exactly when `net.ParseIP` reads the text and the
IPv4 form of the address lies in one of the five ranges. -/
theorem isPrivateIP_iff (s : Str) :
    isPrivateIP s = true ↔
      ∃ ip x y z w, ParseIP s = some ip ∧ To4 ip = some [x, y, z, w] ∧
        (x = 127 ∨ x = 10 ∨ (x = 172 ∧ 16 ≤ y ∧ y ≤ 31) ∨ (x = 192 ∧ y = 168) ∨
          (x = 169 ∧ y = 254)) := by
  constructor
  · intro hpriv
    obtain ⟨ip, hip⟩ := isPrivateIP_ParseIP s hpriv
    cases h4 : To4 ip with
    | none => rw [isPrivateIP_of_To4_none s ip hip h4] at hpriv; exact absurd hpriv (by simp)
    | some q =>
      obtain ⟨x, y, z, w, rfl, hipq, hx, hy⟩ := To4_of_ParseIP s ip q hip h4
      refine ⟨ip, x, y, z, w, hip, h4, ?_⟩
      rw [hipq] at hip
      have := (isPrivateIP_of_ParseIP s x y z w hip).mp hpriv
      obtain ⟨a1, a2, a3, a4, a5, _, _, _⟩ := octet_mask_facts x hx
      obtain ⟨_, _, _, _, _, b6, b7, b8⟩ := octet_mask_facts y hy
      rwa [a1, a2, a3, a4, a5, b6, b7, b8] at this
  · rintro ⟨ip, x, y, z, w, hip, h4, hr⟩
    obtain ⟨x', y', z', w', hq, hipq, hx, hy⟩ := To4_of_ParseIP s ip _ hip h4
    simp only [List.cons.injEq, and_true] at hq
    obtain ⟨rfl, rfl, rfl, rfl⟩ := hq
    rw [hipq] at hip
    rw [isPrivateIP_of_ParseIP s x y z w hip]
    obtain ⟨a1, a2, a3, a4, a5, _, _, _⟩ := octet_mask_facts x hx
    obtain ⟨_, _, _, _, _, b6, b7, b8⟩ := octet_mask_facts y hy
    rwa [a1, a2, a3, a4, a5, b6, b7, b8]

/-- C1. For every text `s`, `isPrivateIP s` is true exactly when `net.ParseIP` reads `s` as
an address whose IPv4 form `x.y.z.w` (`net.IP.To4`: an IPv4 address, or an IPv6 address of
the IPv4-mapped form) lies in 127.0.0.0/8, 10.0.0.0/8, 172.16.0.0/12, 192.168.0.0/16 or
169.254.0.0/16. In particular it accepts a dotted quad `a.b.c.d` (octets 0..255, written in
decimal) exactly when it lies in one of the five ranges, it rejects every text that
`net.ParseIP` does not parse, such as the host name `localhost`, and it rejects every IPv6
address that is not IPv4-mapped, such as `2001:4860:4860::8888` and `::1`. -/
theorem isPrivateIP_spec (a b c d : Nat) (ha : a < 256) (hb : b < 256) (hc : c < 256)
    (hd : d < 256) (s : Str) :
    (isPrivateIP (dottedQuad a b c d) = true ↔
      (a = 127 ∨ a = 10 ∨ (a = 172 ∧ 16 ≤ b ∧ b ≤ 31) ∨ (a = 192 ∧ b = 168) ∨
        (a = 169 ∧ b = 254))) ∧
    (ParseIP s = none → isPrivateIP s = false) ∧
    (ParseIP "localhost".toList = none ∧ isPrivateIP "localhost".toList = false) ∧
    (isPrivateIP s = true ↔
      ∃ ip x y z w, ParseIP s = some ip ∧ To4 ip = some [x, y, z, w] ∧
        (x = 127 ∨ x = 10 ∨ (x = 172 ∧ 16 ≤ y ∧ y ≤ 31) ∨ (x = 192 ∧ y = 168) ∨
          (x = 169 ∧ y = 254))) ∧
    (∀ ip, ParseIP s = some ip → To4 ip = none → isPrivateIP s = false) ∧
    (isPrivateIP "2001:4860:4860::8888".toList = false ∧ isPrivateIP "::1".toList = false ∧
      isPrivateIP "::ffff:10.0.0.1".toList = true ∧
      isPrivateIP "::ffff:8.8.8.8".toList = false) := by
  refine ⟨?_, ?_, ⟨?_, ?_⟩, isPrivateIP_iff s,
    fun ip h h4 => isPrivateIP_of_To4_none s ip h h4, ?_, ?_, ?_, ?_⟩
  · rw [isPrivateIP_of_ParseIP _ a b c d (ParseIP_dottedQuad a b c d ha hb hc hd)]
    obtain ⟨a1, a2, a3, a4, a5, _, _, _⟩ := octet_mask_facts a ha
    obtain ⟨_, _, _, _, _, b6, b7, b8⟩ := octet_mask_facts b hb
    rw [a1, a2, a3, a4, a5, b6, b7, b8]
  · intro h
    simp [isPrivateIP, h]
  · decide
  · decide
  · decide
  · decide
  · decide
  · decide

/-- Witness for C1 at 172.20.0.1, at the text `example.com` and at the IPv4-mapped address
`::ffff:172.20.0.1`. -/
theorem isPrivateIP_spec_witness :
    (isPrivateIP "172.20.0.1".toList = true ↔
      ((172 : Nat) = 127 ∨ (172 : Nat) = 10 ∨ ((172 : Nat) = 172 ∧ 16 ≤ 20 ∧ 20 ≤ 31) ∨
        ((172 : Nat) = 192 ∧ (20 : Nat) = 168) ∨ ((172 : Nat) = 169 ∧ (20 : Nat) = 254))) ∧
    (ParseIP "example.com".toList = none → isPrivateIP "example.com".toList = false) ∧
    (ParseIP "localhost".toList = none ∧ isPrivateIP "localhost".toList = false) ∧
    (isPrivateIP "::ffff:172.20.0.1".toList = true ↔
      ∃ ip x y z w, ParseIP "::ffff:172.20.0.1".toList = some ip ∧
        To4 ip = some [x, y, z, w] ∧
        (x = 127 ∨ x = 10 ∨ (x = 172 ∧ 16 ≤ y ∧ y ≤ 31) ∨ (x = 192 ∧ y = 168) ∨
          (x = 169 ∧ y = 254))) :=
  ⟨(isPrivateIP_spec 172 20 0 1 (by decide) (by decide) (by decide) (by decide)
      "example.com".toList).1,
   (isPrivateIP_spec 172 20 0 1 (by decide) (by decide) (by decide) (by decide)
      "example.com".toList).2.1,
   (isPrivateIP_spec 172 20 0 1 (by decide) (by decide) (by decide) (by decide)
      "example.com".toList).2.2.1,
   (isPrivateIP_spec 172 20 0 1 (by decide) (by decide) (by decide) (by decide)
      "::ffff:172.20.0.1".toList).2.2.2.1⟩

/-! ## `ProxyRequest` -/

theorem SplitN2_length_pos (s : Str) (sep : Char) : ¬ (SplitN2 s sep).length < 1 := by
  unfold SplitN2; split_ifs <;> simp

/-- `ProxyRequest` on a path that starts with a slash, one case for each way out. -/
theorem ProxyRequest_slash (rest : Str) :
    ProxyRequest ('/' :: rest) =
      match SplitHostPort (hostPortOf ('/' :: rest)) with
      | none => .reject 400 "Invalid host:port format"
      | some (host, portStr) =>
        match Atoi portStr with
        | none => .reject 400 "Invalid port number"
        | some port =>
          if port < 1 ∨ port > 65535 then .reject 400 "Invalid port number"
          else if isPrivateIP host = false then
            .reject 403 "Only private IP addresses are allowed"
          else
            .forward ⟨"http://".toList ++ host ++ ':' :: (fmtInt port ++
                (if (SplitN2 rest '/').length > 1 then '/' :: ((SplitN2 rest '/').drop 1).headD []
                  else ['/'])),
              host, portStr, port,
              (if (SplitN2 rest '/').length > 1 then '/' :: ((SplitN2 rest '/').drop 1).headD []
                  else ['/'])⟩ := by
  have hp : HasPrefix ('/' :: rest) ['/'] = true := by simp [HasPrefix]
  have ht : TrimPrefix ('/' :: rest) ['/'] = rest := by simp [TrimPrefix, hp]
  unfold ProxyRequest hostPortOf
  simp only [hp, ht, SplitN2_length_pos, if_false, List.cons_ne_nil, false_or, Bool.true_eq_false]

theorem ProxyRequest_no_slash (fullPath : Str) (h : HasPrefix fullPath ['/'] = false) :
    ProxyRequest fullPath = .reject 400 "Invalid proxy path format. Use: /proxy/HOST:PORT/path" := by
  unfold ProxyRequest
  simp [h]

theorem HasPrefix_slash_cases (fullPath : Str) :
    HasPrefix fullPath ['/'] = false ∨ ∃ rest, fullPath = '/' :: rest := by
  cases fullPath with
  | nil => left; rfl
  | cons c cs =>
    by_cases hc : c = '/'
    · right; exact ⟨cs, by rw [hc]⟩
    · left; simp [HasPrefix, List.isPrefixOf, hc, Ne.symm hc]

/-- C2. `ProxyRequest` builds an outbound target only for a host that `isPrivateIP`
accepts, the host being the one `net.SplitHostPort` reads from the first path segment;
and when the first segment is a well-formed host:port with a port in 1..65535 whose host
is not private, the response is 403 and no target is built. -/
theorem ProxyRequest_private_only (fullPath : Str) :
    (∀ f, ProxyRequest fullPath = .forward f →
      isPrivateIP f.host = true ∧
        SplitHostPort (hostPortOf fullPath) = some (f.host, f.portStr)) ∧
    (∀ host portStr port, HasPrefix fullPath ['/'] = true →
      SplitHostPort (hostPortOf fullPath) = some (host, portStr) →
      Atoi portStr = some port → 1 ≤ port → port ≤ 65535 → isPrivateIP host = false →
      ProxyRequest fullPath = .reject 403 "Only private IP addresses are allowed" ∧
        (ProxyRequest fullPath).target? = none) := by
  rcases HasPrefix_slash_cases fullPath with hno | ⟨rest, rfl⟩
  · refine ⟨fun f hf => ?_, fun host portStr port hp => ?_⟩
    · rw [ProxyRequest_no_slash _ hno] at hf; exact absurd hf (by simp)
    · rw [hno] at hp; exact absurd hp (by simp)
  · refine ⟨fun f hf => ?_, fun host portStr port _ hs ha h1 h2 hpriv => ?_⟩
    · rw [ProxyRequest_slash] at hf
      cases hs : SplitHostPort (hostPortOf ('/' :: rest)) with
      | none => rw [hs] at hf; exact absurd hf (by simp)
      | some hp =>
        obtain ⟨host, portStr⟩ := hp
        rw [hs] at hf
        dsimp only at hf
        cases ha : Atoi portStr with
        | none => rw [ha] at hf; exact absurd hf (by simp)
        | some port =>
          rw [ha] at hf
          dsimp only at hf
          split_ifs at hf with hr hpriv <;>
            (simp only [Dispatch.forward.injEq] at hf
             subst hf
             simp only [Bool.not_eq_false] at hpriv
             exact ⟨hpriv, rfl⟩)
    · have hr : ¬ (port < 1 ∨ port > 65535) := by omega
      rw [ProxyRequest_slash, hs]
      simp only [ha, hr, hpriv, if_true, if_false, Dispatch.target?, and_self]

/-- Witness for C2: `/proxy/8.8.8.8:80/` is answered with 403 and no target. -/
theorem ProxyRequest_private_only_witness :
    ProxyRequest "/8.8.8.8:80/".toList = .reject 403 "Only private IP addresses are allowed" ∧
      (ProxyRequest "/8.8.8.8:80/".toList).target? = none :=
  (ProxyRequest_private_only "/8.8.8.8:80/".toList).2 "8.8.8.8".toList "80".toList 80
    (by decide) (by decide) (by decide) (by decide) (by decide) (by decide)

/-- C3. When the first path segment is not valid host:port syntax, or its port part is
not read by `strconv.Atoi` as an integer in 1..65535, `ProxyRequest` answers 400 and
builds no target, whatever the host is. A path that does not start with a slash is
answered with 400 as well. -/
theorem ProxyRequest_bad_target (fullPath : Str)
    (hbad : SplitHostPort (hostPortOf fullPath) = none ∨
      ∃ host portStr, SplitHostPort (hostPortOf fullPath) = some (host, portStr) ∧
        (Atoi portStr = none ∨ ∃ port, Atoi portStr = some port ∧ (port < 1 ∨ 65535 < port))) :
    (ProxyRequest fullPath).status? = some 400 ∧ (ProxyRequest fullPath).target? = none := by
  rcases HasPrefix_slash_cases fullPath with hno | ⟨rest, rfl⟩
  · rw [ProxyRequest_no_slash _ hno]; exact ⟨rfl, rfl⟩
  · rw [ProxyRequest_slash]
    rcases hbad with hs | ⟨host, portStr, hs, hp⟩
    · rw [hs]; exact ⟨rfl, rfl⟩
    · rw [hs]
      rcases hp with ha | ⟨port, ha, hr⟩
      · simp only [ha]; exact ⟨rfl, rfl⟩
      · have hr2 : port < 1 ∨ port > 65535 := hr
        simp only [ha, hr2, if_true]; exact ⟨rfl, rfl⟩

/-- Witness for C3: `/proxy/bad-host-format` (no port), and the public host 8.8.8.8 with
the ports 0 and 65536, are answered with 400. -/
theorem ProxyRequest_bad_target_witness :
    ((ProxyRequest "/bad-host-format".toList).status? = some 400 ∧
      (ProxyRequest "/bad-host-format".toList).target? = none) ∧
    ((ProxyRequest "/8.8.8.8:0/".toList).status? = some 400 ∧
      (ProxyRequest "/8.8.8.8:0/".toList).target? = none) ∧
    ((ProxyRequest "/8.8.8.8:65536/x".toList).status? = some 400 ∧
      (ProxyRequest "/8.8.8.8:65536/x".toList).target? = none) :=
  ⟨ProxyRequest_bad_target "/bad-host-format".toList (Or.inl (by decide)),
   ProxyRequest_bad_target "/8.8.8.8:0/".toList
     (Or.inr ⟨"8.8.8.8".toList, "0".toList, by decide, Or.inr ⟨0, by decide, by decide⟩⟩),
   ProxyRequest_bad_target "/8.8.8.8:65536/x".toList
     (Or.inr ⟨"8.8.8.8".toList, "65536".toList, by decide, Or.inr ⟨65536, by decide, by decide⟩⟩)⟩

theorem parseIPv4Loop_chars (s : Str) (prev : Option Char) (v l : Nat) (fields r : List Nat)
    (h : parseIPv4Loop s prev v l fields = some r) :
    ∀ c ∈ s, c.isDigit = true ∨ c = '.' := by
  induction s generalizing prev v l fields with
  | nil => intro c hc; exact absurd hc (List.not_mem_nil c)
  | cons x xs ih =>
    intro c hc
    unfold parseIPv4Loop at h
    rcases List.mem_cons.mp hc with rfl | hc
    · by_cases hd : c.isDigit = true
      · exact Or.inl hd
      · by_cases hdot : c = '.'
        · exact Or.inr hdot
        · simp [hd, hdot] at h
    · split_ifs at h
      · exact ih _ _ _ _ h c hc
      · exact ih _ _ _ _ h c hc

theorem parseAddrScan_no_colon (s t : Str) (a : Addr) (hc : ':' ∉ t)
    (h : parseAddrScan s t = some a) : ∃ b, parseIPv4Fields s = some b := by
  induction t with
  | nil => simp [parseAddrScan] at h
  | cons x xs ih =>
    have hx : x ≠ ':' := fun e => hc (by rw [e]; exact List.mem_cons_self _ _)
    have hxs : ':' ∉ xs := fun e => hc (List.mem_cons_of_mem _ e)
    unfold parseAddrScan at h
    split_ifs at h with h1 h2
    · cases hb : parseIPv4Fields s with
      | none => rw [hb] at h; simp at h
      | some b => exact ⟨b, rfl⟩
    · exact ih hxs h

/-- A private IP literal without a colon is made of decimal digits and dots. -/
theorem isPrivateIP_chars (H : Str) (h : isPrivateIP H = true) (hc : ':' ∉ H) :
    ∀ c ∈ H, c.isDigit = true ∨ c = '.' := by
  obtain ⟨ip, hip⟩ := isPrivateIP_ParseIP H h
  unfold ParseIP at hip
  cases ha : ParseAddr H with
  | none => rw [ha] at hip; simp at hip
  | some a =>
    obtain ⟨b, hb⟩ := parseAddrScan_no_colon H H a hc ha
    exact parseIPv4Loop_chars H none 0 0 [] b hb

theorem atoiDigits_chars (s : Str) (n m : Nat) (h : atoiDigits s n = some m) :
    ∀ c ∈ s, c.isDigit = true := by
  induction s generalizing n with
  | nil => intro c hc; exact absurd hc (List.not_mem_nil c)
  | cons x xs ih =>
    intro c hc
    unfold atoiDigits at h
    split_ifs at h with hx
    rcases List.mem_cons.mp hc with rfl | hc
    · exact hx
    · exact ih _ h c hc

theorem Atoi_chars (P : Str) (p : Int) (h : Atoi P = some p) :
    ∀ c ∈ P, c.isDigit = true ∨ c = '-' ∨ c = '+' := by
  cases P with
  | nil => simp [Atoi] at h
  | cons x xs =>
    by_cases hsign : x = '-' ∨ x = '+'
    · cases hd : atoiDigits xs 0 with
      | none => simp [Atoi, hsign, hd] at h
      | some n =>
        intro c hc
        rcases List.mem_cons.mp hc with rfl | hc
        · exact Or.inr hsign
        · exact Or.inl (atoiDigits_chars xs 0 n hd c hc)
    · cases hd : atoiDigits (x :: xs) 0 with
      | none => simp [Atoi, hsign, hd] at h
      | some n => exact fun c hc => Or.inl (atoiDigits_chars (x :: xs) 0 n hd c hc)

theorem lastIndexByte_none (s : Str) (c : Char) (h : c ∉ s) : lastIndexByte s c = none := by
  induction s with
  | nil => rfl
  | cons x xs ih =>
    have hx : x ≠ c := fun e => h (by rw [e]; exact List.mem_cons_self _ _)
    simp [lastIndexByte, ih (fun e => h (List.mem_cons_of_mem _ e)), hx]

theorem lastIndexByte_append (H P : Str) (c : Char) (h : c ∉ P) :
    lastIndexByte (H ++ c :: P) c = some H.length := by
  induction H with
  | nil => simp [lastIndexByte, lastIndexByte_none P c h]
  | cons x xs ih => simp [lastIndexByte, ih]

/-- `net.SplitHostPort` on `H:P` when neither part holds a colon or a square bracket. -/
theorem SplitHostPort_plain (H P : Str)
    (hH : ∀ c ∈ H, c ≠ ':' ∧ c ≠ '[' ∧ c ≠ ']') (hP : ∀ c ∈ P, c ≠ ':' ∧ c ≠ '[' ∧ c ≠ ']') :
    SplitHostPort (H ++ ':' :: P) = some (H, P) := by
  have hPc : ':' ∉ P := fun e => (hP _ e).1 rfl
  have hHc : ':' ∉ H := fun e => (hH _ e).1 rfl
  have hhead : (H ++ ':' :: P).head? ≠ some '[' := by
    cases H with
    | nil => simp
    | cons x xs =>
      have := (hH x (List.mem_cons_self _ _)).2.1
      simpa using this
  have hl : '[' ∉ H ++ ':' :: P := by
    intro e
    rcases List.mem_append.mp e with e | e
    · exact (hH _ e).2.1 rfl
    · rcases List.mem_cons.mp e with e | e
      · exact absurd e (by decide)
      · exact (hP _ e).2.1 rfl
  have hr : ']' ∉ H ++ ':' :: P := by
    intro e
    rcases List.mem_append.mp e with e | e
    · exact (hH _ e).2.2 rfl
    · rcases List.mem_cons.mp e with e | e
      · exact absurd e (by decide)
      · exact (hP _ e).2.2 rfl
  unfold SplitHostPort
  rw [lastIndexByte_append H P ':' hPc]
  simp only [hhead, if_false, List.take_left', hHc, hl, hr]
  simp

theorem isDigit_ne_delims (c : Char) (hc : c.isDigit = true) :
    c ≠ ':' ∧ c ≠ '[' ∧ c ≠ ']' ∧ c ≠ '/' := by
  refine ⟨?_, ?_, ?_, ?_⟩ <;> (intro h; rw [h] at hc; exact absurd hc (by decide))

theorem takeWhile_ne_append (X S : Str) (c : Char) (hX : c ∉ X) :
    (X ++ c :: S).takeWhile (fun x => x != c) = X := by
  induction X with
  | nil => simp
  | cons x xs ih =>
    have hx : x ≠ c := fun e => hX (by rw [e]; exact List.mem_cons_self _ _)
    rw [List.cons_append, List.takeWhile_cons]
    simp [hx, ih (fun e => hX (List.mem_cons_of_mem _ e))]

theorem dropWhile_ne_append (X S : Str) (c : Char) (hX : c ∉ X) :
    (X ++ c :: S).dropWhile (fun x => x != c) = c :: S := by
  induction X with
  | nil => simp
  | cons x xs ih =>
    have hx : x ≠ c := fun e => hX (by rw [e]; exact List.mem_cons_self _ _)
    rw [List.cons_append, List.dropWhile_cons]
    simp [hx, ih (fun e => hX (List.mem_cons_of_mem _ e))]

theorem SplitN2_slash (X S : Str) (hX : '/' ∉ X) : SplitN2 (X ++ '/' :: S) '/' = [X, S] := by
  simp [SplitN2, takeWhile_ne_append X S '/' hX, dropWhile_ne_append X S '/' hX]

theorem SplitN2_none (X : Str) (hX : '/' ∉ X) : SplitN2 X '/' = [X] := by
  simp [SplitN2, hX]

theorem fmtInt_pos (port : Int) (h : 1 ≤ port) : fmtInt port = decimal port.toNat := by
  have : ¬ port < 0 := by omega
  simp [fmtInt, this]

/-- C4 (amended). For a private IP literal `H` without colon (dotted-quad form), a port text
`P` that `strconv.Atoi` reads as a number in 1..65535 and any sub-path `S`, the target URL
built for `/proxy/H:P/S` is `http://H:<port><subPath>` with the port in decimal and
`subPath = /S`, and for `/proxy/H:P` it is the same with `subPath = /`. -/
theorem ProxyRequest_target_url (H P S : Str) (port : Int) (hH : isPrivateIP H = true)
    (hcolon : ':' ∉ H) (hP : Atoi P = some port) (h1 : 1 ≤ port) (h2 : port ≤ 65535) :
    (ProxyRequest ('/' :: (H ++ ':' :: (P ++ '/' :: S)))).target? =
        some ("http://".toList ++ H ++ ':' :: (decimal port.toNat ++ '/' :: S)) ∧
    (ProxyRequest ('/' :: (H ++ ':' :: P))).target? =
        some ("http://".toList ++ H ++ ':' :: (decimal port.toNat ++ ['/'])) := by
  have hHch : ∀ c ∈ H, c ≠ ':' ∧ c ≠ '[' ∧ c ≠ ']' ∧ c ≠ '/' := by
    intro c hc
    rcases isPrivateIP_chars H hH hcolon c hc with hd | rfl
    · exact isDigit_ne_delims c hd
    · decide
  have hPch : ∀ c ∈ P, c ≠ ':' ∧ c ≠ '[' ∧ c ≠ ']' ∧ c ≠ '/' := by
    intro c hc
    rcases Atoi_chars P port hP c hc with hd | rfl | rfl
    · exact isDigit_ne_delims c hd
    · decide
    · decide
  have hsplit : SplitHostPort (H ++ ':' :: P) = some (H, P) :=
    SplitHostPort_plain H P (fun c hc => ⟨(hHch c hc).1, (hHch c hc).2.1, (hHch c hc).2.2.1⟩)
      (fun c hc => ⟨(hPch c hc).1, (hPch c hc).2.1, (hPch c hc).2.2.1⟩)
  have hslash : '/' ∉ H ++ ':' :: P := by
    intro e
    rcases List.mem_append.mp e with e | e
    · exact (hHch _ e).2.2.2 rfl
    · rcases List.mem_cons.mp e with e | e
      · exact absurd e (by decide)
      · exact (hPch _ e).2.2.2 rfl
  have hr : ¬ (port < 1 ∨ port > 65535) := by omega
  have hparts1 : SplitN2 (H ++ ':' :: (P ++ '/' :: S)) '/' = [H ++ ':' :: P, S] := by
    have := SplitN2_slash (H ++ ':' :: P) S hslash
    simpa using this
  have hparts2 : SplitN2 (H ++ ':' :: P) '/' = [H ++ ':' :: P] := SplitN2_none _ hslash
  have ht : TrimPrefix ('/' :: (H ++ ':' :: (P ++ '/' :: S))) ['/'] = H ++ ':' :: (P ++ '/' :: S) := by
    simp [TrimPrefix, HasPrefix]
  have ht2 : TrimPrefix ('/' :: (H ++ ':' :: P)) ['/'] = H ++ ':' :: P := by
    simp [TrimPrefix, HasPrefix]
  constructor
  · rw [ProxyRequest_slash]
    simp only [hostPortOf, ht, hparts1, List.headD_cons, hsplit, hP, hr, hH, if_false,
      Bool.true_eq_false, fmtInt_pos port h1, Dispatch.target?]
    simp
  · rw [ProxyRequest_slash]
    simp only [hostPortOf, ht2, hparts2, List.headD_cons, hsplit, hP, hr, hH, if_false,
      Bool.true_eq_false, fmtInt_pos port h1, Dispatch.target?]
    simp

/-- Witness for C4 (amended): `/proxy/192.168.1.10:8000/dashboard` and
`/proxy/192.168.1.10:8000`. -/
theorem ProxyRequest_target_url_witness :
    (ProxyRequest "/192.168.1.10:8000/dashboard".toList).target? =
        some "http://192.168.1.10:8000/dashboard".toList ∧
    (ProxyRequest "/192.168.1.10:8000".toList).target? =
        some "http://192.168.1.10:8000/".toList :=
  ProxyRequest_target_url "192.168.1.10".toList "8000".toList "dashboard".toList 8000
    (by decide) (by decide) (by decide) (by decide) (by decide)

/-- Counterexample to C4 as stated: `::ffff:10.0.0.1` is an IP literal that `isPrivateIP`
accepts, 80 is a port, the segment `::ffff:10.0.0.1:80` holds no slash, yet
`/proxy/::ffff:10.0.0.1:80/x` is answered with 400 and no target URL is built. -/
theorem ProxyRequest_target_url_counterexample :
    isPrivateIP "::ffff:10.0.0.1".toList = true ∧ Atoi "80".toList = some 80 ∧
    '/' ∉ "::ffff:10.0.0.1:80".toList ∧
    (ProxyRequest "/::ffff:10.0.0.1:80/x".toList).target? = none ∧
    (ProxyRequest "/::ffff:10.0.0.1:80/x".toList).status? = some 400 := by
  decide

/-! ## `HTMLRewriter.shouldSkipURL` -/

theorem HasPrefix_iff (s p : Str) : HasPrefix s p = true ↔ p <+: s := by
  simp [HasPrefix]

theorem shouldSkipURL_iff (hr : HTMLRewriter) (u : Str) :
    hr.shouldSkipURL u = true ↔
      (ToLower (TrimSpace u) = [] ∨ ToLower (TrimSpace u) = ['/'] ∨
        ∃ p ∈ skipPrefixes, p <+: ToLower (TrimSpace u)) := by
  unfold HTMLRewriter.shouldSkipURL
  generalize ToLower (TrimSpace u) = v
  by_cases h : (skipPrefixes.any (fun p => HasPrefix v p)) = true
  · rw [if_pos h]
    simp only [true_iff]
    right; right
    obtain ⟨p, hp, hpv⟩ := List.any_eq_true.mp h
    exact ⟨p, hp, (HasPrefix_iff v p).mp hpv⟩
  · rw [if_neg h]
    have hno : ∀ p ∈ skipPrefixes, ¬ p <+: v := by
      intro p hp hpv
      exact h (List.any_eq_true.mpr ⟨p, hp, (HasPrefix_iff v p).mpr hpv⟩)
    constructor
    · intro hv
      simp only [Bool.or_eq_true, beq_iff_eq] at hv
      rcases hv with (hv | hv) | hv
      · exact Or.inl hv
      · exact Or.inr (Or.inl hv)
      · exact absurd (by rw [hv]; exact List.prefix_refl _)
          (hno "#".toList (by simp [skipPrefixes]))
    · rintro (hv | hv | ⟨p, hp, hpv⟩)
      · simp [hv]
      · simp [hv]
      · exact absurd hpv (hno p hp)

/-- C7. `shouldSkipURL u` is true exactly when `u`, trimmed of surrounding white space and
then lower-cased, is empty, is `/`, or begins with one of the twelve prefixes; so
`HTTP://x` and `  JavaScript:void(0)` are skipped, `/a` and `img.png` are not. -/
theorem shouldSkipURL_spec (hr : HTMLRewriter) (u : Str) :
    (hr.shouldSkipURL u = true ↔
      (ToLower (TrimSpace u) = [] ∨ ToLower (TrimSpace u) = ['/'] ∨
        ∃ p ∈ ["http://".toList, "https://".toList, "//".toList, "ftp://".toList,
              "data:".toList, "javascript:".toList, "mailto:".toList, "tel:".toList,
              "#".toList, "about:".toList, "chrome://".toList, "file://".toList],
          p <+: ToLower (TrimSpace u))) ∧
    hr.shouldSkipURL "HTTP://x".toList = true ∧
    hr.shouldSkipURL "  JavaScript:void(0)".toList = true ∧
    hr.shouldSkipURL "/a".toList = false ∧
    hr.shouldSkipURL "img.png".toList = false :=
  ⟨shouldSkipURL_iff hr u, by rfl, by rfl, by rfl, by rfl⟩

/-! ## The backtracking matcher and its declarative reading -/

theorem starGreedy_sound {α : Type} (p : Char → Bool) (k : Str → Option α) (s : Str) (r : α)
    (h : starGreedy p k s = some r) :
    ∃ xs t, s = xs ++ t ∧ (∀ c ∈ xs, p c = true) ∧ k t = some r := by
  induction s with
  | nil => exact ⟨[], [], rfl, by simp, by simpa [starGreedy] using h⟩
  | cons c cs ih =>
    unfold starGreedy at h
    by_cases hp : p c = true
    · rw [if_pos hp] at h
      cases hg : starGreedy p k cs with
      | some r1 =>
        rw [hg] at h
        obtain ⟨xs, t, hs, hall, hk⟩ := ih (by rw [hg, ← h])
        refine ⟨c :: xs, t, by rw [hs]; rfl, ?_, hk⟩
        intro x hx
        rcases List.mem_cons.mp hx with rfl | hx
        · exact hp
        · exact hall x hx
      | none =>
        rw [hg] at h
        exact ⟨[], c :: cs, rfl, by simp, h⟩
    · rw [if_neg hp] at h
      exact ⟨[], c :: cs, rfl, by simp, h⟩

theorem starGreedy_base {α : Type} (p : Char → Bool) (k : Str → Option α) (t : Str)
    (h : (k t).isSome = true) : (starGreedy p k t).isSome = true := by
  cases t with
  | nil => simpa [starGreedy] using h
  | cons c cs =>
    unfold starGreedy
    split_ifs
    · cases hg : starGreedy p k cs with
      | some r1 => rfl
      | none => exact h
    · exact h

theorem starGreedy_complete {α : Type} (p : Char → Bool) (k : Str → Option α) (xs t : Str)
    (hall : ∀ c ∈ xs, p c = true) (h : (k t).isSome = true) :
    (starGreedy p k (xs ++ t)).isSome = true := by
  induction xs with
  | nil => exact starGreedy_base p k t h
  | cons c cs ih =>
    have ih2 := ih (fun x hx => hall x (List.mem_cons_of_mem _ hx))
    have hc := hall c (List.mem_cons_self _ _)
    rw [List.cons_append]
    unfold starGreedy
    rw [if_pos hc]
    cases hg : starGreedy p k (cs ++ t) with
    | some r1 => rfl
    | none => rw [hg] at ih2; exact absurd ih2 (by simp)

theorem starLazy_sound {α : Type} (p : Char → Bool) (k : Str → Option α) (s : Str) (r : α)
    (h : starLazy p k s = some r) :
    ∃ xs t, s = xs ++ t ∧ (∀ c ∈ xs, p c = true) ∧ k t = some r := by
  induction s with
  | nil => exact ⟨[], [], rfl, by simp, by simpa [starLazy] using h⟩
  | cons c cs ih =>
    unfold starLazy at h
    cases hk : k (c :: cs) with
    | some r1 =>
      rw [hk] at h
      exact ⟨[], c :: cs, rfl, by simp, by rw [hk, ← h]⟩
    | none =>
      rw [hk] at h
      by_cases hp : p c = true
      · rw [if_pos hp] at h
        obtain ⟨xs, t, hs, hall, hk2⟩ := ih h
        refine ⟨c :: xs, t, by rw [hs]; rfl, ?_, hk2⟩
        intro x hx
        rcases List.mem_cons.mp hx with rfl | hx
        · exact hp
        · exact hall x hx
      · rw [if_neg hp] at h
        exact absurd h (by simp)

theorem starLazy_base {α : Type} (p : Char → Bool) (k : Str → Option α) (t : Str)
    (h : (k t).isSome = true) : (starLazy p k t).isSome = true := by
  cases t with
  | nil => simpa [starLazy] using h
  | cons c cs =>
    unfold starLazy
    cases hk : k (c :: cs) with
    | some r1 => rfl
    | none => rw [hk] at h; exact absurd h (by simp)

theorem starLazy_complete {α : Type} (p : Char → Bool) (k : Str → Option α) (xs t : Str)
    (hall : ∀ c ∈ xs, p c = true) (h : (k t).isSome = true) :
    (starLazy p k (xs ++ t)).isSome = true := by
  induction xs with
  | nil => exact starLazy_base p k t h
  | cons c cs ih =>
    have ih2 := ih (fun x hx => hall x (List.mem_cons_of_mem _ hx))
    have hc := hall c (List.mem_cons_self _ _)
    rw [List.cons_append]
    unfold starLazy
    cases hk : k (c :: (cs ++ t)) with
    | some r1 => rfl
    | none => simpa [hc] using ih2

theorem Regex.run_sound {α : Type} (re : Regex) (s : Str) (cap : Option Str)
    (k : Str → Option Str → Option α) (r : α) (h : re.run s cap k = some r) :
    ∃ xs t cap1, s = xs ++ t ∧ re.Sem xs cap cap1 ∧ k t cap1 = some r := by
  induction re generalizing s cap k with
  | rune p =>
    cases s with
    | nil => simp [Regex.run] at h
    | cons c cs =>
      by_cases hp : p c = true
      · simp only [Regex.run, hp, if_true] at h
        exact ⟨[c], cs, cap, rfl, ⟨⟨c, rfl, hp⟩, rfl⟩, h⟩
      · simp [Regex.run, hp] at h
  | star p greedy =>
    cases greedy with
    | true =>
      obtain ⟨xs, t, hs, hall, hk⟩ := starGreedy_sound p (fun t => k t cap) s r h
      exact ⟨xs, t, cap, hs, ⟨hall, rfl⟩, hk⟩
    | false =>
      obtain ⟨xs, t, hs, hall, hk⟩ := starLazy_sound p (fun t => k t cap) s r h
      exact ⟨xs, t, cap, hs, ⟨hall, rfl⟩, hk⟩
  | seq a b iha ihb =>
    obtain ⟨ys, t1, mid, hs1, ha, hk1⟩ := iha s cap _ h
    obtain ⟨zs, t, cap1, hs2, hb, hk⟩ := ihb t1 mid k hk1
    exact ⟨ys ++ zs, t, cap1, by rw [hs1, hs2, List.append_assoc], ⟨ys, zs, mid, rfl, ha, hb⟩, hk⟩
  | group a iha =>
    obtain ⟨xs, t, mid, hs, ha, hk⟩ := iha s cap _ h
    have htake : s.take (s.length - t.length) = xs := by
      rw [hs]; simp
    rw [htake] at hk
    exact ⟨xs, t, some xs, hs, ⟨⟨mid, ha⟩, rfl⟩, hk⟩
  | empty => exact ⟨[], s, cap, rfl, ⟨rfl, rfl⟩, h⟩

theorem Regex.run_complete {α : Type} (re : Regex) (xs t : Str) (cap cap1 : Option Str)
    (k : Str → Option Str → Option α) (hsem : re.Sem xs cap cap1)
    (h : (k t cap1).isSome = true) : (re.run (xs ++ t) cap k).isSome = true := by
  induction re generalizing xs t cap cap1 k with
  | rune p =>
    obtain ⟨⟨c, rfl, hp⟩, rfl⟩ := hsem
    simpa [Regex.run, hp] using h
  | star p greedy =>
    obtain ⟨hall, rfl⟩ := hsem
    cases greedy with
    | true => exact starGreedy_complete p (fun t => k t cap1) xs t hall h
    | false => exact starLazy_complete p (fun t => k t cap1) xs t hall h
  | seq a b iha ihb =>
    obtain ⟨ys, zs, mid, rfl, ha, hb⟩ := hsem
    rw [List.append_assoc]
    exact iha ys (zs ++ t) cap mid _ ha (ihb zs t mid cap1 k hb h)
  | group a iha =>
    obtain ⟨⟨mid, ha⟩, rfl⟩ := hsem
    refine iha xs t cap mid _ ha ?_
    simpa using h
  | empty =>
    obtain ⟨rfl, rfl⟩ := hsem
    simpa [Regex.run] using h

theorem Regex.matchAt_sound (re : Regex) (s t : Str) (cap : Option Str)
    (h : re.matchAt s = some (t, cap)) : ∃ xs, s = xs ++ t ∧ re.Sem xs none cap := by
  obtain ⟨xs, t1, cap1, hs, hsem, hk⟩ := Regex.run_sound re s none _ _ h
  simp only [Option.some.injEq, Prod.mk.injEq] at hk
  obtain ⟨rfl, rfl⟩ := hk
  exact ⟨xs, hs, hsem⟩

theorem Regex.matchAt_complete (re : Regex) (xs t : Str) (cap : Option Str)
    (hsem : re.Sem xs none cap) : (re.matchAt (xs ++ t)).isSome = true :=
  Regex.run_complete re xs t none cap _ hsem rfl

theorem Regex.Sem_text (w : Str) (tail : Regex) (xs : Str) (cap cap1 : Option Str) :
    (Regex.text w tail).Sem xs cap cap1 ↔ ∃ zs, xs = w ++ zs ∧ tail.Sem zs cap cap1 := by
  induction w generalizing xs with
  | nil => simp [Regex.text]
  | cons c cs ih =>
    have hunf : Regex.text (c :: cs) tail = .seq (.rune (fun x => x == c)) (Regex.text cs tail) := rfl
    rw [hunf]
    constructor
    · rintro ⟨ys, zs, mid, rfl, ⟨⟨d, rfl, hd⟩, rfl⟩, hb⟩
      obtain ⟨zs2, rfl, ht⟩ := (ih zs).mp hb
      have : d = c := by simpa using hd
      exact ⟨zs2, by rw [this]; rfl, ht⟩
    · rintro ⟨zs, rfl, ht⟩
      exact ⟨[c], cs ++ zs, cap, rfl, ⟨⟨c, rfl, by simp⟩, rfl⟩, (ih _).mpr ⟨zs, rfl, ht⟩⟩

/-! ## The attribute patterns -/

theorem isReSpace_not_quote (c : Char) (h : isReSpace c = true) : isQuote c = false := by
  simp only [isReSpace, isQuote, Bool.or_eq_true, beq_iff_eq] at h ⊢
  rcases h with (((h | h) | h) | h) | h <;> simp [h]

theorem Sem_urlGroup (xs : Str) (cap cap1 : Option Str) :
    urlGroup.Sem xs cap cap1 ↔ (∀ c ∈ xs, isQuote c = false) ∧ cap1 = some xs := by
  unfold urlGroup
  simp only [Regex.Sem]
  constructor
  · rintro ⟨⟨mid, ys, zs, m1, rfl, ⟨h1, -⟩, ys2, zs2, m2, rfl, ⟨h2, -⟩, ⟨h3, -⟩⟩, rfl⟩
    refine ⟨?_, rfl⟩
    intro c hc
    rcases List.mem_append.mp hc with hc | hc
    · exact isReSpace_not_quote c (h1 c hc)
    · rcases List.mem_append.mp hc with hc | hc
      · simpa using h2 c hc
      · exact isReSpace_not_quote c (h3 c hc)
  · rintro ⟨h, rfl⟩
    refine ⟨⟨cap, [], xs, cap, rfl, ⟨by simp, rfl⟩, xs, [], cap, by simp, ⟨?_, rfl⟩,
      ⟨by simp, rfl⟩⟩, rfl⟩
    intro c hc
    simpa using h c hc

theorem Sem_quoted (pre post xs : Str) (cap : Option Str) :
    (quotedPattern pre post).Sem xs none cap ↔
      ∃ q1 body q2, xs = pre ++ q1 :: (body ++ q2 :: post) ∧ isQuote q1 = true ∧
        isQuote q2 = true ∧ (∀ c ∈ body, isQuote c = false) ∧ cap = some body := by
  unfold quotedPattern
  rw [Regex.Sem_text]
  constructor
  · rintro ⟨zs, rfl, ys1, zs1, m1, rfl, ⟨⟨q1, rfl, hq1⟩, e1⟩, ys2, zs2, m2, rfl, hg,
      ys3, zs3, m3, rfl, ⟨⟨q2, rfl, hq2⟩, e3⟩, ht⟩
    obtain ⟨hbody, e2⟩ := (Sem_urlGroup ys2 m1 m2).mp hg
    obtain ⟨zs4, rfl, ⟨rfl, e4⟩⟩ := (Regex.Sem_text post .empty zs3 _ _).mp ht
    exact ⟨q1, ys2, q2, by simp, hq1, hq2, hbody, by rw [e4, e3, e2]⟩
  · rintro ⟨q1, body, q2, rfl, hq1, hq2, hbody, rfl⟩
    refine ⟨q1 :: (body ++ q2 :: post), rfl, [q1], body ++ q2 :: post, none, rfl,
      ⟨⟨q1, rfl, hq1⟩, rfl⟩, body, q2 :: post, some body, rfl,
      (Sem_urlGroup body none _).mpr ⟨hbody, rfl⟩, [q2], post, some body, rfl,
      ⟨⟨q2, rfl, hq2⟩, rfl⟩, ?_⟩
    exact (Regex.Sem_text post .empty post _ _).mpr ⟨[], by simp, ⟨rfl, rfl⟩⟩

/-- A text splits in one way only at its first rune of a class. -/
theorem split_first_unique (p : Char → Bool) (l1 l2 r1 r2 : Str) (a b : Char)
    (h : l1 ++ a :: r1 = l2 ++ b :: r2) (h1 : ∀ c ∈ l1, p c = false)
    (h2 : ∀ c ∈ l2, p c = false) (ha : p a = true) (hb : p b = true) :
    l1 = l2 ∧ a = b ∧ r1 = r2 := by
  induction l1 generalizing l2 with
  | nil =>
    cases l2 with
    | nil => simpa using h
    | cons x xs =>
      simp only [List.nil_append, List.cons_append, List.cons.injEq] at h
      have := h2 x (List.mem_cons_self _ _)
      rw [← h.1, ha] at this
      exact absurd this (by simp)
  | cons y ys ih =>
    cases l2 with
    | nil =>
      simp only [List.nil_append, List.cons_append, List.cons.injEq] at h
      have := h1 y (List.mem_cons_self _ _)
      rw [h.1, hb] at this
      exact absurd this (by simp)
    | cons x xs =>
      simp only [List.cons_append, List.cons.injEq] at h
      obtain ⟨e1, e2, e3⟩ := ih xs h.2 (fun c hc => h1 c (List.mem_cons_of_mem _ hc))
        (fun c hc => h2 c (List.mem_cons_of_mem _ hc))
      exact ⟨by rw [h.1, e1], e2, e3⟩

/-- On a text that begins with `pre`, a quote, a quote-free value, a quote and `post`, the
pattern matches exactly this and captures the value. -/
theorem matchAt_quoted (pre post body rest : Str) (q1 q2 : Char) (hq1 : isQuote q1 = true)
    (hq2 : isQuote q2 = true) (hbody : ∀ c ∈ body, isQuote c = false) :
    (quotedPattern pre post).matchAt (pre ++ q1 :: (body ++ q2 :: (post ++ rest))) =
      some (rest, some body) := by
  have hc := Regex.matchAt_complete (quotedPattern pre post) (pre ++ q1 :: (body ++ q2 :: post))
    rest (some body) ((Sem_quoted _ _ _ _).mpr ⟨q1, body, q2, rfl, hq1, hq2, hbody, rfl⟩)
  have e : pre ++ q1 :: (body ++ q2 :: post) ++ rest = pre ++ q1 :: (body ++ q2 :: (post ++ rest)) := by
    simp
  rw [e] at hc
  cases hm : (quotedPattern pre post).matchAt (pre ++ q1 :: (body ++ q2 :: (post ++ rest))) with
  | none => rw [hm] at hc; exact absurd hc (by simp)
  | some r =>
    obtain ⟨t, cap⟩ := r
    obtain ⟨xs, hs, hsem⟩ := Regex.matchAt_sound _ _ _ _ hm
    obtain ⟨a, body2, b, rfl, ha, hb, hbody2, rfl⟩ := (Sem_quoted _ _ _ _).mp hsem
    simp only [List.append_assoc, List.cons_append, List.append_cancel_left_eq,
      List.cons.injEq] at hs
    obtain ⟨e1, e2, e3⟩ := split_first_unique isQuote body body2 _ _ q2 b hs.2 hbody hbody2 hq2 hb
    have e4 : rest = t := by simpa using e3
    rw [e1, e4]

/-! ## `strings.TrimSpace` -/

theorem rdropWhile_cons_neg (p : Char → Bool) (x : Char) (xs : Str) (h : p x = false) :
    (x :: xs).rdropWhile p = x :: xs.rdropWhile p := by
  induction xs using List.reverseRecOn with
  | nil => simp [List.rdropWhile_singleton, h]
  | append_singleton ys y ih =>
    by_cases hy : p y = true
    · rw [← List.cons_append, List.rdropWhile_concat_pos _ _ _ hy,
        List.rdropWhile_concat_pos _ _ _ hy, ih]
    · rw [← List.cons_append, List.rdropWhile_concat_neg _ _ _ hy,
        List.rdropWhile_concat_neg _ _ _ hy]
      rfl

theorem rdropWhile_append_of_pos (p : Char → Bool) (l ws : Str) (h : ∀ c ∈ ws, p c = true) :
    (l ++ ws).rdropWhile p = l.rdropWhile p := by
  induction ws using List.reverseRecOn with
  | nil => simp
  | append_singleton ys y ih =>
    rw [← List.append_assoc, List.rdropWhile_concat_pos _ _ _ (h y (by simp))]
    exact ih (fun c hc => h c (by simp [hc]))

theorem dropWhile_head_false (p : Char → Bool) (s : Str) (x : Char) (xs : Str)
    (h : s.dropWhile p = x :: xs) : p x = false := by
  induction s with
  | nil => simp at h
  | cons c cs ih =>
    rw [List.dropWhile_cons] at h
    split_ifs at h with hc
    · exact ih h
    · simp only [List.cons.injEq] at h
      rw [← h.1]; simpa using hc

theorem TrimSpace_cons_of_not_space (x : Char) (xs : Str) (h : isSpace x = false) :
    TrimSpace (x :: xs) = x :: xs.rdropWhile isSpace := by
  unfold TrimSpace
  rw [List.dropWhile_cons, if_neg (by simp [h])]
  exact rdropWhile_cons_neg isSpace x xs h

theorem TrimSpace_idem (s : Str) : TrimSpace (TrimSpace s) = TrimSpace s := by
  cases hd : s.dropWhile isSpace with
  | nil => simp [TrimSpace, hd]
  | cons x xs =>
    have hx := dropWhile_head_false isSpace s x xs hd
    have e : TrimSpace s = x :: xs.rdropWhile isSpace := by
      unfold TrimSpace; rw [hd]; exact rdropWhile_cons_neg isSpace x xs hx
    rw [e, TrimSpace_cons_of_not_space _ _ hx, List.rdropWhile_idempotent]

theorem TrimSpace_pad (ws1 u ws2 : Str) (h1 : ∀ c ∈ ws1, isSpace c = true)
    (h2 : ∀ c ∈ ws2, isSpace c = true) : TrimSpace (ws1 ++ (u ++ ws2)) = TrimSpace u := by
  unfold TrimSpace
  rw [List.dropWhile_append_of_pos h1, List.dropWhile_append]
  cases hd : u.dropWhile isSpace with
  | nil =>
    have : ws2.dropWhile isSpace = [] := by
      have := @List.dropWhile_append_of_pos Char isSpace ws2 [] h2
      simpa using this
    simp [this]
  | cons x xs =>
    simp only [List.isEmpty_cons, Bool.false_eq_true, if_false]
    exact rdropWhile_append_of_pos isSpace _ ws2 h2

/-! ## `rewriteAttribute` on the text of one attribute -/

theorem Regex.find_of_matchAt (re : Regex) (s : Str) (r : Str × Option Str) (hs : s ≠ [])
    (h : re.matchAt s = some r) :
    re.find s = some ⟨[], s.take (s.length - r.1.length), r.2, r.1⟩ := by
  cases s with
  | nil => exact absurd rfl hs
  | cons c cs => simp only [Regex.find, h]

theorem attrText_ne_nil (a : Attr) (q1 q2 : Char) (U : Str) : attrText a q1 q2 U ≠ [] := by
  unfold attrText; simp

theorem matchAt_attrText (a : Attr) (q1 q2 : Char) (U : Str) (hq1 : isQuote q1 = true)
    (hq2 : isQuote q2 = true) (hU : ∀ c ∈ U, isQuote c = false) :
    a.pattern.matchAt (attrText a q1 q2 U) = some ([], some U) := by
  have := matchAt_quoted a.pre a.post U [] q1 q2 hq1 hq2 hU
  simpa [Attr.pattern, attrText] using this

theorem find_attrText (a : Attr) (q1 q2 : Char) (U : Str) (hq1 : isQuote q1 = true)
    (hq2 : isQuote q2 = true) (hU : ∀ c ∈ U, isQuote c = false) :
    a.pattern.find (attrText a q1 q2 U) = some ⟨[], attrText a q1 q2 U, some U, []⟩ := by
  rw [Regex.find_of_matchAt _ _ _ (attrText_ne_nil a q1 q2 U) (matchAt_attrText a q1 q2 U hq1 hq2 hU)]
  simp

/-- `rewriteAttribute` on the text of one attribute whose value holds no quote: the
value is found as group 1, trimmed, and either skipped or replaced at its first
occurrence in the text. -/
theorem rewriteAttribute_attrText (hr : HTMLRewriter) (a : Attr) (q1 q2 : Char) (U : Str)
    (hq1 : isQuote q1 = true) (hq2 : isQuote q2 = true) (hU : ∀ c ∈ U, isQuote c = false) :
    hr.rewriteAttribute (attrText a q1 q2 U) a.pattern =
      if hr.shouldSkipURL (TrimSpace U) = true then attrText a q1 q2 U
      else replaceFirst (TrimSpace U) (hr.rewriteURL (TrimSpace U)) (attrText a q1 q2 U) := by
  unfold HTMLRewriter.rewriteAttribute
  rw [find_attrText a q1 q2 U hq1 hq2 hU]
  simp

theorem isSpace_not_quote (c : Char) (h : isSpace c = true) : isQuote c = false := by
  by_contra hq
  simp only [Bool.not_eq_false, isQuote, Bool.or_eq_true, beq_iff_eq] at hq
  rcases hq with hq | hq <;> simp [isSpace, hq] at h

theorem isSpace_ne_slash (c : Char) (h : isSpace c = true) : c ≠ '/' := by
  intro e; rw [e] at h; exact absurd h (by decide)

theorem isQuote_ne_slash (c : Char) (h : isQuote c = true) : c ≠ '/' := by
  intro e; rw [e] at h; exact absurd h (by decide)

theorem lowerRune_eq_slash (c : Char) (h : lowerRune c = '/') : c = '/' := by
  unfold lowerRune at h
  split_ifs at h with h1 h2 h3
  · exfalso
    obtain ⟨ha, hb⟩ := h1
    generalize c.toNat = n at ha hb h
    interval_cases n <;> exact absurd h (by decide)
  · exact absurd h (by decide)
  · exact absurd h (by decide)
  · exact h

theorem replaceFirst_cons (old new : Str) (c : Char) (cs : Str) :
    replaceFirst old new (c :: cs) =
      if old.isPrefixOf (c :: cs) then new ++ (c :: cs).drop old.length
      else c :: replaceFirst old new cs := rfl

theorem replaceFirst_at (x : Char) (old1 new A B : Str) (hA : ∀ c ∈ A, c ≠ x) :
    replaceFirst (x :: old1) new (A ++ ((x :: old1) ++ B)) = A ++ (new ++ B) := by
  induction A with
  | nil =>
    rw [List.nil_append, List.nil_append, List.cons_append, replaceFirst_cons]
    have : (x :: old1).isPrefixOf (x :: (old1 ++ B)) = true := by simp
    rw [if_pos this]
    simp
  | cons c cs ih =>
    have hc : c ≠ x := hA c (List.mem_cons_self _ _)
    rw [List.cons_append, replaceFirst_cons]
    have : (x :: old1).isPrefixOf (c :: (cs ++ (x :: old1 ++ B))) = false := by
      simp [List.isPrefixOf, Ne.symm hc]
    rw [this, ih (fun d hd => hA d (List.mem_cons_of_mem _ hd))]
    simp

theorem Attr.pre_no_slash (a : Attr) : ∀ c ∈ a.pre, c ≠ '/' := by
  cases a <;> decide

theorem Attr.pre_no_quote (a : Attr) : ∀ c ∈ a.pre, isQuote c = false := by
  cases a <;> decide

theorem Attr.post_no_quote (a : Attr) : ∀ c ∈ a.post, isQuote c = false := by
  cases a <;> decide

/-- `shouldSkipURL` on a trimmed text that starts with one slash and is longer. -/
theorem shouldSkipURL_root_relative (hr : HTMLRewriter) (t1 : Str) (ht : t1 ≠ [])
    (htrim : TrimSpace ('/' :: t1) = '/' :: t1) (hdbl : ¬ ['/', '/'] <+: '/' :: t1) :
    hr.shouldSkipURL ('/' :: t1) = false := by
  rw [Bool.eq_false_iff]
  intro hskip
  rw [shouldSkipURL_iff, htrim] at hskip
  have hl : ToLower ('/' :: t1) = '/' :: ToLower t1 := by
    simp only [ToLower, List.map_cons]
    rw [show lowerRune '/' = '/' from by decide]
  rw [hl] at hskip
  rcases hskip with h | h | ⟨p, hp, hpv⟩
  · exact absurd h (by simp)
  · simp only [List.cons.injEq, true_and] at h
    have : t1 = [] := by simpa [ToLower] using h
    exact ht this
  · have key : ∀ q ∈ skipPrefixes, q ≠ [] ∧ (q.head? = some '/' → q = ['/', '/']) := by decide
    cases p with
    | nil => exact absurd rfl (key [] hp).1
    | cons a p1 =>
      obtain ⟨ha, hp1⟩ := List.cons_prefix_cons.mp hpv
      have hpe := (key _ hp).2 (by rw [ha]; rfl)
      simp only [List.cons.injEq] at hpe
      rw [hpe.2] at hp1
      cases t1 with
      | nil => exact ht rfl
      | cons c cs =>
        simp only [ToLower, List.map_cons] at hp1
        have h3 := (List.cons_prefix_cons.mp hp1).1
        have hc : c = '/' := lowerRune_eq_slash c h3.symm
        apply hdbl
        rw [hc]
        exact List.cons_prefix_cons.mpr ⟨rfl, List.cons_prefix_cons.mpr ⟨rfl, List.nil_prefix⟩⟩

/-- C5 (evaluation at the failing input). For the relative URL `s`, which is not empty,
holds no quote, does not start with a slash and is not skipped, `rewriteAttribute` on
`src="s"` replaces the first `s` of the text, the one of the attribute name, and leaves
the value as it was. With `img.png` the value is the first occurrence and is rewritten. -/
theorem rewriteAttribute_relative_src_s :
    exampleRewriter.shouldSkipURL "s".toList = false ∧
    exampleRewriter.rewriteAttribute "src=\"s\"".toList Attr.src.pattern =
      "/proxy/10.0.0.5:80/src=\"s\"".toList ∧
    exampleRewriter.rewriteAttribute "src=\"s\"".toList Attr.src.pattern ≠
      "src=\"/proxy/10.0.0.5:80/s\"".toList ∧
    exampleRewriter.rewriteAttribute "src=\"img.png\"".toList Attr.src.pattern =
      "src=\"/proxy/10.0.0.5:80/img.png\"".toList := by
  decide

/-- C6 (amended). For a root-relative URL `u` (it starts with a slash, does not start
with two, holds no quote) that is not a lone slash once trimmed of white space, written
as the quoted value of `href`, `src`, `action`, `content` or `url(...)` with optional
white space around it, `rewriteAttribute` returns the same text with `u` replaced by
the proxy prefix followed by `u`. -/
theorem rewriteAttribute_root_relative (hr : HTMLRewriter) (a : Attr) (q1 q2 : Char)
    (ws1 u ws2 : Str) (hq1 : isQuote q1 = true) (hq2 : isQuote q2 = true)
    (hws1 : ∀ c ∈ ws1, isSpace c = true) (hws2 : ∀ c ∈ ws2, isSpace c = true)
    (hslash : ['/'] <+: u) (hne : TrimSpace u ≠ ['/']) (hdbl : ¬ ['/', '/'] <+: u)
    (hU : ∀ c ∈ u, isQuote c = false) :
    hr.rewriteAttribute (attrText a q1 q2 (ws1 ++ (u ++ ws2))) a.pattern =
      attrText a q1 q2 (ws1 ++ ((hr.proxyPrefix ++ u) ++ ws2)) := by
  obtain ⟨u1, rfl⟩ : ∃ u1, u = '/' :: u1 := by
    obtain ⟨r, hr1⟩ := hslash
    exact ⟨r, by simpa using hr1.symm⟩
  have hbody : ∀ c ∈ ws1 ++ ('/' :: u1 ++ ws2), isQuote c = false := by
    intro c hc
    rcases List.mem_append.mp hc with hc | hc
    · exact isSpace_not_quote c (hws1 c hc)
    · rcases List.mem_append.mp hc with hc | hc
      · exact hU c hc
      · exact isSpace_not_quote c (hws2 c hc)
  have hsl : isSpace '/' = false := by decide
  have htr : TrimSpace ('/' :: u1) = '/' :: u1.rdropWhile isSpace :=
    TrimSpace_cons_of_not_space '/' u1 hsl
  obtain ⟨r, hr1⟩ : u1.rdropWhile isSpace <+: u1 := List.rdropWhile_prefix _ _
  generalize ht1 : u1.rdropWhile isSpace = t1 at htr hr1
  have ht1ne : t1 ≠ [] := by
    intro e; rw [e] at htr; exact hne htr
  have htrim : TrimSpace ('/' :: t1) = '/' :: t1 := by
    rw [← htr]; exact TrimSpace_idem _
  have hdbl2 : ¬ ['/', '/'] <+: '/' :: t1 := by
    intro h
    apply hdbl
    refine List.IsPrefix.trans h ?_
    rw [← hr1]
    exact List.cons_prefix_cons.mpr ⟨rfl, List.prefix_append _ _⟩
  rw [rewriteAttribute_attrText hr a q1 q2 _ hq1 hq2 hbody, TrimSpace_pad ws1 _ ws2 hws1 hws2,
    htr, shouldSkipURL_root_relative hr t1 ht1ne htrim hdbl2]
  simp only [Bool.false_eq_true, if_false]
  have hurl : hr.rewriteURL ('/' :: t1) = hr.proxyPrefix ++ '/' :: t1 := by
    simp [HTMLRewriter.rewriteURL, HasPrefix]
  have hA : ∀ c ∈ a.pre ++ q1 :: ws1, c ≠ '/' := by
    intro c hc
    rcases List.mem_append.mp hc with hc | hc
    · exact Attr.pre_no_slash a c hc
    · rcases List.mem_cons.mp hc with rfl | hc
      · exact isQuote_ne_slash c hq1
      · exact isSpace_ne_slash c (hws1 c hc)
  have e1 : attrText a q1 q2 (ws1 ++ ('/' :: u1 ++ ws2)) =
      (a.pre ++ q1 :: ws1) ++ (('/' :: t1) ++ (r ++ ws2 ++ q2 :: a.post)) := by
    rw [← hr1]; simp [attrText]
  have e2 : attrText a q1 q2 (ws1 ++ ((hr.proxyPrefix ++ '/' :: u1) ++ ws2)) =
      (a.pre ++ q1 :: ws1) ++ ((hr.proxyPrefix ++ '/' :: t1) ++ (r ++ ws2 ++ q2 :: a.post)) := by
    rw [← hr1]; simp [attrText]
  rw [hurl, e1, e2]
  exact replaceFirst_at '/' t1 _ _ _ hA

/-- Witness for C6 (amended): `href="/a/b"` becomes `href="/proxy/10.0.0.5:80/a/b"`. -/
theorem rewriteAttribute_root_relative_witness :
    exampleRewriter.rewriteAttribute "href=\"/a/b\"".toList Attr.href.pattern =
      "href=\"/proxy/10.0.0.5:80/a/b\"".toList :=
  rewriteAttribute_root_relative exampleRewriter Attr.href (Char.ofNat 34) (Char.ofNat 34)
    [] "/a/b".toList [] (by decide) (by decide) (by decide) (by decide) (by decide) (by decide)
    (by decide) (by decide)

/-- Counterexample to C6 as stated: `u` is a slash followed by a space. It starts with a
slash, is not exactly `/`, does not start with `//` and holds no quote, yet
`rewriteAttribute` returns `href="/ "` unchanged, since the trimmed value is `/`. -/
theorem rewriteAttribute_root_relative_counterexample :
    ['/'] <+: "/ ".toList ∧ "/ ".toList ≠ ['/'] ∧ ¬ ['/', '/'] <+: "/ ".toList ∧
    (∀ c ∈ "/ ".toList, isQuote c = false) ∧
    exampleRewriter.rewriteAttribute "href=\"/ \"".toList Attr.href.pattern =
      "href=\"/ \"".toList ∧
    exampleRewriter.rewriteAttribute "href=\"/ \"".toList Attr.href.pattern ≠
      "href=\"/proxy/10.0.0.5:80/ \"".toList := by
  decide

/-! ## `Regexp.replaceAll` -/

theorem Regex.replaceAllAux_skip (re : Regex) (repl : Str → Option Str → Str) (xs rest : Str) :
    re.replaceAllAux repl (xs ++ rest) xs.length true = re.replaceAllAux repl rest 0 true := by
  induction xs with
  | nil => rfl
  | cons x xs ih =>
    rw [List.cons_append, List.length_cons]
    simp only [Regex.replaceAllAux]
    exact ih

theorem Regex.replaceAllAux_nil_true (re : Regex) (repl : Str → Option Str → Str) :
    re.replaceAllAux repl [] 0 true = [] := by
  unfold Regex.replaceAllAux
  cases re.matchAt [] <;> simp

/-- Where the pattern matches a non-empty text at the start, `replaceAll` replaces it and
goes on behind it. -/
theorem Regex.replaceAllAux_match (re : Regex) (repl : Str → Option Str → Str) (m rest : Str)
    (g : Option Str) (b : Bool) (hm : m ≠ []) (h : re.matchAt (m ++ rest) = some (rest, g)) :
    re.replaceAllAux repl (m ++ rest) 0 b = repl m g ++ re.replaceAllAux repl rest 0 true := by
  cases m with
  | nil => exact absurd rfl hm
  | cons c cs =>
    rw [List.cons_append] at h ⊢
    simp only [Regex.replaceAllAux, h]
    have hn : (c :: (cs ++ rest)).length - rest.length = cs.length + 1 := by
      simp only [List.length_cons, List.length_append]; omega
    rw [hn]
    simp only [Nat.add_eq_zero, one_ne_zero, and_false, if_false, Nat.add_sub_cancel]
    have ht : (c :: (cs ++ rest)).take (cs.length + 1) = c :: cs := by simp
    rw [ht, Regex.replaceAllAux_skip]

/-- Where the pattern matches nowhere, `replaceAll` returns the text. -/
theorem Regex.replaceAllAux_none (re : Regex) (repl : Str → Option Str → Str) (s : Str) (b : Bool)
    (h : ∀ t, t <:+ s → re.matchAt t = none) : re.replaceAllAux repl s 0 b = s := by
  induction s generalizing b with
  | nil => simp [Regex.replaceAllAux, h [] (List.suffix_refl _)]
  | cons c cs ih =>
    simp only [Regex.replaceAllAux, h (c :: cs) (List.suffix_refl _)]
    rw [ih false (fun t ht => h t (List.IsSuffix.trans ht (List.suffix_cons c cs)))]

theorem Regex.find_none (re : Regex) (s : Str) (h : re.find s = none) :
    ∀ t, t <:+ s → re.matchAt t = none := by
  induction s with
  | nil =>
    intro t ht
    have : t = [] := List.suffix_nil.mp ht
    subst this
    cases hm : re.matchAt [] with
    | none => rfl
    | some r => simp [Regex.find, hm] at h
  | cons c cs ih =>
    cases hm : re.matchAt (c :: cs) with
    | some r => simp [Regex.find, hm] at h
    | none =>
      have hcs : re.find cs = none := by
        cases hf : re.find cs with
        | none => rfl
        | some m => simp [Regex.find, hm, hf] at h
      intro t ht
      rcases List.suffix_cons_iff.mp ht with rfl | ht
      · exact hm
      · exact ih hcs t ht

/-- The leftmost match splits the text, and `replaceAll` replaces it and goes on behind
it. -/
theorem Regex.replaceAllAux_find (re : Regex) (repl : Str → Option Str → Str) (s : Str) (m : Match)
    (b : Bool) (h : re.find s = some m) (hm : m.matched ≠ []) :
    s = m.before ++ (m.matched ++ m.after) ∧
    re.replaceAllAux repl s 0 b =
      m.before ++ (repl m.matched m.group1 ++ re.replaceAllAux repl m.after 0 true) := by
  induction s generalizing m b with
  | nil =>
    cases hma : re.matchAt [] with
    | none => simp [Regex.find, hma] at h
    | some r =>
      simp only [Regex.find, hma, Option.some.injEq] at h
      rw [← h] at hm
      exact absurd rfl hm
  | cons c cs ih =>
    cases hma : re.matchAt (c :: cs) with
    | some r =>
      obtain ⟨rest, g⟩ := r
      simp only [Regex.find, hma, Option.some.injEq] at h
      obtain ⟨xs, hs, -⟩ := Regex.matchAt_sound re _ _ _ hma
      have htake : (c :: cs).take ((c :: cs).length - rest.length) = xs := by
        rw [hs]; simp
      rw [htake] at h
      subst h
      simp only [List.nil_append] at hm ⊢
      refine ⟨hs, ?_⟩
      rw [hs] at hma ⊢
      exact Regex.replaceAllAux_match re repl xs rest g b hm hma
    | none =>
      cases hf : re.find cs with
      | none => simp [Regex.find, hma, hf] at h
      | some m1 =>
        simp only [Regex.find, hma, hf, Option.some.injEq] at h
        subst h
        obtain ⟨e1, e2⟩ := ih m1 false hf hm
        refine ⟨by simp only [List.cons_append]; rw [← e1], ?_⟩
        simp only [Regex.replaceAllAux, hma, List.cons_append]
        rw [e2]

/-! ## The five passes on the text of one attribute -/

theorem countP_quote_free (l : Str) (h : ∀ c ∈ l, isQuote c = false) :
    l.countP isQuote = 0 := by
  rw [List.countP_eq_zero]
  intro c hc
  simp [h c hc]

theorem Attr.pre_not_suffix (a b : Attr) (hab : a ≠ b) : ¬ b.pre <:+ a.pre := by
  cases a <;> cases b <;> first | exact absurd rfl hab | decide

/-- The pattern of another attribute matches nowhere in the text of an attribute. -/
theorem matchAt_other_attr (a b : Attr) (hab : a ≠ b) (q1 q2 : Char) (U : Str)
    (hq1 : isQuote q1 = true) (hq2 : isQuote q2 = true) (hU : ∀ c ∈ U, isQuote c = false) :
    ∀ t, t <:+ attrText a q1 q2 U → b.pattern.matchAt t = none := by
  intro t ht
  cases hm : b.pattern.matchAt t with
  | none => rfl
  | some r =>
    exfalso
    obtain ⟨rest, cap⟩ := r
    obtain ⟨xs, hs, hsem⟩ := Regex.matchAt_sound _ _ _ _ hm
    obtain ⟨x, body, y, rfl, hx, hy, hbody, -⟩ := (Sem_quoted _ _ _ _).mp hsem
    obtain ⟨w, hw⟩ := ht
    have hcount : (attrText a q1 q2 U).countP isQuote = 2 := by
      simp [attrText, List.countP_append, List.countP_cons, hq1, hq2,
        countP_quote_free _ (Attr.pre_no_quote a), countP_quote_free _ (Attr.post_no_quote a),
        countP_quote_free _ hU]
    have hw0 : w.countP isQuote = 0 := by
      rw [← hw, hs] at hcount
      simp only [List.countP_append, List.countP_cons, hx, hy, if_true] at hcount
      omega
    have hwq : ∀ c ∈ w ++ b.pre, isQuote c = false := by
      intro c hc
      rcases List.mem_append.mp hc with hc | hc
      · have := (List.countP_eq_zero.mp hw0) c hc
        simpa using this
      · exact Attr.pre_no_quote b c hc
    have heq : (w ++ b.pre) ++ x :: (body ++ y :: b.post ++ rest) =
        a.pre ++ q1 :: (U ++ q2 :: a.post) := by
      rw [← attrText, ← hw, hs]; simp
    obtain ⟨e, -, -⟩ := split_first_unique isQuote _ _ _ _ x q1 heq hwq (Attr.pre_no_quote a) hx hq1
    exact Attr.pre_not_suffix a b hab ⟨w, e⟩

/-- One pass of `RewriteHTML` over the text of an attribute whose URL is skipped leaves
the text as it is, for the pattern of this attribute and for the four others. -/
theorem pass_attrText (hr : HTMLRewriter) (a b : Attr) (q1 q2 : Char) (U : Str)
    (hq1 : isQuote q1 = true) (hq2 : isQuote q2 = true) (hU : ∀ c ∈ U, isQuote c = false)
    (hskip : hr.shouldSkipURL (TrimSpace U) = true) :
    b.pattern.ReplaceAllStringFunc (attrText a q1 q2 U)
      (fun m => hr.rewriteAttribute m b.pattern) = attrText a q1 q2 U := by
  unfold Regex.ReplaceAllStringFunc
  by_cases hab : a = b
  · subst hab
    have hm := matchAt_attrText a q1 q2 U hq1 hq2 hU
    have h := Regex.replaceAllAux_match a.pattern
      (fun m _ => hr.rewriteAttribute m a.pattern) (attrText a q1 q2 U) [] (some U) false
      (attrText_ne_nil a q1 q2 U) (by simpa using hm)
    simp only [List.append_nil] at h
    rw [h, Regex.replaceAllAux_nil_true, List.append_nil,
      rewriteAttribute_attrText hr a q1 q2 U hq1 hq2 hU, if_pos hskip]
  · exact Regex.replaceAllAux_none _ _ _ _ (matchAt_other_attr a b hab q1 q2 U hq1 hq2 hU)

theorem rewritePasses_attrText (hr : HTMLRewriter) (a : Attr) (q1 q2 : Char) (U : Str)
    (hq1 : isQuote q1 = true) (hq2 : isQuote q2 = true) (hU : ∀ c ∈ U, isQuote c = false)
    (hskip : hr.shouldSkipURL (TrimSpace U) = true) (order : List Attr) :
    hr.rewritePasses order (attrText a q1 q2 U) = attrText a q1 q2 U := by
  unfold HTMLRewriter.rewritePasses
  induction order with
  | nil => rfl
  | cons b bs ih =>
    rw [List.foldl_cons, pass_attrText hr a b q1 q2 U hq1 hq2 hU hskip]
    exact ih

theorem shouldSkipURL_of_prefix (hr : HTMLRewriter) (U p : Str) (hp : p ∈ skipPrefixes)
    (h : p <+: ToLower (TrimSpace U)) : hr.shouldSkipURL (TrimSpace U) = true := by
  rw [shouldSkipURL_iff, TrimSpace_idem]
  exact Or.inr (Or.inr ⟨p, hp, h⟩)

theorem injectBaseTag_no_tag (hr : HTMLRewriter) (html : Str)
    (h1 : headPattern.MatchString html = false) (h2 : htmlPattern.MatchString html = false) :
    hr.injectBaseTag html = hr.baseTag ++ "\n".toList ++ html := by
  simp [HTMLRewriter.injectBaseTag, h1, h2]

/-- The part of the skip rule that holds for every URL. For each of the five attribute
forms and every URL `U` without quote whose trimmed, lower-cased form begins with one of
the eleven prefixes, `rewriteAttribute` returns the attribute text byte-identical; and when
the attribute text holds no opening head or html tag, `RewriteHTML` applied to it, with the
passes in any order, returns it byte-identical, with at most the base tag and a line feed
put in front. -/
theorem skipped_url_unchanged (hr : HTMLRewriter) (a : Attr) (q1 q2 : Char) (U p : Str)
    (hq1 : isQuote q1 = true) (hq2 : isQuote q2 = true) (hU : ∀ c ∈ U, isQuote c = false)
    (hp : p ∈ ["http://".toList, "https://".toList, "//".toList, "data:".toList,
      "javascript:".toList, "mailto:".toList, "tel:".toList, "#".toList, "about:".toList,
      "chrome://".toList, "file://".toList])
    (hpre : p <+: ToLower (TrimSpace U)) :
    hr.rewriteAttribute (attrText a q1 q2 U) a.pattern = attrText a q1 q2 U ∧
    (headPattern.MatchString (attrText a q1 q2 U) = false →
      htmlPattern.MatchString (attrText a q1 q2 U) = false →
      ∀ order : List Attr,
        hr.RewriteHTML order (attrText a q1 q2 U) = attrText a q1 q2 U ∨
        hr.RewriteHTML order (attrText a q1 q2 U) =
          hr.baseTag ++ "\n".toList ++ attrText a q1 q2 U) := by
  have hmem : p ∈ skipPrefixes := by
    have : ∀ q ∈ ["http://".toList, "https://".toList, "//".toList, "data:".toList,
      "javascript:".toList, "mailto:".toList, "tel:".toList, "#".toList, "about:".toList,
      "chrome://".toList, "file://".toList], q ∈ skipPrefixes := by decide
    exact this p hp
  have hskip := shouldSkipURL_of_prefix hr U p hmem hpre
  refine ⟨?_, fun h1 h2 order => ?_⟩
  · rw [rewriteAttribute_attrText hr a q1 q2 U hq1 hq2 hU, if_pos hskip]
  · unfold HTMLRewriter.RewriteHTML
    simp only [rewritePasses_attrText hr a q1 q2 U hq1 hq2 hU hskip order]
    split_ifs
    · right; exact injectBaseTag_no_tag hr _ h1 h2
    · left; rfl

/-- The skip rule at `href="http://x.com/a"` with the example rewriter. -/
theorem skipped_url_unchanged_witness :
    exampleRewriter.rewriteAttribute "href=\"http://x.com/a\"".toList Attr.href.pattern =
      "href=\"http://x.com/a\"".toList ∧
    (headPattern.MatchString "href=\"http://x.com/a\"".toList = false →
      htmlPattern.MatchString "href=\"http://x.com/a\"".toList = false →
      ∀ order : List Attr,
        exampleRewriter.RewriteHTML order "href=\"http://x.com/a\"".toList =
          "href=\"http://x.com/a\"".toList ∨
        exampleRewriter.RewriteHTML order "href=\"http://x.com/a\"".toList =
          exampleRewriter.baseTag ++ "\n".toList ++ "href=\"http://x.com/a\"".toList) :=
  skipped_url_unchanged exampleRewriter Attr.href (Char.ofNat 34) (Char.ofNat 34)
    "http://x.com/a".toList "http://".toList (by decide) (by decide) (by decide) (by decide)
    (by decide)

/-- C8. `RewriteHTML` with the proxy prefix `/proxy/10.0.0.5:80` on the document
`<p><a href="#<head>y">x</a></p>`: the URL `#<head>y` holds no quote and begins with `#`,
and `rewriteAttribute` leaves `href="#<head>y"` as it is; but `injectBaseTag` puts the
base tag behind the `<head>` inside the URL, so the URL does not occur in the output of
`RewriteHTML`, where the claim says it appears byte-identical. -/
theorem RewriteHTML_skipped_url_broken :
    (∀ c ∈ "#<head>y".toList, isQuote c = false) ∧
    "#".toList <+: ToLower (TrimSpace "#<head>y".toList) ∧
    exampleRewriter.rewriteAttribute "href=\"#<head>y\"".toList Attr.href.pattern =
      "href=\"#<head>y\"".toList ∧
    exampleRewriter.RewriteHTML stdOrder "<p><a href=\"#<head>y\">x</a></p>".toList =
      "<p><a href=\"#<head>\n    <base href=\"/proxy/10.0.0.5:80/\">y\">x</a></p>".toList ∧
    Contains (exampleRewriter.RewriteHTML stdOrder "<p><a href=\"#<head>y\">x</a></p>".toList)
      "#<head>y".toList = false ∧
    exampleRewriter.RewriteHTML stdOrder "href=\"#<head>y\"".toList =
      "href=\"#<head>\n    <base href=\"/proxy/10.0.0.5:80/\">y\"".toList := by
  decide

/-! ## The proxy prefix holds no dollar sign -/

theorem hexGroup_consumed (s : Str) (off acc : Nat) (r : Nat × Nat × Str)
    (h : hexGroup s off acc = some r) :
    ∃ xs, s = xs ++ r.2.2 ∧ ∀ c ∈ xs, c ≠ '$' := by
  induction s generalizing off acc with
  | nil =>
    simp only [hexGroup, Option.some.injEq] at h
    exact ⟨[], by rw [← h]; rfl, by simp⟩
  | cons c cs ih =>
    unfold hexGroup at h
    cases hv : hexVal c with
    | none =>
      rw [hv] at h
      simp only [Option.some.injEq] at h
      exact ⟨[], by rw [← h]; rfl, by simp⟩
    | some v =>
      rw [hv] at h
      dsimp only at h
      split_ifs at h
      obtain ⟨xs, hs, hall⟩ := ih _ _ h
      have hc : c ≠ '$' := by
        intro e; rw [e, show hexVal '$' = none from by decide] at hv; exact absurd hv (by simp)
      refine ⟨c :: xs, by rw [hs]; rfl, ?_⟩
      intro d hd
      rcases List.mem_cons.mp hd with rfl | hd
      · exact hc
      · exact hall d hd

theorem parseIPv4Fields_no_dollar (s : Str) (b : List Nat) (h : parseIPv4Fields s = some b) :
    ∀ c ∈ s, c ≠ '$' := by
  intro c hc
  rcases parseIPv4Loop_chars s none 0 0 [] b h c hc with hd | rfl
  · intro e; rw [e] at hd; exact absurd hd (by decide)
  · decide

theorem parseIPv6Loop_consumed (n : Nat) (s : Str) (ip : List Nat) (ell : Option Nat)
    (r : List Nat × Option Nat × Str) (h : parseIPv6Loop n s ip ell = some r) :
    ∃ xs, s = xs ++ r.2.2 ∧ ∀ c ∈ xs, c ≠ '$' := by
  induction n generalizing s ip ell with
  | zero =>
    simp only [parseIPv6Loop, Option.some.injEq] at h
    exact ⟨[], by rw [← h]; rfl, by simp⟩
  | succ n ih =>
    unfold parseIPv6Loop at h
    cases hg : hexGroup s 0 0 with
    | none => rw [hg] at h; simp at h
    | some g =>
      obtain ⟨off, acc, rest⟩ := g
      obtain ⟨hx, hs, hall⟩ := hexGroup_consumed s 0 0 _ hg
      simp only at hs
      rw [hg] at h
      dsimp only at h
      by_cases hoff : off = 0
      · simp [hoff] at h
      · rw [if_neg hoff] at h
        cases rest with
        | nil =>
          simp only [Option.some.injEq] at h
          refine ⟨hx, by rw [← h]; exact hs, hall⟩
        | cons c rest1 =>
          dsimp only at h
          by_cases hdot : c = '.'
          · rw [if_pos hdot] at h
            split_ifs at h
            cases hv4 : parseIPv4Fields s with
            | none => rw [hv4] at h; simp at h
            | some b =>
              rw [hv4] at h
              simp only [Option.some.injEq] at h
              exact ⟨s, by rw [← h]; simp, parseIPv4Fields_no_dollar s b hv4⟩
          · rw [if_neg hdot] at h
            by_cases hcol : c = ':'
            · rw [if_neg (by simpa using hcol)] at h
              subst hcol
              cases rest1 with
              | nil => simp at h
              | cons d rest2 =>
                dsimp only at h
                by_cases hd : d = ':'
                · rw [if_pos hd] at h
                  subst hd
                  split_ifs at h with h1 h2
                  · simp only [Option.some.injEq] at h
                    refine ⟨s, by rw [← h]; simp, ?_⟩
                    rw [hs, h2]
                    intro x hxm
                    rcases List.mem_append.mp hxm with hxm | hxm
                    · exact hall x hxm
                    · simp only [List.mem_cons, List.mem_singleton, List.not_mem_nil,
                        or_false, or_self] at hxm
                      rw [hxm]; decide
                  · obtain ⟨ys, hys, hyall⟩ := ih _ _ _ h
                    refine ⟨hx ++ ':' :: ':' :: ys, by rw [hs, hys]; simp, ?_⟩
                    intro x hxm
                    rcases List.mem_append.mp hxm with hxm | hxm
                    · exact hall x hxm
                    · rcases List.mem_cons.mp hxm with rfl | hxm
                      · decide
                      · rcases List.mem_cons.mp hxm with rfl | hxm
                        · decide
                        · exact hyall x hxm
                · rw [if_neg hd] at h
                  obtain ⟨ys, hys, hyall⟩ := ih _ _ _ h
                  refine ⟨hx ++ ':' :: ys, by rw [hs, hys]; simp, ?_⟩
                  intro x hxm
                  rcases List.mem_append.mp hxm with hxm | hxm
                  · exact hall x hxm
                  · rcases List.mem_cons.mp hxm with rfl | hxm
                    · decide
                    · exact hyall x hxm
            · rw [if_pos (by simpa using hcol)] at h
              simp at h

theorem parseIPv6Tail_no_dollar (s1 : Str) (e : Option Nat) (ip : List Nat)
    (h : parseIPv6Tail s1 e = some ip) : ∀ c ∈ s1, c ≠ '$' := by
  unfold parseIPv6Tail at h
  cases hl : parseIPv6Loop 8 s1 [] e with
  | none => rw [hl] at h; simp at h
  | some r =>
    rw [hl] at h
    obtain ⟨ip1, e1, rest⟩ := r
    dsimp only at h
    by_cases hrest : rest = []
    · obtain ⟨xs, hs, hall⟩ := parseIPv6Loop_consumed 8 s1 [] e _ hl
      simp only [hrest, List.append_nil] at hs
      rw [hs]; exact hall
    · simp [hrest] at h

theorem parseIPv6NoZone_no_dollar (s : Str) (ip : List Nat) (h : parseIPv6NoZone s = some ip) :
    ∀ c ∈ s, c ≠ '$' := by
  unfold parseIPv6NoZone at h
  by_cases hlead : [':', ':'].isPrefixOf s = true
  · rw [if_pos hlead] at h
    obtain ⟨t, rfl⟩ := List.isPrefixOf_iff_prefix.mp hlead
    simp only [List.cons_append, List.nil_append, List.drop_succ_cons, List.drop_zero] at h
    intro c hc
    rcases List.mem_cons.mp hc with rfl | hc
    · decide
    · rcases List.mem_cons.mp hc with rfl | hc
      · decide
      · by_cases ht : t = []
        · rw [ht] at hc; exact absurd hc (List.not_mem_nil c)
        · rw [if_neg ht] at h
          exact parseIPv6Tail_no_dollar t _ ip h c hc
  · rw [if_neg hlead] at h
    exact parseIPv6Tail_no_dollar s _ ip h

theorem ParseIP_no_dollar (s : Str) (ip : List Nat) (h : ParseIP s = some ip) :
    ∀ c ∈ s, c ≠ '$' := by
  unfold ParseIP at h
  cases ha : ParseAddr s with
  | none => rw [ha] at h; simp at h
  | some a =>
    rw [ha] at h
    dsimp only at h
    split_ifs at h with hz
    rcases parseAddrScan_cases s s a ha with ⟨b, hb, -⟩ | ⟨r, hr, rfl⟩
    · exact parseIPv4Fields_no_dollar s b hb
    · simp only [Addr.Zone, ne_eq, not_not] at hz
      unfold parseIPv6 at hr
      split_ifs at hr with hpc
      · cases hp : parseIPv6NoZone (List.takeWhile (fun c => c != '%') s) with
        | none => rw [hp] at hr; simp at hr
        | some ip6 =>
          rw [hp] at hr
          dsimp only at hr
          split_ifs at hr with hzone
          simp only [Option.map_some', Option.some.injEq] at hr
          rw [← hr] at hz
          exact absurd hz hzone
      · cases hp : parseIPv6NoZone s with
        | none => rw [hp] at hr; simp at hr
        | some ip6 => exact parseIPv6NoZone_no_dollar s ip6 hp

theorem toDigitsCore_isDigit (fuel n : Nat) (acc : List Char)
    (hacc : ∀ c ∈ acc, c.isDigit = true) :
    ∀ c ∈ Nat.toDigitsCore 10 fuel n acc, c.isDigit = true := by
  induction fuel generalizing n acc with
  | zero => simpa [Nat.toDigitsCore] using hacc
  | succ fuel ih =>
    have hd : (Nat.digitChar (n % 10)).isDigit = true := by
      have : n % 10 < 10 := Nat.mod_lt _ (by decide)
      generalize n % 10 = k at this
      interval_cases k <;> decide
    have hacc2 : ∀ c ∈ Nat.digitChar (n % 10) :: acc, c.isDigit = true := by
      intro c hc
      rcases List.mem_cons.mp hc with rfl | hc
      · exact hd
      · exact hacc c hc
    unfold Nat.toDigitsCore
    dsimp only
    split_ifs
    · exact hacc2
    · exact ih _ _ hacc2

theorem decimal_isDigit (n : Nat) : ∀ c ∈ decimal n, c.isDigit = true :=
  toDigitsCore_isDigit _ _ [] (by simp)

/-- Every proxy prefix `ProxyRequest` computes is free of the dollar sign, the one rune
with a meaning of its own in a replacement template. -/
theorem IsProxyPrefix.no_dollar (P : Str) (h : IsProxyPrefix P) : '$' ∉ P := by
  obtain ⟨fullPath, f, hf, rfl⟩ := h
  have hslash : ∃ rest, fullPath = '/' :: rest := by
    rcases HasPrefix_slash_cases fullPath with hno | hyes
    · rw [ProxyRequest_no_slash _ hno] at hf; exact absurd hf (by simp)
    · exact hyes
  obtain ⟨rest, rfl⟩ := hslash
  rw [ProxyRequest_slash] at hf
  cases hs : SplitHostPort (hostPortOf ('/' :: rest)) with
  | none => rw [hs] at hf; exact absurd hf (by simp)
  | some hp =>
    obtain ⟨host, portStr⟩ := hp
    rw [hs] at hf
    dsimp only at hf
    cases ha : Atoi portStr with
    | none => rw [ha] at hf; exact absurd hf (by simp)
    | some port =>
      rw [ha] at hf
      dsimp only at hf
      by_cases hr : port < 1 ∨ port > 65535
      · rw [if_pos hr] at hf; exact absurd hf (by simp)
      · rw [if_neg hr] at hf
        by_cases hpriv : isPrivateIP host = false
        · rw [if_pos hpriv] at hf; exact absurd hf (by simp)
        · rw [if_neg hpriv] at hf
          simp only [Dispatch.forward.injEq] at hf
          subst hf
          simp only [Bool.not_eq_false] at hpriv
          obtain ⟨ip, hip⟩ := isPrivateIP_ParseIP host hpriv
          have hhost := ParseIP_no_dollar host ip hip
          have hport : fmtInt port = decimal port.toNat := fmtInt_pos port (by omega)
          intro hmem
          simp only [Forward.proxyPrefix, hport] at hmem
          rcases List.mem_append.mp hmem with hmem | hmem
          · rcases List.mem_append.mp hmem with hmem | hmem
            · exact absurd hmem (by decide)
            · exact hhost _ hmem rfl
          · rcases List.mem_cons.mp hmem with hmem | hmem
            · exact absurd hmem (by decide)
            · exact absurd (decimal_isDigit _ _ hmem) (by decide)

/-! ## `injectBaseTag` -/

theorem expandTemplate_plain (matched : Str) (g : Option Str) (T : Str) (fuel : Nat)
    (hT : '$' ∉ T) (hfuel : T.length ≤ fuel) : expandTemplate matched g fuel T = T := by
  induction T generalizing fuel with
  | nil => cases fuel <;> rfl
  | cons c cs ih =>
    cases fuel with
    | zero => simp at hfuel
    | succ fuel =>
      have hc : c ≠ '$' := fun e => hT (by rw [e]; exact List.mem_cons_self _ _)
      simp only [expandTemplate, hc, if_false]
      rw [ih fuel (fun e => hT (List.mem_cons_of_mem _ e)) (by simpa using hfuel)]

/-- The templates of `injectBaseTag`: `$1` stands for the matched tag, the rest is text. -/
theorem expandTemplate_group1 (matched : Str) (g : Option Str) (T : Str) (fuel : Nat)
    (hT : '$' ∉ T) (hfuel : T.length + 2 ≤ fuel) :
    expandTemplate matched g (fuel + 1) ('$' :: '1' :: '\n' :: T) = g.getD [] ++ '\n' :: T := by
  obtain ⟨f2, rfl⟩ : ∃ f2, fuel = f2 + 1 := ⟨fuel - 1, by omega⟩
  have h1 : List.takeWhile isNameRune ('1' :: '\n' :: T) = ['1'] := by
    rw [List.takeWhile_cons, if_pos (by decide), List.takeWhile_cons, if_neg (by decide)]
  have h2 : List.dropWhile isNameRune ('1' :: '\n' :: T) = '\n' :: T := by
    rw [List.dropWhile_cons, if_pos (by decide), List.dropWhile_cons, if_neg (by decide)]
  have h3 : expandTemplate matched g f2 T = T :=
    expandTemplate_plain matched g T f2 hT (by omega)
  have h4 : ('1' : Char) ≠ '$' := by decide
  have h5 : ('1' : Char) ≠ (Char.ofNat 123) := by decide
  simp only [expandTemplate, if_true, h1, h2, h3, expandName]
  simp

theorem Regex.find_spec (re : Regex) (s : Str) (m : Match) (h : re.find s = some m) :
    s = m.before ++ (m.matched ++ m.after) ∧ re.Sem m.matched none m.group1 := by
  induction s generalizing m with
  | nil =>
    cases hma : re.matchAt [] with
    | none => simp [Regex.find, hma] at h
    | some r =>
      obtain ⟨rest, g⟩ := r
      simp only [Regex.find, hma, Option.some.injEq] at h
      obtain ⟨xs, hs, hsem⟩ := Regex.matchAt_sound re _ _ _ hma
      have hx : xs = [] := by
        have := congrArg List.length hs
        simp only [List.length_nil, List.length_append] at this
        exact List.length_eq_zero.mp (by omega)
      subst h
      rw [hx] at hsem
      exact ⟨rfl, hsem⟩
  | cons c cs ih =>
    cases hma : re.matchAt (c :: cs) with
    | some r =>
      obtain ⟨rest, g⟩ := r
      simp only [Regex.find, hma, Option.some.injEq] at h
      obtain ⟨xs, hs, hsem⟩ := Regex.matchAt_sound re _ _ _ hma
      have htake : (c :: cs).take ((c :: cs).length - rest.length) = xs := by
        rw [hs]; simp
      rw [htake] at h
      subst h
      exact ⟨hs, hsem⟩
    | none =>
      cases hf : re.find cs with
      | none => simp [Regex.find, hma, hf] at h
      | some m1 =>
        simp only [Regex.find, hma, hf, Option.some.injEq] at h
        subst h
        obtain ⟨e1, e2⟩ := ih m1 hf
        exact ⟨by simp only [List.cons_append]; rw [← e1], e2⟩

theorem Sem_group_seq_rune (p : Char → Bool) (r : Regex) (xs : Str) (cap cap1 : Option Str)
    (h : (Regex.group (.seq (.rune p) r)).Sem xs cap cap1) : xs ≠ [] ∧ cap1 = some xs := by
  obtain ⟨⟨mid, ys, zs, m1, rfl, ⟨⟨c, rfl, -⟩, -⟩, -⟩, rfl⟩ := h
  exact ⟨by simp, rfl⟩

theorem headPattern_match (s : Str) (m : Match) (h : headPattern.find s = some m) :
    m.matched ≠ [] ∧ m.group1 = some m.matched :=
  Sem_group_seq_rune _ _ _ _ _ (Regex.find_spec headPattern s m h).2

theorem htmlPattern_match (s : Str) (m : Match) (h : htmlPattern.find s = some m) :
    m.matched ≠ [] ∧ m.group1 = some m.matched :=
  Sem_group_seq_rune _ _ _ _ _ (Regex.find_spec htmlPattern s m h).2

/-- `ReplaceAllString` with a template `$1`, line feed, dollar-free text: the leftmost
match is followed by the text of the template, and the replacement goes on behind it;
it ends there when the pattern matches nowhere behind. -/
theorem Regex.ReplaceAllString_first (re : Regex) (s T : Str) (m : Match) (hT : '$' ∉ T)
    (h : re.find s = some m) (hne : m.matched ≠ []) (hg : m.group1 = some m.matched) :
    (m.before ++ (m.matched ++ '\n' :: T)) <+: re.ReplaceAllString s ('$' :: '1' :: '\n' :: T) ∧
    (re.MatchString m.after = false →
      re.ReplaceAllString s ('$' :: '1' :: '\n' :: T) = m.before ++ (m.matched ++ '\n' :: (T ++ m.after))) := by
  unfold Regex.ReplaceAllString
  obtain ⟨-, e⟩ := Regex.replaceAllAux_find re
    (fun mt g => expandTemplate mt g (('$' :: '1' :: '\n' :: T).length + 1) ('$' :: '1' :: '\n' :: T))
    s m false h hne
  rw [e]
  have hx : expandTemplate m.matched m.group1 (('$' :: '1' :: '\n' :: T).length + 1)
      ('$' :: '1' :: '\n' :: T) = m.matched ++ '\n' :: T := by
    rw [expandTemplate_group1 _ _ T _ hT (by simp), hg]
    rfl
  simp only [hx]
  constructor
  · refine ⟨re.replaceAllAux (fun mt g => expandTemplate mt g
      (('$' :: '1' :: '\n' :: T).length + 1) ('$' :: '1' :: '\n' :: T)) m.after 0 true, ?_⟩
    simp only [List.append_assoc]
  · intro hno
    have hnone : re.find m.after = none := by
      simpa [Regex.MatchString] using hno
    rw [Regex.replaceAllAux_none re _ m.after true (Regex.find_none re m.after hnone)]
    simp [List.append_assoc]

theorem baseTag_no_dollar (hr : HTMLRewriter) (h : '$' ∉ hr.proxyPrefix) (pre post : Str)
    (hpre : '$' ∉ pre) (hpost : '$' ∉ post) : '$' ∉ pre ++ hr.baseTag ++ post := by
  intro e
  simp only [HTMLRewriter.baseTag, List.mem_append] at e
  rcases e with (e | (e | e) | e) | e
  · exact hpre e
  · exact absurd e (by decide)
  · exact h e
  · exact absurd e (by decide)
  · exact hpost e

/-- `injectBaseTag` on a text with an opening head tag, for a prefix without dollar sign. -/
theorem injectBaseTag_head (hr : HTMLRewriter) (html : Str) (m : Match)
    (hP : '$' ∉ hr.proxyPrefix) (h : headPattern.find html = some m) :
    (m.before ++ (m.matched ++ ("\n    ".toList ++ hr.baseTag))) <+: hr.injectBaseTag html ∧
    (headPattern.MatchString m.after = false →
      hr.injectBaseTag html = m.before ++ (m.matched ++ ("\n    ".toList ++ hr.baseTag ++ m.after))) := by
  have hms : headPattern.MatchString html = true := by simp [Regex.MatchString, h]
  obtain ⟨hne, hg⟩ := headPattern_match html m h
  have hT : '$' ∉ "    ".toList ++ hr.baseTag ++ [] :=
    baseTag_no_dollar hr hP _ _ (by decide) (by decide)
  obtain ⟨h1, h2⟩ := Regex.ReplaceAllString_first headPattern html _ m hT h hne hg
  unfold HTMLRewriter.injectBaseTag
  rw [if_pos hms]
  constructor
  · simpa using h1
  · intro hno; simpa using h2 hno

/-- `injectBaseTag` on a text without head tag and with an opening html tag, for a prefix
without dollar sign. -/
theorem injectBaseTag_html (hr : HTMLRewriter) (html : Str) (m : Match)
    (hP : '$' ∉ hr.proxyPrefix) (hhead : headPattern.MatchString html = false)
    (h : htmlPattern.find html = some m) :
    (m.before ++ (m.matched ++ ("\n  <head>\n    ".toList ++ hr.baseTag ++ "\n  </head>".toList)))
      <+: hr.injectBaseTag html ∧
    (htmlPattern.MatchString m.after = false →
      hr.injectBaseTag html =
        m.before ++ (m.matched ++ ("\n  <head>\n    ".toList ++ hr.baseTag ++
          "\n  </head>".toList ++ m.after))) := by
  have hms : htmlPattern.MatchString html = true := by simp [Regex.MatchString, h]
  obtain ⟨hne, hg⟩ := htmlPattern_match html m h
  have hT : '$' ∉ "  <head>\n    ".toList ++ hr.baseTag ++ "\n  </head>".toList :=
    baseTag_no_dollar hr hP _ _ (by decide) (by decide)
  obtain ⟨h1, h2⟩ := Regex.ReplaceAllString_first htmlPattern html _ m hT h hne hg
  unfold HTMLRewriter.injectBaseTag
  rw [if_neg (by simp [hhead]), if_pos hms]
  constructor
  · simpa using h1
  · intro hno; simpa using h2 hno

/-! ## The opening tags the patterns of `injectBaseTag` match -/

theorem Regex.Sem_textFold (w : Str) (tail : Regex) (xs : Str) (cap cap1 : Option Str) :
    (Regex.textFold w tail).Sem xs cap cap1 ↔
      ∃ name zs, xs = name ++ zs ∧ List.Forall₂ (fun l x => foldRune l x = true) w name ∧
        tail.Sem zs cap cap1 := by
  induction w generalizing xs with
  | nil =>
    constructor
    · intro h; exact ⟨[], xs, rfl, List.Forall₂.nil, h⟩
    · rintro ⟨name, zs, rfl, hf, ht⟩
      cases hf
      exact ht
  | cons c cs ih =>
    have hunf : Regex.textFold (c :: cs) tail = .seq (.rune (foldRune c)) (Regex.textFold cs tail) := rfl
    rw [hunf]
    constructor
    · rintro ⟨ys, zs, mid, rfl, ⟨⟨d, rfl, hd⟩, rfl⟩, hb⟩
      obtain ⟨name, zs2, rfl, hf, ht⟩ := (ih zs).mp hb
      exact ⟨d :: name, zs2, rfl, List.Forall₂.cons hd hf, ht⟩
    · rintro ⟨name, zs, rfl, hf, ht⟩
      cases hf with
      | cons hd hf2 =>
        exact ⟨[_], _, cap, rfl, ⟨⟨_, rfl, hd⟩, rfl⟩, (ih _).mpr ⟨_, zs, rfl, hf2, ht⟩⟩

theorem foldRune_lowerRune (l x : Char) (hl : l ∈ "<headtml".toList)
    (h : foldRune l x = true) : lowerRune x = l := by
  have key : ∀ c ∈ "<headtml".toList,
      lowerRune c = c ∧ lowerRune c.toUpper = c ∧ c ≠ 'k' ∧ c ≠ 's' := by decide
  obtain ⟨k1, k2, k3, k4⟩ := key l hl
  simp only [foldRune, Bool.or_eq_true, Bool.and_eq_true, beq_iff_eq] at h
  rcases h with ((h | h) | ⟨h, -⟩) | ⟨h, -⟩
  · rw [h]; exact k1
  · rw [h]; exact k2
  · exact absurd h k3
  · exact absurd h k4

theorem Forall₂_foldRune_ToLower (w name : Str) (hw : ∀ c ∈ w, c ∈ "<headtml".toList)
    (h : List.Forall₂ (fun l x => foldRune l x = true) w name) : ToLower name = w := by
  induction h with
  | nil => rfl
  | cons hd _ ih =>
    simp only [ToLower, List.map_cons, List.cons.injEq]
    exact ⟨foldRune_lowerRune _ _ (hw _ (List.mem_cons_self _ _)) hd,
      ih (fun c hc => hw c (List.mem_cons_of_mem _ hc))⟩

/-- What `(?i)(<name[^>]*>)` matches: the name in any letter case, then runes other than
`>`, then `>`. -/
theorem Sem_tagPattern (w xs : Str) (cap cap1 : Option Str)
    (hw : ∀ c ∈ w, c ∈ "<headtml".toList)
    (h : (Regex.group (Regex.textFold w (.seq (.star (fun c => c != '>') true)
      (.rune (fun c => c == '>'))))).Sem xs cap cap1) :
    ∃ name attrs, xs = name ++ (attrs ++ ['>']) ∧ ToLower name = w ∧ '>' ∉ attrs := by
  obtain ⟨⟨mid, hsem⟩, -⟩ := h
  obtain ⟨name, zs, rfl, hf, ys, zs2, m2, rfl, ⟨hstar, -⟩, ⟨⟨c, rfl, hc⟩, -⟩⟩ :=
    (Regex.Sem_textFold _ _ _ _ _).mp hsem
  have hc2 : c = '>' := by simpa using hc
  refine ⟨name, ys, by rw [hc2], Forall₂_foldRune_ToLower w name hw hf, ?_⟩
  intro hmem
  have := hstar _ hmem
  simp at this

theorem headPattern_tag (s : Str) (m : Match) (h : headPattern.find s = some m) :
    ∃ name attrs, m.matched = name ++ (attrs ++ ['>']) ∧ ToLower name = "<head".toList ∧
      '>' ∉ attrs :=
  Sem_tagPattern "<head".toList _ _ _ (by decide) (Regex.find_spec headPattern s m h).2

theorem htmlPattern_tag (s : Str) (m : Match) (h : htmlPattern.find s = some m) :
    ∃ name attrs, m.matched = name ++ (attrs ++ ['>']) ∧ ToLower name = "<html".toList ∧
      '>' ∉ attrs :=
  Sem_tagPattern "<html".toList _ _ _ (by decide) (Regex.find_spec htmlPattern s m h).2

/-! ## `RewriteHTML` -/

/-- The five passes leave a text without quote as it is. -/
theorem rewritePasses_quote_free (hr : HTMLRewriter) (order : List Attr) (doc : Str)
    (hdoc : ∀ c ∈ doc, isQuote c = false) : hr.rewritePasses order doc = doc := by
  unfold HTMLRewriter.rewritePasses
  induction order with
  | nil => rfl
  | cons b bs ih =>
    have hb : b.pattern.ReplaceAllStringFunc doc (fun m => hr.rewriteAttribute m b.pattern) = doc := by
      unfold Regex.ReplaceAllStringFunc
      apply Regex.replaceAllAux_none
      intro t ht
      cases hm : b.pattern.matchAt t with
      | none => rfl
      | some r =>
        exfalso
        obtain ⟨rest, cap⟩ := r
        obtain ⟨xs, hs, hsem⟩ := Regex.matchAt_sound _ _ _ _ hm
        obtain ⟨x, body, y, rfl, hx, -, -, -⟩ := (Sem_quoted _ _ _ _).mp hsem
        obtain ⟨w, hw⟩ := ht
        have hxmem : x ∈ doc := by rw [← hw, hs]; simp
        rw [hdoc x hxmem] at hx
        exact absurd hx (by simp)
    rw [List.foldl_cons, hb]
    exact ih

theorem exampleRewriter_isProxyPrefix : IsProxyPrefix exampleRewriter.proxyPrefix :=
  ⟨"/10.0.0.5:80/".toList,
    ⟨"http://10.0.0.5:80/".toList, "10.0.0.5".toList, "80".toList, 80, "/".toList⟩,
    by decide, by decide⟩

/-- C9 (amended). For a proxy prefix `P`, any order of the five passes and any document,
let `D` be the document after the five attribute passes (the document itself when it
holds no quote). If `D` holds no `<base` in any letter case and the head pattern matches
in `D` exactly once, at `D = before ++ tag ++ after`, then `tag` is an opening head tag and
`RewriteHTML` returns `before ++ tag`, a line feed and four spaces, `<base href="P/">`,
and `after`. In particular `<html><head></head><body></body></html>` with the prefix
`/proxy/10.0.0.5:80` gains the base tag right inside `<head>`, in any order of the passes. -/
theorem RewriteHTML_head_base (hr : HTMLRewriter) (order : List Attr) (doc : Str) (m : Match)
    (hP : IsProxyPrefix hr.proxyPrefix)
    (hbase : Contains (ToLower (hr.rewritePasses order doc)) "<base".toList = false)
    (hfind : headPattern.find (hr.rewritePasses order doc) = some m)
    (hone : headPattern.MatchString m.after = false) :
    hr.rewritePasses order doc = m.before ++ (m.matched ++ m.after) ∧
    (∃ name attrs, m.matched = name ++ (attrs ++ ['>']) ∧ ToLower name = "<head".toList ∧
      '>' ∉ attrs) ∧
    hr.RewriteHTML order doc =
      m.before ++ (m.matched ++ ("\n    ".toList ++ hr.baseTag ++ m.after)) ∧
    ((∀ c ∈ doc, isQuote c = false) → hr.rewritePasses order doc = doc) ∧
    (∀ order1 : List Attr,
      exampleRewriter.RewriteHTML order1 "<html><head></head><body></body></html>".toList =
        "<html><head>\n    <base href=\"/proxy/10.0.0.5:80/\"></head><body></body></html>".toList) := by
  refine ⟨(Regex.find_spec _ _ _ hfind).1, headPattern_tag _ _ hfind, ?_,
    rewritePasses_quote_free hr order doc, ?_⟩
  · unfold HTMLRewriter.RewriteHTML
    simp only [hbase, if_true]
    exact (injectBaseTag_head hr _ m (IsProxyPrefix.no_dollar _ hP) hfind).2 hone
  · intro order1
    have hq : ∀ c ∈ "<html><head></head><body></body></html>".toList, isQuote c = false := by
      decide
    unfold HTMLRewriter.RewriteHTML
    rw [rewritePasses_quote_free exampleRewriter order1 _ hq]
    decide

/-- Witness for C9 (amended): the example document with the example rewriter. -/
theorem RewriteHTML_head_base_witness :
    exampleRewriter.RewriteHTML stdOrder "<html><head></head><body></body></html>".toList =
      "<html><head>\n    <base href=\"/proxy/10.0.0.5:80/\"></head><body></body></html>".toList :=
  (RewriteHTML_head_base exampleRewriter stdOrder
    "<html><head></head><body></body></html>".toList
    ⟨"<html>".toList, "<head>".toList, some "<head>".toList, "</head><body></body></html>".toList⟩
    exampleRewriter_isProxyPrefix (by decide) (by decide) (by decide)).2.2.1

/-- Counterexample to C9 as stated: the document `<head></head><img src="a.png">` holds no
`<base` and one opening head tag, but `RewriteHTML` does not leave the rest of it
unchanged: the URL of the `src` attribute gets the proxy prefix, so the output does not
end with the text that followed the head tag. -/
theorem RewriteHTML_head_base_counterexample :
    Contains (ToLower "<head></head><img src=\"a.png\">".toList) "<base".toList = false ∧
    headPattern.find "<head></head><img src=\"a.png\">".toList =
      some ⟨[], "<head>".toList, some "<head>".toList, "</head><img src=\"a.png\">".toList⟩ ∧
    exampleRewriter.RewriteHTML stdOrder "<head></head><img src=\"a.png\">".toList =
      "<head>\n    <base href=\"/proxy/10.0.0.5:80/\"></head><img src=\"/proxy/10.0.0.5:80/a.png\">".toList ∧
    "</head><img src=\"a.png\">".toList.isSuffixOf
      (exampleRewriter.RewriteHTML stdOrder "<head></head><img src=\"a.png\">".toList) = false := by
  decide

/-- The injection without head tag, at the first html tag. For a proxy prefix `P` and a
document without opening head tag: the text up to the end of the first `<html...>` tag,
followed by a line feed, `<head>`, the base tag and `</head>`, begins the result of
`injectBaseTag`, and the result is the document with this injection when no further html
tag follows; and a document without html tag either gets the base tag and a line feed put
in front. -/
theorem injectBaseTag_without_head (hr : HTMLRewriter) (html : Str)
    (hP : IsProxyPrefix hr.proxyPrefix) (hhead : headPattern.MatchString html = false) :
    (∀ m, htmlPattern.find html = some m →
      html = m.before ++ (m.matched ++ m.after) ∧
      (∃ name attrs, m.matched = name ++ (attrs ++ ['>']) ∧ ToLower name = "<html".toList ∧
        '>' ∉ attrs) ∧
      (m.before ++ (m.matched ++
          ("\n  <head>\n    ".toList ++ hr.baseTag ++ "\n  </head>".toList)))
        <+: hr.injectBaseTag html ∧
      (htmlPattern.MatchString m.after = false →
        hr.injectBaseTag html =
          m.before ++ (m.matched ++ ("\n  <head>\n    ".toList ++ hr.baseTag ++
            "\n  </head>".toList ++ m.after)))) ∧
    (htmlPattern.MatchString html = false →
      hr.injectBaseTag html = hr.baseTag ++ "\n".toList ++ html) := by
  refine ⟨fun m hm => ?_, fun hno => injectBaseTag_no_tag hr html hhead hno⟩
  obtain ⟨h1, h2⟩ := injectBaseTag_html hr html m (IsProxyPrefix.no_dollar _ hP) hhead hm
  exact ⟨(Regex.find_spec _ _ _ hm).1, htmlPattern_tag _ _ hm, h1, h2⟩

/-- The injection at a document with an html tag and no head tag, and at one with
neither. -/
theorem injectBaseTag_without_head_witness :
    exampleRewriter.injectBaseTag "<!doctype html><HTML lang=en><body></body>".toList =
      "<!doctype html><HTML lang=en>\n  <head>\n    <base href=\"/proxy/10.0.0.5:80/\">\n  </head><body></body>".toList ∧
    exampleRewriter.injectBaseTag "<p>hello</p>".toList =
      "<base href=\"/proxy/10.0.0.5:80/\">\n<p>hello</p>".toList :=
  ⟨((injectBaseTag_without_head exampleRewriter "<!doctype html><HTML lang=en><body></body>".toList
      exampleRewriter_isProxyPrefix (by decide)).1
      ⟨"<!doctype html>".toList, "<HTML lang=en>".toList, some "<HTML lang=en>".toList,
        "<body></body>".toList⟩ (by decide)).2.2.2 (by decide),
   (injectBaseTag_without_head exampleRewriter "<p>hello</p>".toList
      exampleRewriter_isProxyPrefix (by decide)).2 (by decide)⟩

/-! ## One pass of the rewriting, match by match -/

/-- A match of the pattern of an attribute is the text of an attribute: the name part, a
quote, a value without quotes, a quote and the closing part; group 1 is the value. -/
theorem Attr.matchAt_shape (a : Attr) (t rest : Str) (cap : Option Str)
    (h : a.pattern.matchAt t = some (rest, cap)) :
    ∃ q1 q2 U, isQuote q1 = true ∧ isQuote q2 = true ∧ (∀ c ∈ U, isQuote c = false) ∧
      t = attrText a q1 q2 U ++ rest ∧ cap = some U := by
  obtain ⟨xs, hs, hsem⟩ := Regex.matchAt_sound _ _ _ _ h
  obtain ⟨q1, U, q2, rfl, h1, h2, hU, rfl⟩ := (Sem_quoted _ _ _ _).mp hsem
  exact ⟨q1, q2, U, h1, h2, hU, hs, rfl⟩

/-- The pattern of an attribute matches no empty text. -/
theorem Attr.matchAt_nonempty (a : Attr) (t : Str) (r : Str × Option Str)
    (h : a.pattern.matchAt t = some r) : t.length - r.1.length ≠ 0 := by
  obtain ⟨rest, cap⟩ := r
  obtain ⟨q1, q2, U, -, -, -, ht, -⟩ := Attr.matchAt_shape a t rest cap h
  rw [ht]
  simp only [attrText, List.length_append, List.length_cons]
  omega

/-- For a pattern that matches no empty text, the replacement of all matches does not
depend on whether a match ended just before the text. -/
theorem Regex.replaceAllAux_flag (re : Regex) (repl : Str → Option Str → Str) (s : Str)
    (hne : ∀ t r, re.matchAt t = some r → t.length - r.1.length ≠ 0) :
    re.replaceAllAux repl s 0 true = re.replaceAllAux repl s 0 false := by
  cases s with
  | nil =>
    cases hm : re.matchAt [] with
    | none => simp [Regex.replaceAllAux, hm]
    | some r => exact absurd (by simp) (hne [] r hm)
  | cons c cs =>
    cases hm : re.matchAt (c :: cs) with
    | none => simp [Regex.replaceAllAux, hm]
    | some r =>
      have := hne _ r hm
      simp only [Regex.replaceAllAux, hm, this, if_false]

/-- One pass over a document with a match: the text before the first match is kept, the
match is replaced by `rewriteAttribute` of the match, and the pass goes on with the text
after the match. -/
theorem rewritePass_find (hr : HTMLRewriter) (a : Attr) (doc : Str) (m : Match)
    (h : a.pattern.find doc = some m) :
    m.matched ≠ [] ∧
    hr.rewritePass a doc =
      m.before ++ (hr.rewriteAttribute m.matched a.pattern ++ hr.rewritePass a m.after) := by
  obtain ⟨hdoc, hsem⟩ := Regex.find_spec _ _ _ h
  obtain ⟨q1, U, q2, hm, -, -, -, -⟩ := (Sem_quoted _ _ _ _).mp hsem
  have hne : m.matched ≠ [] := by rw [hm]; simp
  refine ⟨hne, ?_⟩
  unfold HTMLRewriter.rewritePass Regex.ReplaceAllStringFunc
  rw [(Regex.replaceAllAux_find a.pattern _ doc m false h hne).2,
    Regex.replaceAllAux_flag a.pattern _ m.after (Attr.matchAt_nonempty a)]

/-- The first match of the pattern of an attribute is the text of an attribute. -/
theorem find_shape (a : Attr) (doc : Str) (m : Match) (h : a.pattern.find doc = some m) :
    ∃ q1 q2 U, isQuote q1 = true ∧ isQuote q2 = true ∧ (∀ c ∈ U, isQuote c = false) ∧
      m.matched = attrText a q1 q2 U := by
  obtain ⟨-, hsem⟩ := Regex.find_spec _ _ _ h
  obtain ⟨q1, U, q2, hm, h1, h2, hU, -⟩ := (Sem_quoted _ _ _ _).mp hsem
  exact ⟨q1, q2, U, h1, h2, hU, hm⟩

/-- One pass over a document without a match of its pattern returns the document. -/
theorem rewritePass_no_match (hr : HTMLRewriter) (a : Attr) (doc : Str)
    (h : a.pattern.MatchString doc = false) : hr.rewritePass a doc = doc :=
  Regex.replaceAllAux_none _ _ _ _ (Regex.find_none _ _ (by simpa [Regex.MatchString] using h))

/-- The passes of `RewriteHTML` are the single passes, one after the other. -/
theorem rewritePasses_eq_foldl (hr : HTMLRewriter) (order : List Attr) (doc : Str) :
    hr.rewritePasses order doc = order.foldl (fun h a => hr.rewritePass a h) doc := rfl

/-- The passes return a document in which no pattern matches. -/
theorem rewritePasses_no_match (hr : HTMLRewriter) (order : List Attr) (doc : Str)
    (h : ∀ a : Attr, a.pattern.MatchString doc = false) : hr.rewritePasses order doc = doc := by
  rw [rewritePasses_eq_foldl]
  induction order with
  | nil => rfl
  | cons b bs ih => rw [List.foldl_cons, rewritePass_no_match hr b doc (h b)]; exact ih

/-- C11. For every document in which none of the five patterns (href, src, action,
content, url) matches, in whatever order the patterns are tried: if the document contains
the text "<base" in any letter case, `RewriteHTML` returns the document unchanged;
otherwise it returns exactly `injectBaseTag` of the document. -/
theorem RewriteHTML_no_match (hr : HTMLRewriter) (order : List Attr) (doc : Str)
    (h : ∀ a : Attr, a.pattern.MatchString doc = false) :
    (Contains (ToLower doc) "<base".toList = true → hr.RewriteHTML order doc = doc) ∧
    (Contains (ToLower doc) "<base".toList = false →
      hr.RewriteHTML order doc = hr.injectBaseTag doc) := by
  unfold HTMLRewriter.RewriteHTML
  simp only [rewritePasses_no_match hr order doc h]
  constructor
  · intro hb; rw [if_neg (by rw [hb]; exact Bool.noConfusion)]
  · intro hb; rw [if_pos hb]

/-- Witness for C11: a document with a BASE tag in upper case and no attribute to rewrite
is returned as it is; one without a base tag gets exactly the injected base tag. -/
theorem RewriteHTML_no_match_witness :
    exampleRewriter.RewriteHTML stdOrder "<p>Base<BASE target=x></p>".toList =
      "<p>Base<BASE target=x></p>".toList ∧
    exampleRewriter.RewriteHTML stdOrder "<head></head><p>hello</p>".toList =
      exampleRewriter.injectBaseTag "<head></head><p>hello</p>".toList ∧
    exampleRewriter.RewriteHTML stdOrder "<head></head><p>hello</p>".toList =
      "<head>\n    <base href=\"/proxy/10.0.0.5:80/\"></head><p>hello</p>".toList :=
  ⟨(RewriteHTML_no_match exampleRewriter stdOrder "<p>Base<BASE target=x></p>".toList
      (by intro a; cases a <;> decide)).1 (by decide),
   (RewriteHTML_no_match exampleRewriter stdOrder "<head></head><p>hello</p>".toList
      (by intro a; cases a <;> decide)).2 (by decide),
   by decide⟩

/-- One pass, match by match. In a document with a match of the pattern of an attribute,
the pass of that pattern keeps the text before the first match, replaces the match by
`rewriteAttribute` of that match alone and goes on in the same way with the text after the
match, which it returns unchanged when it holds no further match. The match is the text of
one attribute with a quoted value `U`, and its replacement depends on that value only: when
the trimmed value is skipped the match stays as it is, otherwise the first occurrence of
the trimmed value in the match is replaced by the proxy prefix followed by the value, with
a slash in between when the value does not start with one. -/
theorem rewritePass_each_match (hr : HTMLRewriter) (a : Attr) (doc : Str) (m : Match)
    (h : a.pattern.find doc = some m) :
    doc = m.before ++ (m.matched ++ m.after) ∧
    hr.rewritePass a doc =
      m.before ++ (hr.rewriteAttribute m.matched a.pattern ++ hr.rewritePass a m.after) ∧
    (a.pattern.MatchString m.after = false → hr.rewritePass a m.after = m.after) ∧
    (∃ q1 q2 U, isQuote q1 = true ∧ isQuote q2 = true ∧ (∀ c ∈ U, isQuote c = false) ∧
      m.matched = attrText a q1 q2 U ∧
      (hr.shouldSkipURL (TrimSpace U) = true →
        hr.rewriteAttribute m.matched a.pattern = m.matched) ∧
      (hr.shouldSkipURL (TrimSpace U) = false →
        hr.rewriteAttribute m.matched a.pattern =
          replaceFirst (TrimSpace U) (hr.proxyPrefix ++
            (if HasPrefix (TrimSpace U) ['/'] then TrimSpace U else '/' :: TrimSpace U))
            m.matched)) := by
  refine ⟨(Regex.find_spec _ _ _ h).1, (rewritePass_find hr a doc m h).2,
    rewritePass_no_match hr a m.after, ?_⟩
  obtain ⟨q1, q2, U, h1, h2, hU, hm⟩ := find_shape a doc m h
  refine ⟨q1, q2, U, h1, h2, hU, hm, ?_, ?_⟩
  · intro hs
    rw [hm, rewriteAttribute_attrText hr a q1 q2 U h1 h2 hU, if_pos hs]
  · intro hs
    rw [hm, rewriteAttribute_attrText hr a q1 q2 U h1 h2 hU, if_neg (by simp [hs])]
    unfold HTMLRewriter.rewriteURL
    split_ifs <;> rfl

/-- One pass over an absolute link followed by a root-relative one: the first stays
byte-identical, the second gains the proxy prefix, the text in between is kept. -/
theorem rewritePass_each_match_witness :
    exampleRewriter.rewritePass .href "<a href=\"http://x.com/\"><a href=\"/y\">".toList =
      "<a href=\"http://x.com/\"><a href=\"/proxy/10.0.0.5:80/y\">".toList :=
  (rewritePass_each_match exampleRewriter .href "<a href=\"http://x.com/\"><a href=\"/y\">".toList
    ⟨"<a ".toList, "href=\"http://x.com/\"".toList, some "http://x.com/".toList,
      "><a href=\"/y\">".toList⟩ (by decide)).2.1.trans (by decide)

/-- C12. The href pass with the proxy prefix `/proxy/10.0.0.5:80` on the document
`<a href="f"><a href="/y">`, two matches of the href pattern: the second, root-relative
link gains the proxy prefix, but the first, relative link does not. `rewriteAttribute`
replaces the first `f` of the match `href="f"`, the one of the attribute name, and the
pass returns `<a hre/proxy/10.0.0.5:80/f="f">` for it, where the claim says the relative
ones gain the proxy prefix. -/
theorem rewritePass_relative_corrupted :
    exampleRewriter.shouldSkipURL "f".toList = false ∧
    exampleRewriter.rewriteAttribute "href=\"f\"".toList Attr.href.pattern =
      "hre/proxy/10.0.0.5:80/f=\"f\"".toList ∧
    exampleRewriter.rewritePass .href "<a href=\"f\"><a href=\"/y\">".toList =
      "<a hre/proxy/10.0.0.5:80/f=\"f\"><a href=\"/proxy/10.0.0.5:80/y\">".toList ∧
    exampleRewriter.RewriteHTML stdOrder "<a href=\"f\"><a href=\"/y\">".toList =
      "<base href=\"/proxy/10.0.0.5:80/\">\n<a hre/proxy/10.0.0.5:80/f=\"f\"><a href=\"/proxy/10.0.0.5:80/y\">".toList ∧
    Contains (exampleRewriter.rewritePass .href "<a href=\"f\"><a href=\"/y\">".toList)
      "href=\"/proxy/10.0.0.5:80/f\"".toList = false := by
  decide

/-! ## The response modifier -/

/-- The values of a header after `Set`. -/
theorem Header.Get_Set (h : Header) (key value k : Str) :
    (h.Set key value).values k = if k = key then [value] else h.values k := rfl

/-- The `%d` text of a number that is not negative is its decimal text. -/
theorem fmtInt_natCast (n : Nat) : fmtInt (n : Int) = decimal n := by
  have : ¬ ((n : Int) < 0) := by omega
  simp [fmtInt, this]

/-- C13. For every origin response: if its Content-Type header contains "text/html"
in any letter case and its body can be read, the response modifier of a forwarded request
returns the response with the body replaced by `RewriteHTML` of the body (with the proxy
prefix of the request), the Content-Length header set to the decimal byte length of the
rewritten body (as is the length field), the header X-Proxy-Modified set to "true", the
status code unchanged and the values of every other header unchanged; otherwise it returns
the response as it is. -/
theorem ModifyResponse_spec (f : Forward) (order : List Attr) (resp : Response) :
    (Contains (ToLower (resp.Header.Get "Content-Type".toList)) "text/html".toList = true →
      ∀ body, resp.Body = .content body →
      ∃ r, ModifyResponse f order resp = .ok r ∧
        r.Body = .content ((NewHTMLRewriter f.proxyPrefix f.host).RewriteHTML order body) ∧
        r.Header.Get "Content-Length".toList =
          decimal (byteLen ((NewHTMLRewriter f.proxyPrefix f.host).RewriteHTML order body)) ∧
        r.ContentLength =
          (byteLen ((NewHTMLRewriter f.proxyPrefix f.host).RewriteHTML order body) : Int) ∧
        r.Header.Get "X-Proxy-Modified".toList = "true".toList ∧
        r.StatusCode = resp.StatusCode ∧
        ∀ k, k ≠ "Content-Length".toList → k ≠ "X-Proxy-Modified".toList →
          r.Header.values k = resp.Header.values k) ∧
    (Contains (ToLower (resp.Header.Get "Content-Type".toList)) "text/html".toList = false →
      ModifyResponse f order resp = .ok resp) := by
  constructor
  · intro hct body hbody
    have hhtml : isHTMLResponse resp = true := hct
    refine ⟨{ resp with
        Body := .content ((NewHTMLRewriter f.proxyPrefix f.host).RewriteHTML order body)
        ContentLength :=
          (byteLen ((NewHTMLRewriter f.proxyPrefix f.host).RewriteHTML order body) : Int)
        Header := (resp.Header.Set "Content-Length".toList (fmtInt
          (byteLen ((NewHTMLRewriter f.proxyPrefix f.host).RewriteHTML order body)))).Set
            "X-Proxy-Modified".toList "true".toList },
      by unfold ModifyResponse; rw [if_pos hhtml, hbody], rfl, ?_, rfl, ?_, rfl, ?_⟩
    · simp only [Header.Get, Header.Get_Set]
      rw [if_pos trivial, fmtInt_natCast]; rfl
    · simp only [Header.Get, Header.Get_Set]
      rw [if_pos trivial]; rfl
    · intro k h1 h2
      simp only [Header.Get_Set]
      rw [if_neg h2, if_neg h1]
  · intro hct
    have hhtml : ¬ (isHTMLResponse resp = true) := by
      unfold isHTMLResponse; rw [hct]; exact Bool.noConfusion
    unfold ModifyResponse
    rw [if_neg hhtml]


/-- Witness for C13: a 404 response of content type `Text/HTML; charset=utf-8`; the body
gets the base tag, the content length becomes 60, the marker is set, the status and the
cookies stay. -/
theorem ModifyResponse_spec_witness :
    ∃ r, ModifyResponse exampleForward stdOrder exampleResponse = .ok r ∧
      r.Body = .content "<head>\n    <base href=\"/proxy/10.0.0.5:80/\"></head><p>é</p>".toList ∧
      r.Header.Get "Content-Length".toList = "60".toList ∧
      r.Header.Get "X-Proxy-Modified".toList = "true".toList ∧
      r.StatusCode = 404 ∧
      r.Header.values "Set-Cookie".toList = ["a=1".toList, "b=2".toList] := by
  obtain ⟨r, h1, h2, h3, -, h5, h6, h7⟩ :=
    (ModifyResponse_spec exampleForward stdOrder exampleResponse).1 (by decide) _ rfl
  refine ⟨r, h1, h2.trans (congrArg Body.content (by decide)), h3.trans (by decide), h5, h6, ?_⟩
  exact (h7 _ (by decide) (by decide)).trans (by decide)

/-! ## The request log -/

/-- What `ProxyRequest` has checked and built when it forwards a request. -/
theorem ProxyRequest_forward_inv (fullPath : Str) (f : Forward)
    (h : ProxyRequest fullPath = .forward f) :
    ∃ rest, fullPath = '/' :: rest ∧
      SplitHostPort (hostPortOf fullPath) = some (f.host, f.portStr) ∧
      Atoi f.portStr = some f.port ∧ 1 ≤ f.port ∧ f.port ≤ 65535 ∧
      isPrivateIP f.host = true ∧
      f.targetPath = (if (SplitN2 rest '/').length > 1
        then '/' :: ((SplitN2 rest '/').drop 1).headD [] else ['/']) ∧
      f.target = "http://".toList ++ f.host ++ ':' :: (fmtInt f.port ++ f.targetPath) := by
  have hslash : ∃ rest, fullPath = '/' :: rest := by
    rcases HasPrefix_slash_cases fullPath with hno | hyes
    · rw [ProxyRequest_no_slash _ hno] at h; exact absurd h (by simp)
    · exact hyes
  obtain ⟨rest, rfl⟩ := hslash
  refine ⟨rest, rfl, ?_⟩
  rw [ProxyRequest_slash] at h
  cases hs : SplitHostPort (hostPortOf ('/' :: rest)) with
  | none => rw [hs] at h; exact absurd h (by simp)
  | some hp =>
    obtain ⟨host, portStr⟩ := hp
    rw [hs] at h
    dsimp only at h
    cases ha : Atoi portStr with
    | none => rw [ha] at h; exact absurd h (by simp)
    | some port =>
      rw [ha] at h
      dsimp only at h
      by_cases hr : port < 1 ∨ port > 65535
      · rw [if_pos hr] at h; exact absurd h (by simp)
      · rw [if_neg hr] at h
        by_cases hpriv : isPrivateIP host = false
        · rw [if_pos hpriv] at h; exact absurd h (by simp)
        · rw [if_neg hpriv] at h
          simp only [Dispatch.forward.injEq] at h
          subst h
          simp only [Bool.not_eq_false] at hpriv
          exact ⟨rfl, ha, by show 1 ≤ port; omega, by show port ≤ 65535; omega, hpriv, rfl, rfl⟩

/-- A rejected request is answered without a log entry. -/
theorem Handler.ProxyRequest_reject (c : Context) (sv : Served) (st : Nat) (msg : String)
    (h : Proxino.ProxyRequest c.path = .reject st msg) :
    (Handler.ProxyRequest c sv).logged = [] := by
  unfold Handler.ProxyRequest; rw [h]

/-- A forwarded request whose target `url.Parse` reads and for which `proxy.ServeHTTP`
returns hands one entry to the log store. -/
theorem Handler.ProxyRequest_forward (c : Context) (sv : Served) (f : Forward) (st : Int)
    (h : Proxino.ProxyRequest c.path = .forward f) (hparse : f.urlParseOk = true)
    (hserve : sv.serve = .returned st) :
    (Handler.ProxyRequest c sv).logged =
      [logRequest c sv.now f.host f.portStr f.targetPath
        (if st = 0 then 200 else st) sv.elapsed []] := by
  unfold Handler.ProxyRequest
  rw [h]
  dsimp only
  rw [if_neg (by rw [hparse]; exact Bool.noConfusion), hserve]

/-- A forwarded request whose target `url.Parse` does not read, or for which
`proxy.ServeHTTP` panics, does not reach the line that logs it. -/
theorem Handler.ProxyRequest_panic (c : Context) (sv : Served) (f : Forward)
    (h : Proxino.ProxyRequest c.path = .forward f)
    (hp : f.urlParseOk = false ∨ sv.serve = .panicked) :
    (Handler.ProxyRequest c sv).panicked = true ∧ (Handler.ProxyRequest c sv).logged = [] := by
  unfold Handler.ProxyRequest
  rw [h]
  dsimp only
  by_cases hparse : f.urlParseOk = false
  · rw [if_pos hparse]; exact ⟨rfl, rfl⟩
  · rw [if_neg hparse]
    rcases hp with hp | hp
    · exact absurd hp hparse
    · rw [hp]; exact ⟨rfl, rfl⟩

/-- The sub-path `a%zz` gives a target that `url.Parse` does not read: the handler panics
in the `Director` and logs nothing. -/
theorem Handler.ProxyRequest_bad_escape :
    (Handler.ProxyRequest ⟨"/10.0.0.5:80/a%zz".toList, "203.0.113.9".toList, "GET".toList⟩
      ⟨.returned 200, 1500000, 0⟩).panicked = true ∧
    (Handler.ProxyRequest ⟨"/10.0.0.5:80/a%zz".toList, "203.0.113.9".toList, "GET".toList⟩
      ⟨.returned 200, 1500000, 0⟩).logged = [] := by
  decide

/-- The whole milliseconds of a duration that is not negative. -/
theorem Milliseconds_bounds (n : Nat) :
    0 ≤ Milliseconds (n : Int) ∧ Milliseconds (n : Int) * 1000000 ≤ (n : Int) ∧
      (n : Int) < (Milliseconds (n : Int) + 1) * 1000000 := by
  have h : Milliseconds (n : Int) = ((n / 1000000 : Nat) : Int) := by
    unfold Milliseconds
    rw [Int.tdiv_eq_ediv (Int.natCast_nonneg n) (by decide)]
    norm_cast
  rw [h]
  refine ⟨Int.natCast_nonneg _, ?_, ?_⟩ <;> norm_cast <;> omega

/-- C14. The handler at a request it rejects with 403 (public address `8.8.8.8`), at one
it rejects with 400 for the host and port (`bad-host-format`) and at one it rejects with
400 for the port (`99999`): in each case no entry is handed to the log store, where the
claim says one is; the forwarded request `/proxy/10.0.0.5:80/` hands over one. -/
theorem ProxyRequest_rejected_not_logged :
    (Handler.ProxyRequest ⟨"/8.8.8.8:80/".toList, "203.0.113.9".toList, "GET".toList⟩
      ⟨.returned 403, 1500000, 0⟩).outcome.status? = some 403 ∧
    (Handler.ProxyRequest ⟨"/8.8.8.8:80/".toList, "203.0.113.9".toList, "GET".toList⟩
      ⟨.returned 403, 1500000, 0⟩).logged = [] ∧
    (Handler.ProxyRequest ⟨"/bad-host-format".toList, "203.0.113.9".toList, "GET".toList⟩
      ⟨.returned 400, 1500000, 0⟩).outcome.status? = some 400 ∧
    (Handler.ProxyRequest ⟨"/bad-host-format".toList, "203.0.113.9".toList, "GET".toList⟩
      ⟨.returned 400, 1500000, 0⟩).logged = [] ∧
    (Handler.ProxyRequest ⟨"/10.0.0.5:99999/".toList, "203.0.113.9".toList, "GET".toList⟩
      ⟨.returned 400, 1500000, 0⟩).outcome.status? = some 400 ∧
    (Handler.ProxyRequest ⟨"/10.0.0.5:99999/".toList, "203.0.113.9".toList, "GET".toList⟩
      ⟨.returned 400, 1500000, 0⟩).logged = [] ∧
    (Handler.ProxyRequest ⟨"/10.0.0.5:80/".toList, "203.0.113.9".toList, "GET".toList⟩
      ⟨.returned 200, 1500000, 0⟩).logged.length = 1 := by
  decide

/-- C15 (amended). For every request that `ProxyRequest` forwards, whose target
`url.Parse` reads and for which `proxy.ServeHTTP` returns: the target is
`http://host:port` followed by the sub-path, and the handler hands exactly one entry to
the log store. Its target host is the host; its target port is the port text as the path
has it, which `strconv.Atoi` reads as the port; its path is the sub-path; its duration is
the whole milliseconds of the time elapsed and is not negative; its status code is the
status of the response writer, or 200 when that status is 0. -/
theorem ProxyRequest_log_record (c : Context) (sv : Served) (f : Forward) (st : Int)
    (h : Proxino.ProxyRequest c.path = .forward f) (hparse : f.urlParseOk = true)
    (hserve : sv.serve = .returned st) :
    f.target = "http://".toList ++ f.host ++ ':' :: (fmtInt f.port ++ f.targetPath) ∧
    ∃ e, (Handler.ProxyRequest c sv).logged = [e] ∧
      e.TargetHost = f.host ∧
      e.TargetPort = f.portStr ∧ Atoi e.TargetPort = some f.port ∧
      SplitHostPort (hostPortOf c.path) = some (e.TargetHost, e.TargetPort) ∧
      e.Path = f.targetPath ∧
      (0 ≤ e.Duration ∧ e.Duration * 1000000 ≤ (sv.elapsed : Int) ∧
        (sv.elapsed : Int) < (e.Duration + 1) * 1000000) ∧
      e.StatusCode = (if st = 0 then 200 else st) ∧
      e.SourceIP = c.ClientIP ∧ e.Method = c.Method ∧ e.Error = [] := by
  obtain ⟨rest, -, hsplit, hatoi, -, -, -, -, htarget⟩ := ProxyRequest_forward_inv _ _ h
  exact ⟨htarget, _, Handler.ProxyRequest_forward c sv f st h hparse hserve, rfl, rfl, hatoi,
    hsplit, rfl, Milliseconds_bounds sv.elapsed, rfl, rfl, rfl, rfl⟩

/-- Witness for C15: `/proxy/192.168.1.10:8000/dashboard` with the writer status unset and
2.5 milliseconds elapsed is logged with host `192.168.1.10`, port `8000`, path
`/dashboard`, status 200 and a duration of 2 milliseconds. -/
theorem ProxyRequest_log_record_witness :
    ∃ e, (Handler.ProxyRequest ⟨"/192.168.1.10:8000/dashboard".toList, "203.0.113.9".toList,
        "GET".toList⟩ ⟨.returned 0, 2500000, 1700000000⟩).logged = [e] ∧
      e.TargetHost = "192.168.1.10".toList ∧ e.TargetPort = "8000".toList ∧
      e.Path = "/dashboard".toList ∧ e.Duration = 2 ∧ e.StatusCode = 200 := by
  obtain ⟨e, he, h1, h2, -, -, h5, ⟨h6, h7, h8⟩, h9, -⟩ := (ProxyRequest_log_record
    ⟨"/192.168.1.10:8000/dashboard".toList, "203.0.113.9".toList, "GET".toList⟩
    ⟨.returned 0, 2500000, 1700000000⟩
    ⟨"http://192.168.1.10:8000/dashboard".toList, "192.168.1.10".toList, "8000".toList, 8000,
      "/dashboard".toList⟩ 0 (by decide) (by decide) rfl).2
  refine ⟨e, he, h1, h2, h5, ?_, h9⟩
  have h7' : e.Duration * 1000000 ≤ 2500000 := h7
  have h8' : (2500000 : Int) < (e.Duration + 1) * 1000000 := h8
  omega

/-- Counterexample to C15: `/proxy/10.0.0.5:+80/` is forwarded to port 80 of `10.0.0.5`
(the target is `http://10.0.0.5:80/`), and its log entry has the target port `+80`, the
port text of the path, not the port `80`. -/
theorem ProxyRequest_log_record_counterexample :
    (Proxino.ProxyRequest "/10.0.0.5:+80/".toList).target? = some "http://10.0.0.5:80/".toList ∧
    (Handler.ProxyRequest ⟨"/10.0.0.5:+80/".toList, "203.0.113.9".toList, "GET".toList⟩
      ⟨.returned 200, 1500000, 0⟩).logged.map LogEntry.TargetPort = ["+80".toList] ∧
    fmtInt 80 = "80".toList ∧ "+80".toList ≠ fmtInt 80 := by
  decide

/-! ## Settings and log queries -/

/-- The mask of a token of more than 8 bytes. -/
theorem tokenMasked_long (t : Bytes) (h : 8 < t.length) :
    tokenMasked t = t.take 4 ++ stars ++ t.drop (t.length - 4) := by
  unfold tokenMasked; rw [if_pos h]

/-- The mask of a token of 1 to 8 bytes. -/
theorem tokenMasked_short (t : Bytes) (h0 : 0 < t.length) (h : t.length ≤ 8) :
    tokenMasked t = stars := by
  unfold tokenMasked; rw [if_neg (by omega), if_pos h0]

/-- The mask of a token of more than 8 bytes has 12 bytes. -/
theorem tokenMasked_length (t : Bytes) (h : 8 < t.length) : (tokenMasked t).length = 12 := by
  rw [tokenMasked_long t h]
  simp only [List.length_append, List.length_take, List.length_drop, stars, List.length_cons,
    List.length_nil]
  omega

/-- A text is its first 4 bytes, the next 4 bytes and the rest. -/
theorem take_mid_drop (t : Bytes) : t = t.take 4 ++ ((t.drop 4).take 4 ++ t.drop 8) := by
  have h1 : (t.drop 4).take 4 ++ t.drop 8 = t.drop 4 := by
    have := List.take_append_drop 4 (t.drop 4)
    rwa [List.drop_drop] at this
  rw [h1, List.take_append_drop]

/-- The tokens that are their own mask. -/
theorem tokenMasked_fixed (t : Bytes) (hne : t ≠ []) :
    tokenMasked t = t ↔ t = stars ∨ (t.length = 12 ∧ (t.drop 4).take 4 = stars) := by
  have hpos : 0 < t.length := List.length_pos.mpr hne
  by_cases h : 8 < t.length
  · constructor
    · intro heq
      have hlen : t.length = 12 := by rw [← tokenMasked_length t h, heq]
      right
      refine ⟨hlen, ?_⟩
      rw [tokenMasked_long t h, hlen] at heq
      have hs := take_mid_drop t
      rw [List.append_assoc] at heq
      have h2 : t.take 4 ++ (stars ++ t.drop 8) = t.take 4 ++ ((t.drop 4).take 4 ++ t.drop 8) :=
        heq.trans hs
      have h3 := List.append_cancel_left h2
      exact (List.append_cancel_right h3).symm
    · rintro (hst | ⟨hlen, hmid⟩)
      · rw [hst] at h; simp [stars] at h
      · rw [tokenMasked_long t h, hlen, List.append_assoc, ← hmid]
        exact (take_mid_drop t).symm
  · rw [tokenMasked_short t hpos (by omega)]
    constructor
    · intro heq; left; exact heq.symm
    · rintro (hst | ⟨hlen, -⟩)
      · exact hst.symm
      · omega

/-- The mask of a token: the empty text for the empty token and for no other, `****` for
a token of 1 to 8 bytes, the first 4 bytes, `****` and the last 4 bytes for a longer
token. The mask of a token that is not empty equals the token exactly when the token is
`****` itself or has 12 bytes of which the middle four are `****`. -/
theorem tokenMasked_shape (token : Bytes) :
    (token = [] ↔ tokenMasked token = []) ∧
    (0 < token.length ∧ token.length ≤ 8 → tokenMasked token = stars) ∧
    (8 < token.length →
      tokenMasked token = token.take 4 ++ stars ++ token.drop (token.length - 4)) ∧
    (token ≠ [] → (tokenMasked token = token ↔
      token = stars ∨ (token.length = 12 ∧ (token.drop 4).take 4 = stars))) := by
  refine ⟨?_, fun h => tokenMasked_short token h.1 h.2, tokenMasked_long token,
    tokenMasked_fixed token⟩
  constructor
  · rintro rfl; rfl
  · intro h
    by_contra hne
    have hpos : 0 < token.length := List.length_pos.mpr hne
    by_cases h8 : 8 < token.length
    · have := tokenMasked_length token h8
      rw [h] at this; simp at this
    · rw [tokenMasked_short token hpos (by omega)] at h
      simp [stars] at h

/-- A token whose fourth byte begins a rune of two bytes (`abcé56789`): the mask cuts the
rune, and the JSON response holds U+FFFD in its place. -/
theorem GetSettings_cut_rune :
    GetSettings (.ok ⟨[97, 98, 99, 195, 169, 53, 54, 55, 56, 57], []⟩) =
      .ok [97, 98, 99, 239, 191, 189, 42, 42, 42, 42, 54, 55, 56, 57] [] := by
  decide

/-- C16. `GetSettings` at the stored tokens `abcd****wxyz` and `****`, which are not
empty: the value of `ngrok_token` in the response is the stored token itself, where the
claim says it is never equal to the stored token. -/
theorem GetSettings_token_exposed :
    GetSettings (.ok ⟨[97, 98, 99, 100, 42, 42, 42, 42, 119, 120, 121, 122], []⟩) =
      .ok [97, 98, 99, 100, 42, 42, 42, 42, 119, 120, 121, 122] [] ∧
    GetSettings (.ok ⟨[42, 42, 42, 42], []⟩) = .ok [42, 42, 42, 42] [] ∧
    tokenMasked [97, 98, 99, 100, 42, 42, 42, 42, 119, 120, 121, 122] =
      [97, 98, 99, 100, 42, 42, 42, 42, 119, 120, 121, 122] ∧
    tokenMasked [42, 42, 42, 42] = [42, 42, 42, 42] := by
  decide

/-! ## Order of the passes and number of base tags -/

/-- C17. `RewriteHTML` with the proxy prefix `/proxy/10.0.0.5:80` on the document
`<a href="src='s'">`: with the href pass before the src pass the link becomes
`/proxy/10.0.0.5:80//proxy/10.0.0.5:80/src='s'`, with the src pass before the href pass it
becomes `/proxy/10.0.0.5:80/proxy/10.0.0.5:80/src='s'`; the two orders give different
outputs. -/
theorem RewriteHTML_order_dependent :
    IsProxyPrefix exampleRewriter.proxyPrefix ∧
    exampleRewriter.RewriteHTML [.href, .src, .action, .content, .url]
        "<a href=\"src='s'\">".toList =
      "<base href=\"/proxy/10.0.0.5:80/\">\n<a href=\"/proxy/10.0.0.5:80//proxy/10.0.0.5:80/src='s'\">".toList ∧
    exampleRewriter.RewriteHTML [.src, .href, .action, .content, .url]
        "<a href=\"src='s'\">".toList =
      "<base href=\"/proxy/10.0.0.5:80/\">\n<a href=\"/proxy/10.0.0.5:80/proxy/10.0.0.5:80/src='s'\">".toList ∧
    exampleRewriter.RewriteHTML [.href, .src, .action, .content, .url]
        "<a href=\"src='s'\">".toList ≠
      exampleRewriter.RewriteHTML [.src, .href, .action, .content, .url]
        "<a href=\"src='s'\">".toList :=
  ⟨exampleRewriter_isProxyPrefix, by decide, by decide, by decide⟩

set_option maxRecDepth 100000 in
/-- C18. `injectBaseTag` with the proxy prefix `/proxy/10.0.0.5:80` on a document without
base tag that has a head tag and a header element: the base tag is put behind both, and
occurs twice in the output. -/
theorem injectBaseTag_two_base_tags :
    IsProxyPrefix exampleRewriter.proxyPrefix ∧
    Contains (ToLower
      "<html><head><title>t</title></head><body><header>h</header></body></html>".toList)
      "<base".toList = false ∧
    exampleRewriter.injectBaseTag
        "<html><head><title>t</title></head><body><header>h</header></body></html>".toList =
      "<html><head>\n    <base href=\"/proxy/10.0.0.5:80/\"><title>t</title></head><body><header>\n    <base href=\"/proxy/10.0.0.5:80/\">h</header></body></html>".toList ∧
    occurrences (exampleRewriter.injectBaseTag
        "<html><head><title>t</title></head><body><header>h</header></body></html>".toList)
      "<base href=\"/proxy/10.0.0.5:80/\">".toList = 2 :=
  ⟨exampleRewriter_isProxyPrefix, by decide, by decide, by decide⟩

set_option maxRecDepth 100000 in
/-- C10. `injectBaseTag` with the proxy prefix `/proxy/10.0.0.5:80` on the document
`<html><body><html-include></html-include></body></html>`, which holds neither `<base`
nor an opening head tag: a head element with the base tag is synthesized behind the html
tag and a second one behind `<html-include>`, where the claim says the document is
returned with one head element, put behind the html tag. -/
theorem injectBaseTag_two_heads :
    IsProxyPrefix exampleRewriter.proxyPrefix ∧
    Contains (ToLower "<html><body><html-include></html-include></body></html>".toList)
      "<base".toList = false ∧
    headPattern.MatchString "<html><body><html-include></html-include></body></html>".toList =
      false ∧
    exampleRewriter.injectBaseTag
        "<html><body><html-include></html-include></body></html>".toList =
      "<html>\n  <head>\n    <base href=\"/proxy/10.0.0.5:80/\">\n  </head><body><html-include>\n  <head>\n    <base href=\"/proxy/10.0.0.5:80/\">\n  </head></html-include></body></html>".toList ∧
    occurrences (exampleRewriter.injectBaseTag
        "<html><body><html-include></html-include></body></html>".toList)
      "<base href=\"/proxy/10.0.0.5:80/\">".toList = 2 :=
  ⟨exampleRewriter_isProxyPrefix, by decide, by decide, by decide, by decide⟩

/-- The limit `GetLogs` passes on, by the result of `strconv.Atoi`. -/
theorem GetLogs_fst (l o : Option Str) :
    (GetLogs l o).1 = (match Atoi (l.getD "50".toList) with
      | none => 50
      | some n => if n ≤ 0 then 50 else if n > 1000 then 1000 else n) := by
  unfold GetLogs DefaultQuery
  dsimp only
  generalize Atoi (l.getD "50".toList) = r
  cases r with
  | none => rfl
  | some n =>
    dsimp only
    split_ifs <;> first | rfl | omega

/-- The offset `GetLogs` passes on, by the result of `strconv.Atoi`. -/
theorem GetLogs_snd (l o : Option Str) :
    (GetLogs l o).2 = (match Atoi (o.getD "0".toList) with
      | none => 0
      | some n => if n < 0 then 0 else n) := by
  unfold GetLogs DefaultQuery
  rfl

/-- C19 (amended). For every pair of limit and offset query values, the limit `GetLogs`
passes to the log store is in 1..1000 and the offset is not negative. A missing limit, a
limit text `strconv.Atoi` does not read (not a decimal integer, or outside the range of
`int`) and a limit that is not positive become 50, a limit read as a number above 1000
becomes 1000, a limit read as a number in 1..1000 is used as given. A missing offset, an
offset text `strconv.Atoi` does not read and a negative offset become 0, any other offset
is used as given. -/
theorem GetLogs_spec (limitQuery offsetQuery : Option Str) :
    (1 ≤ (GetLogs limitQuery offsetQuery).1 ∧ (GetLogs limitQuery offsetQuery).1 ≤ 1000 ∧
      0 ≤ (GetLogs limitQuery offsetQuery).2) ∧
    (limitQuery = none → (GetLogs limitQuery offsetQuery).1 = 50) ∧
    (∀ s, limitQuery = some s → Atoi s = none → (GetLogs limitQuery offsetQuery).1 = 50) ∧
    (∀ s n, limitQuery = some s → Atoi s = some n →
      (n ≤ 0 → (GetLogs limitQuery offsetQuery).1 = 50) ∧
      (1000 < n → (GetLogs limitQuery offsetQuery).1 = 1000) ∧
      (1 ≤ n ∧ n ≤ 1000 → (GetLogs limitQuery offsetQuery).1 = n)) ∧
    (offsetQuery = none → (GetLogs limitQuery offsetQuery).2 = 0) ∧
    (∀ s, offsetQuery = some s → Atoi s = none → (GetLogs limitQuery offsetQuery).2 = 0) ∧
    (∀ s n, offsetQuery = some s → Atoi s = some n →
      (n < 0 → (GetLogs limitQuery offsetQuery).2 = 0) ∧
      (0 ≤ n → (GetLogs limitQuery offsetQuery).2 = n)) := by
  have h50 : Atoi "50".toList = some 50 := by decide
  have h0 : Atoi "0".toList = some 0 := by decide
  refine ⟨⟨?_, ?_, ?_⟩, ?_, ?_, ?_, ?_, ?_, ?_⟩
  · rw [GetLogs_fst]; split <;> first | omega | (split_ifs <;> omega)
  · rw [GetLogs_fst]; split <;> first | omega | (split_ifs <;> omega)
  · rw [GetLogs_snd]; split <;> first | omega | (split_ifs <;> omega)
  · rintro rfl; rw [GetLogs_fst]; simp only [Option.getD_none, h50]; rfl
  · rintro s rfl hs; rw [GetLogs_fst]; simp only [Option.getD_some, hs]
  · rintro s n rfl hs; rw [GetLogs_fst]; simp only [Option.getD_some, hs]
    refine ⟨fun h => by rw [if_pos h], fun h => by rw [if_neg (by omega), if_pos h],
      fun h => by rw [if_neg (by omega), if_neg (by omega)]⟩
  · rintro rfl; rw [GetLogs_snd]; simp only [Option.getD_none, h0]; rfl
  · rintro s rfl hs; rw [GetLogs_snd]; simp only [Option.getD_some, hs]
  · rintro s n rfl hs; rw [GetLogs_snd]; simp only [Option.getD_some, hs]
    exact ⟨fun h => by rw [if_pos h], fun h => by rw [if_neg (by omega)]⟩

/-- Counterexample to C19: the limit `99999999999999999999` is a decimal number above
1000, but outside the range of `int`, so `strconv.Atoi` returns an error and the limit
becomes 50, not 1000. -/
theorem GetLogs_counterexample :
    atoiDigits "99999999999999999999".toList 0 = some 99999999999999999999 ∧
    (1000 : Nat) < 99999999999999999999 ∧
    Atoi "99999999999999999999".toList = none ∧
    GetLogs (some "99999999999999999999".toList) none = (50, 0) := by
  decide

end Proxino
